import Mathlib

/-! # zcache: LRU store, consistent-hash ring, single-flight coordinator, group loader

A shallow embedding of the Go packages `lru`, `consistenthash`, `singleflight`
and `zcache`, followed by theorems about them.

Conventions of the embedding.

* A Go `string` is a Lean `String`; `len(s)` is `s.utf8ByteSize`.
* Go `int`/`int64` are `Int`.  The only arithmetic on them is the byte counter
  of the LRU store, which adds and subtracts lengths of live objects; the
  counter is kept as an unbounded integer.
* A Go `map[K]V` is an association list (`GoMap`); a nil map is `none`.
* A pointer to a `list.Element` is a natural number (`Element.id`), handed out
  by a fresh-address counter kept in the store.
* A callback is a function on an explicit world state; each invocation is also
  recorded in a trace so that invocations can be counted.
* Code that can dereference nil, panic, wait or loop returns `Except Fail _`.
  A loop that need not end takes a number of iterations it may use (`fuel`);
  running out of it is the failure `outOfFuel`.
-/

namespace zcache

/-! ## Go maps -/

/-- A Go map as an association list.  Lookup reads the first binding of a key. -/
abbrev GoMap (α β : Type) := List (α × β)

namespace GoMap

variable {α β : Type} [DecidableEq α]

/-- The lookup `m[k]` with its presence flag: `none` when `k` is not a key. -/
def find (m : GoMap α β) (k : α) : Option β :=
  match m with
  | [] => none
  | (a, b) :: rest => if a = k then some b else find rest k

/-- The builtin `delete(m, k)`. -/
def del (m : GoMap α β) (k : α) : GoMap α β :=
  m.filter (fun p => decide (p.1 ≠ k))

/-- The assignment `m[k] = v`. -/
def put (m : GoMap α β) (k : α) (v : β) : GoMap α β :=
  (k, v) :: del m k

end GoMap

/-- Ways in which an embedded operation can fail to return. -/
inductive Fail where
  /-- A method was called through a nil `*list.List`. -/
  | nilDeref
  /-- The index holds an element address that no node of the list carries. -/
  | dangling
  /-- The loop did not finish within the iteration budget. -/
  | outOfFuel
  /-- The goroutine waits on a WaitGroup that only another goroutine can release. -/
  | blocked
  /-- An explicit `panic`, or a failed type assertion. -/
  | panic
  deriving DecidableEq, Repr

deriving instance DecidableEq for Except

/-- A Go `error` value, identified by its message. -/
structure GoError where
  text : String
  deriving DecidableEq, Repr

/-! ## Package lru -/

namespace lru

/-- The interface `Value`: anything with a `Len() int`. -/
class Value (V : Type) where
  /-- The method `Len`. -/
  Len : V → Int

/-- The struct `entry`. -/
structure entry (V : Type) where
  key : String
  value : V
  deriving DecidableEq, Repr

/-- A node of `container/list`: its address and its `Value` field, which always
holds an `*entry`. -/
structure Element (V : Type) where
  id : Nat
  Value : entry V
  deriving DecidableEq, Repr

/-- The struct `Cache`.  `list` is the recency list, front first.  `OnEvicted`
tells whether the callback is non-nil, and `evicted` records the arguments of
every call of it, in call order.  `nextId` is the next unused element address. -/
structure Cache (V : Type) where
  maxBytes : Int
  nbytes : Int
  cache : Option (GoMap String Nat)
  list : Option (List (Element V))
  OnEvicted : Bool
  evicted : List (String × V)
  nextId : Nat
  deriving DecidableEq, Repr

variable {V : Type}

/-- The constructor `New`. -/
def New (maxBytes : Int) (onEvicted : Bool) : Cache V :=
  { maxBytes := maxBytes, nbytes := 0, cache := some [], list := some [],
    OnEvicted := onEvicted, evicted := [], nextId := 0 }

/-- Reads `e.Value` for the element at address `e`. -/
def elementAt (l : List (Element V)) (e : Nat) : Option (Element V) :=
  l.find? (fun x => decide (x.id = e))

/-- The list method `Remove`. -/
def listRemove (l : List (Element V)) (e : Nat) : List (Element V) :=
  l.filter (fun x => decide (x.id ≠ e))

/-- The list method `MoveToFront`. -/
def listMoveToFront (l : List (Element V)) (e : Nat) : List (Element V) :=
  match elementAt l e with
  | some x => x :: listRemove l e
  | none => l

/-- The assignment `kv.value = v` through the entry pointer of element `e`. -/
def listSetValue (l : List (Element V)) (e : Nat) (v : V) : List (Element V) :=
  l.map (fun x => if x.id = e then { x with Value := { x.Value with value := v } } else x)

/-- The method `removeElement`. -/
def removeElement [Value V] (c : Cache V) (e : Nat) : Except Fail (Cache V) :=
  match c.list with
  | none => .error .nilDeref
  | some l =>
    match elementAt l e with
    | none => .error .dangling
    | some x =>
      let kv := x.Value
      .ok { c with
        list := some (listRemove l e)
        nbytes := c.nbytes - (kv.key.utf8ByteSize : Int) - Value.Len kv.value
        cache := c.cache.map (fun m => GoMap.del m kv.key)
        evicted := if c.OnEvicted then c.evicted ++ [(kv.key, kv.value)] else c.evicted }

/-- The method `RemoveOldest`. -/
def RemoveOldest [Value V] (c : Cache V) : Except Fail (Cache V) :=
  match c.cache with
  | none => .ok c
  | some _ =>
    match c.list with
    | none => .error .nilDeref
    | some l =>
      match l.getLast? with
      | some x => removeElement c x.id
      | none => .ok c

/-- The method `Remove`. -/
def Remove [Value V] (c : Cache V) (key : String) : Except Fail (Cache V) :=
  match c.cache with
  | none => .ok c
  | some m =>
    match GoMap.find m key with
    | some e => removeElement c e
    | none => .ok c

/-- The condition of the eviction loop of `Add`:
`c.maxBytes != 0 && int64(c.list.Len()) > c.maxBytes`. -/
def evictCond (c : Cache V) : Except Fail Bool :=
  if c.maxBytes = 0 then .ok false
  else
    match c.list with
    | none => .error .nilDeref
    | some l => .ok (decide ((l.length : Int) > c.maxBytes))

/-- The eviction loop of `Add`, allowed at most `fuel` iterations. -/
def evictLoop [Value V] : Nat → Cache V → Except Fail (Cache V)
  | 0, c =>
    match evictCond c with
    | .error f => .error f
    | .ok false => .ok c
    | .ok true => .error .outOfFuel
  | n + 1, c =>
    match evictCond c with
    | .error f => .error f
    | .ok false => .ok c
    | .ok true =>
      match RemoveOldest c with
      | .error f => .error f
      | .ok c1 => evictLoop n c1

/-- The method `Add`; the eviction loop gets `fuel` iterations. -/
def Add [Value V] (fuel : Nat) (c : Cache V) (k : String) (v : V) : Except Fail (Cache V) :=
  match c.cache with
  | none => .ok c
  | some m =>
    match GoMap.find m k with
    | some e =>
      match c.list with
      | none => .error .nilDeref
      | some l =>
        let l1 := listMoveToFront l e
        match elementAt l1 e with
        | none => .error .dangling
        | some x =>
          let kv := x.Value
          evictLoop fuel { c with
            list := some (listSetValue l1 e v)
            nbytes := c.nbytes - Value.Len kv.value + Value.Len v }
    | none =>
      match c.list with
      | none => .error .nilDeref
      | some l =>
        let e := c.nextId
        evictLoop fuel { c with
          list := some ({ id := e, Value := { key := k, value := v } } :: l)
          cache := some (GoMap.put m k e)
          nextId := c.nextId + 1 }

/-- The method `Get`; the value is `none` for the result `(nil, false)`. -/
def Get (c : Cache V) (k : String) : Except Fail (Cache V × Option V) :=
  match c.cache with
  | none => .ok (c, none)
  | some m =>
    match GoMap.find m k with
    | some e =>
      match c.list with
      | none => .error .nilDeref
      | some l =>
        let l1 := listMoveToFront l e
        match elementAt l1 e with
        | none => .error .dangling
        | some x => .ok ({ c with list := some l1 }, some x.Value.value)
    | none => .ok (c, none)

/-- The calls of `OnEvicted` made by the `range` loop of `Clear`, in the order
in which the index is traversed. -/
def clearCalls (l : Option (List (Element V))) :
    GoMap String Nat → Except Fail (List (String × V))
  | [] => .ok []
  | (_, e) :: rest =>
    match l.bind (fun l => elementAt l e) with
    | none => .error .dangling
    | some x =>
      match clearCalls l rest with
      | .error f => .error f
      | .ok cs => .ok ((x.Value.key, x.Value.value) :: cs)

/-- The method `Clear`. -/
def Clear (c : Cache V) : Except Fail (Cache V) :=
  if c.OnEvicted then
    match clearCalls c.list (c.cache.getD []) with
    | .error f => .error f
    | .ok cs => .ok { c with evicted := c.evicted ++ cs, list := none, cache := none }
  else .ok { c with list := none, cache := none }

/-- The method `Len`. -/
def Len (c : Cache V) : Except Fail Int :=
  match c.cache with
  | none => .ok 0
  | some _ =>
    match c.list with
    | none => .error .nilDeref
    | some l => .ok (l.length : Int)

/-- The size of one entry: `len(key) + value.Len()`. -/
def entrySize [Value V] (x : Element V) : Int :=
  (x.Value.key.utf8ByteSize : Int) + Value.Len x.Value.value

/-- The total size of the live entries of a store. -/
def liveBytes [Value V] (c : Cache V) : Int :=
  ((c.list.getD []).map entrySize).sum

/-- The calls available on a store between `New` and `Clear`. -/
inductive Op (V : Type) where
  | add (k : String) (v : V)
  | get (k : String)
  | remove (k : String)
  | removeOldest

/-- One call; `fuel` bounds the eviction loop of an `Add`. -/
def step [Value V] (fuel : Nat) (c : Cache V) : Op V → Except Fail (Cache V)
  | .add k v => Add fuel c k v
  | .get k => (Get c k).map Prod.fst
  | .remove k => Remove c k
  | .removeOldest => RemoveOldest c

/-- A sequence of calls, left to right. -/
def run [Value V] (fuel : Nat) (c : Cache V) : List (Op V) → Except Fail (Cache V)
  | [] => .ok c
  | op :: ops =>
    match step fuel c op with
    | .error f => .error f
    | .ok c1 => run fuel c1 ops

/-- The states a store created by `New maxBytes onEvicted` can be in after a
sequence of `Add`, `Get`, `Remove` and `RemoveOldest` calls. -/
def Reachable [Value V] (maxBytes : Int) (onEvicted : Bool) (c : Cache V) : Prop :=
  ∃ (fuel : Nat) (ops : List (Op V)), run fuel (New maxBytes onEvicted) ops = .ok c

/-- The index `m` and the list `l` describe the same set of entries, and every
address in use is below the fresh-address counter `n`. -/
structure Linked (m : GoMap String Nat) (l : List (Element V)) (n : Nat) : Prop where
  ids : (l.map Element.id).Nodup
  keys : (l.map (fun x => x.Value.key)).Nodup
  index : (m.map Prod.fst).Nodup
  toIndex : ∀ x ∈ l, GoMap.find m x.Value.key = some x.id
  toList : ∀ k e, GoMap.find m k = some e → ∃ x ∈ l, x.id = e ∧ x.Value.key = k
  fresh : ∀ x ∈ l, x.id < n

/-- A store is live and well linked: index and list are non-nil and agree. -/
def Inv (c : Cache V) : Prop :=
  ∃ m l, c.cache = some m ∧ c.list = some l ∧ Linked m l c.nextId

/-- The arguments with which `OnEvicted` is called for an entry. -/
def onEvictedArgs (x : Element V) : String × V := (x.Value.key, x.Value.value)

/-- The calls of `OnEvicted` made when the entries `xs` are removed from the
tail upwards: none when the callback is nil. -/
def evictedCalls (onEvicted : Bool) (xs : List (Element V)) : List (String × V) :=
  if onEvicted then xs.reverse.map onEvictedArgs else []

/-- The entry count respects the bound that the eviction loop enforces. -/
def Bounded (c : Cache V) : Prop :=
  ∀ l, c.list = some l → c.maxBytes = 0 ∨ (l.length : Int) ≤ c.maxBytes ∨ l = []

/-- The clock kept next to a store to date its entries: `now` is the number of
calls made so far and `last` holds, for each key, the time of its most recent
`Add` or `Get` hit. -/
structure Stamps where
  now : Nat
  last : GoMap String Nat
  deriving DecidableEq, Repr

/-- The time of the most recent `Add` or `Get` hit of `k`. -/
def Stamps.lastOf (s : Stamps) (k : String) : Nat := (GoMap.find s.last k).getD 0

/-- A call that is an `Add` of `k` or a `Get` hit on `k`. -/
def Stamps.touch (s : Stamps) (k : String) : Stamps :=
  { now := s.now + 1, last := GoMap.put s.last k s.now }

/-- Any other call. -/
def Stamps.tick (s : Stamps) : Stamps := { s with now := s.now + 1 }

/-- One call on a store with its clock. -/
def stepT [Value V] (fuel : Nat) (c : Cache V) (s : Stamps) :
    Op V → Except Fail (Cache V × Stamps)
  | .add k v =>
    match Add fuel c k v with
    | .error f => .error f
    | .ok c1 => .ok (c1, s.touch k)
  | .get k =>
    match Get c k with
    | .error f => .error f
    | .ok (c1, some _) => .ok (c1, s.touch k)
    | .ok (c1, none) => .ok (c1, s.tick)
  | .remove k =>
    match Remove c k with
    | .error f => .error f
    | .ok c1 => .ok (c1, s.tick)
  | .removeOldest =>
    match RemoveOldest c with
    | .error f => .error f
    | .ok c1 => .ok (c1, s.tick)

/-- A sequence of calls on a store with its clock. -/
def runT [Value V] (fuel : Nat) (c : Cache V) (s : Stamps) :
    List (Op V) → Except Fail (Cache V × Stamps)
  | [] => .ok (c, s)
  | op :: ops =>
    match stepT fuel c s op with
    | .error f => .error f
    | .ok (c1, s1) => runT fuel c1 s1 ops

/-- The states of a store and its clock after a sequence of `Add`, `Get`,
`Remove` and `RemoveOldest` calls on `New maxBytes onEvicted`. -/
def ReachableT [Value V] (maxBytes : Int) (onEvicted : Bool) (c : Cache V) (s : Stamps) : Prop :=
  ∃ (fuel : Nat) (ops : List (Op V)),
    runT fuel (New maxBytes onEvicted) { now := 0, last := [] } ops = .ok (c, s)

/-- The recency list is in the order of the clock: each entry was last touched
after every entry behind it, and before now. -/
def Stamped (c : Cache V) (s : Stamps) : Prop :=
  ∀ l, c.list = some l →
    (l.map (fun x : Element V => x.Value.key)).Pairwise (fun a b => s.lastOf b < s.lastOf a) ∧
    ∀ x ∈ l, s.lastOf x.Value.key < s.now

/-- The eviction loop of `Add` together with the number of `RemoveOldest` calls
it makes; the store it returns is the one `evictLoop` returns. -/
def evictLoopCount [Value V] : Nat → Cache V → Except Fail (Cache V × Nat)
  | 0, c =>
    match evictCond c with
    | .error f => .error f
    | .ok false => .ok (c, 0)
    | .ok true => .error .outOfFuel
  | n + 1, c =>
    match evictCond c with
    | .error f => .error f
    | .ok false => .ok (c, 0)
    | .ok true =>
      match RemoveOldest c with
      | .error f => .error f
      | .ok c1 =>
        match evictLoopCount n c1 with
        | .error f => .error f
        | .ok (c2, calls) => .ok (c2, calls + 1)

end lru

/-! ## ByteView -/

/-- The struct `ByteView`. -/
structure ByteView where
  b : List UInt8
  deriving DecidableEq, Repr

/-- The method `ByteView.Len`. -/
def ByteView.Len (v : ByteView) : Int := (v.b.length : Int)

instance : lru.Value ByteView := ⟨ByteView.Len⟩

/-- The helper `cloneBytes`: a fresh slice with the same contents. -/
def cloneBytes (b : List UInt8) : List UInt8 := b

/-- The conversion `[]byte(s)`. -/
def bytesOf (s : String) : List UInt8 := s.data.flatMap String.utf8EncodeChar

namespace lru

/-- A run on a store of three entries: "a", "b", "c" are added, "a" is read,
and the `Add` of "d" evicts "b". -/
def demoOps : List (Op ByteView) :=
  [.add "a" ⟨[1]⟩, .add "b" ⟨[2, 2]⟩, .add "c" ⟨[3, 3, 3]⟩, .get "a", .add "d" ⟨[4]⟩]

/-- The store after `demoOps` on `New 3 true`. -/
def demoStore : Cache ByteView :=
  { maxBytes := 3
    nbytes := -3
    cache := some [("d", 3), ("c", 2), ("a", 0)]
    list := some [{ id := 3, Value := { key := "d", value := ⟨[4]⟩ } },
                  { id := 0, Value := { key := "a", value := ⟨[1]⟩ } },
                  { id := 2, Value := { key := "c", value := ⟨[3, 3, 3]⟩ } }]
    OnEvicted := true
    evicted := [("b", ⟨[2, 2]⟩)]
    nextId := 4 }

/-- The clock after `demoOps`. -/
def demoStamps : Stamps :=
  { now := 5, last := [("d", 4), ("a", 3), ("c", 2), ("b", 1)] }

end lru

/-! ## Package consistenthash -/

namespace consistenthash

/-- The type `Hash`, `func(data []byte) uint32`, as a function of the string
whose bytes are `data`.  A `uint32` is a natural number; the package only
compares hashes, so every result on natural-number hashes covers the 32-bit ones. -/
abbrev Hash := String → Nat

/-- One bit step of the reflected CRC-32 with the IEEE polynomial. -/
def crc32Step (crc : Nat) : Nat :=
  if crc % 2 = 1 then (crc / 2) ^^^ 0xEDB88320 else crc / 2

/-- The CRC-32 update for one byte. -/
def crc32Byte (crc : Nat) (b : UInt8) : Nat :=
  crc32Step^[8] (crc ^^^ b.toNat)

/-- The library function `crc32.ChecksumIEEE`. -/
def ChecksumIEEE (data : List UInt8) : Nat :=
  (data.foldl crc32Byte 0xFFFFFFFF) ^^^ 0xFFFFFFFF

/-- The struct `Map`. -/
structure Map where
  hash : Hash
  replicas : Int
  keys : List Nat
  hashMap : GoMap Nat String

/-- The constructor `New`; `fn = none` is the nil hash function. -/
def New (replicas : Int) (fn : Option Hash) : Map :=
  { hash := fn.getD (fun s => ChecksumIEEE (bytesOf s))
    replicas := replicas
    keys := []
    hashMap := [] }

/-- The body of the inner loop of `Add` for replica number `i` of peer `key`. -/
def addReplica (key : String) (m : Map) (i : Nat) : Map :=
  let hash := m.hash (toString i ++ key)
  { m with keys := m.keys ++ [hash], hashMap := GoMap.put m.hashMap hash key }

/-- The inner loop of `Add`: `for i := range m.replicas`. -/
def addKey (m : Map) (key : String) : Map :=
  (List.range m.replicas.toNat).foldl (addReplica key) m

/-- The method `Add`.  `sort.Slice` with the order `<` on hashes leaves the one
ascending arrangement of the slice. -/
def Add (m : Map) (keys : List String) : Map :=
  let m1 := keys.foldl addKey m
  { m1 with keys := m1.keys.insertionSort (fun a b => a ≤ b) }

/-- The loop of the library function `sort.Search` on the window `[i, j)`.  Each
iteration shrinks the window, so `j - i` iterations are always enough. -/
def searchLoop (f : Nat → Bool) : Nat → Nat → Nat → Nat
  | 0, i, _ => i
  | fuel + 1, i, j =>
    if i < j then
      let h := (i + j) / 2
      if !f h then searchLoop f fuel (h + 1) j else searchLoop f fuel i h
    else i

/-- The library function `sort.Search`. -/
def Search (n : Nat) (f : Nat → Bool) : Nat :=
  searchLoop f n 0 n

/-- The method `Get`. -/
def Get (m : Map) (key : String) : String :=
  if m.keys.length = 0 then ""
  else
    let hash := m.hash key
    let idx := Search m.keys.length (fun i => decide (m.keys.getD i 0 ≥ hash))
    let idx := idx % m.keys.length
    (GoMap.find m.hashMap (m.keys.getD idx 0)).getD ""

/-- The rings obtained from `New` by a sequence of `Add` calls. -/
def Reachable (m : Map) : Prop :=
  ∃ (replicas : Int) (fn : Option Hash) (adds : List (List String)),
    m = adds.foldl Add (New replicas fn)

/-- The facts about a ring that every `Add` re-establishes. -/
structure RingInv (m : Map) : Prop where
  sorted : m.keys.Sorted (fun a b => a ≤ b)
  mapped : ∀ x ∈ m.keys, ∃ p, GoMap.find m.hashMap x = some p

/-- The hashes of the virtual nodes of peer `p`: `hash(itoa(i) ++ p)` for `i`
in `[0, replicas)`, in the order in which `Add` appends them. -/
def vnodes (hash : Hash) (replicas : Int) (p : String) : List Nat :=
  (List.range replicas.toNat).map (fun i => hash (toString i ++ p))

/-- The hashes of the virtual nodes of the peers `ps`, one batch per occurrence
of a peer in `ps`. -/
def vnodesOf (hash : Hash) (replicas : Int) (ps : List String) : List Nat :=
  ps.flatMap (vnodes hash replicas)

/-- In the sorted hash list `keys`, `x` is the virtual node that serves hash
`h`: the smallest hash that is at least `h`, or the smallest hash overall when
every hash is below `h`. -/
def IsOwner (keys : List Nat) (h x : Nat) : Prop :=
  x ∈ keys ∧ ((h ≤ x ∧ ∀ y ∈ keys, h ≤ y → x ≤ y) ∨ ((∀ y ∈ keys, y < h) ∧ ∀ y ∈ keys, x ≤ y))

/-- The hash function of the ring test: the bytes read as a decimal number. -/
def atoi (s : String) : Nat :=
  s.data.foldl (fun n c => 10 * n + (c.toNat - 48)) 0

end consistenthash

/-! ## Package singleflight -/

namespace singleflight

/-- The struct `call`: `wg` is the counter of the WaitGroup, `val` and `err` the
stored result.  `R` is the type behind `interface{}`; its default is nil. -/
structure call (R : Type) where
  wg : Nat
  val : R
  err : Option GoError

/-- The struct `Group`; the mutex guards `m` and is not modelled. -/
structure Group (R : Type) where
  m : Option (GoMap String (call R))

/-- The method `Do`, as run by one goroutine.  `fn` acts on a state `W` that
does not contain the group.  When `key` is registered the caller waits on the
WaitGroup of the registered call: it proceeds if the counter is already zero and
otherwise cannot continue on its own. -/
def Do {R W : Type} [Inhabited R] (g : Group R) (key : String)
    (fn : W → Except Fail ((R × Option GoError) × W)) (w : W) :
    Except Fail ((R × Option GoError) × Group R × W) :=
  let m := g.m.getD []
  match GoMap.find m key with
  | some c =>
    if c.wg = 0 then .ok ((c.val, c.err), { m := some m }, w) else .error .blocked
  | none =>
    let c : call R := { wg := 0 + 1, val := default, err := none }
    let m1 := GoMap.put m key c
    match fn w with
    | .error f => .error f
    | .ok ((val, err), w1) =>
      let c1 : call R := { c with val := val, err := err }
      let c2 : call R := { c1 with wg := c1.wg - 1 }
      let m2 := GoMap.put m1 key c2
      .ok ((c2.val, c2.err), { m := some (GoMap.del m2 key) }, w1)

/-- Wraps a callback so that every invocation bumps a counter kept next to the
state it acts on. -/
def counted {R W : Type} (fn : W → Except Fail ((R × Option GoError) × W)) :
    W × Nat → Except Fail ((R × Option GoError) × (W × Nat)) :=
  fun s =>
    match fn s.1 with
    | .error f => .error f
    | .ok (r, w1) => .ok (r, (w1, s.2 + 1))

end singleflight

/-! ## Package zcache: cache wrapper, peers, group -/

/-- What the group does to its environment, in order. -/
inductive Event where
  /-- A call `g.getter.Get(key)`. -/
  | getterGet (key : String)
  /-- A call `g.peers.PickPeer(key)`. -/
  | pickPeer (key : String)
  /-- A call `peer.Get(req, res)` with `req = {Group: group, Key: key}`. -/
  | peerGet (group key : String)
  /-- A call of `log.Println`. -/
  | log (msg : String)
  deriving DecidableEq, Repr

/-- The environment of a group: the state `user` that the callbacks read and
write, and the trace of the calls made so far. -/
structure World (U : Type) where
  user : U
  trace : List Event

/-- The interface `Getter`: `Get(key) ([]byte, error)` on the user state. -/
abbrev Getter (U : Type) := String → U → (List UInt8 × Option GoError) × U

/-- The interface `PeerGetter`: `Get(in, out) error` applied to the group name
and key of the request; the bytes are `out.Value` after the call. -/
abbrev PeerGetter (U : Type) := String → String → U → (List UInt8 × Option GoError) × U

/-- The interface `PeerPicker`: `PickPeer(key) (peer, ok)`; `none` is `ok = false`. -/
abbrev PeerPicker (U : Type) := String → U → Option (PeerGetter U) × U

/-- The struct `cache`; the mutex is not modelled.  `lru = none` is the nil pointer. -/
structure cache where
  lru : Option (lru.Cache ByteView)
  cacheBytes : Int
  deriving DecidableEq, Repr

/-- The method `cache.add`. -/
def cache.add (fuel : Nat) (c : cache) (key : String) (value : ByteView) : Except Fail cache :=
  let c1 : cache :=
    match c.lru with
    | none => { c with lru := some (lru.New c.cacheBytes false) }
    | some _ => c
  match c1.lru with
  | none => .error .nilDeref
  | some l =>
    match lru.Add fuel l key value with
    | .error f => .error f
    | .ok l1 => .ok { c1 with lru := some l1 }

/-- The method `cache.get`; `none` is the result `(ByteView{}, false)`. -/
def cache.get (c : cache) (key : String) : Except Fail (cache × Option ByteView) :=
  match c.lru with
  | none => .ok (c, none)
  | some l =>
    match lru.Get l key with
    | .error f => .error f
    | .ok (l1, some v) => .ok ({ c with lru := some l1 }, some v)
    | .ok (l1, none) => .ok ({ c with lru := some l1 }, none)

/-- The struct `Group`.  The loader stores `interface{}` values, which are nil
(`none`) or hold a `ByteView`. -/
structure Group (U : Type) where
  name : String
  getter : Getter U
  mainCache : cache
  peers : Option (PeerPicker U)
  loader : singleflight.Group (Option ByteView)

/-- The function `NewGroup`, as the group it returns.  The getter is non-nil by
its type, and the registry `groups` plays no part in `Get`. -/
def NewGroup {U : Type} (name : String) (cacheBytes : Int) (getter : Getter U) : Group U :=
  { name := name
    getter := getter
    mainCache := { lru := none, cacheBytes := cacheBytes }
    peers := none
    loader := { m := none } }

/-- The method `RegisterPeers`. -/
def Group.RegisterPeers {U : Type} (g : Group U) (peers : PeerPicker U) : Except Fail (Group U) :=
  match g.peers with
  | some _ => .error .panic
  | none => .ok { g with peers := some peers }

/-- What the closure passed to `Do` in `load` reads and writes: the cache, the
environment, and the named results `value` and `err` of `load`. -/
structure LoadVars (U : Type) where
  mainCache : cache
  world : World U
  value : ByteView
  err : Option GoError

/-- The method `populateCache`. -/
def Group.populateCache (fuel : Nat) (mainCache : cache) (key : String) (value : ByteView) :
    Except Fail cache :=
  mainCache.add fuel key value

/-- The method `getLocally`. -/
def Group.getLocally {U : Type} (fuel : Nat) (g : Group U) (key : String) (s : LoadVars U) :
    Except Fail ((ByteView × Option GoError) × LoadVars U) :=
  let r := g.getter key s.world.user
  let w1 : World U := { user := r.2, trace := s.world.trace ++ [.getterGet key] }
  match r.1.2 with
  | some err => .ok ((⟨[]⟩, some err), { s with world := w1 })
  | none =>
    let value : ByteView := ⟨cloneBytes r.1.1⟩
    match Group.populateCache fuel s.mainCache key value with
    | .error f => .error f
    | .ok c1 => .ok ((value, none), { s with world := w1, mainCache := c1 })

/-- The method `getFromPeer`. -/
def Group.getFromPeer {U : Type} (g : Group U) (peer : PeerGetter U) (key : String)
    (w : World U) : (ByteView × Option GoError) × World U :=
  let r := peer g.name key w.user
  let w1 : World U := { user := r.2, trace := w.trace ++ [.peerGet g.name key] }
  match r.1.2 with
  | some err => ((⟨[]⟩, some err), w1)
  | none => ((⟨r.1.1⟩, none), w1)

/-- The consultation of the picker at the head of the closure of `load`:
`g.peers != nil` and then `g.peers.PickPeer(key)`.  Gives the peer picked, if
any, and the environment afterwards. -/
def Group.pick {U : Type} (g : Group U) (key : String) (w : World U) :
    Option (PeerGetter U) × World U :=
  match g.peers with
  | some peers =>
    let p := peers key w.user
    (p.1, { user := p.2, trace := w.trace ++ [.pickPeer key] })
  | none => (none, w)

/-- The closure that `load` hands to `Do`.  The peer branch assigns the named
results `value` and `err` of `load`. -/
def Group.loadFn {U : Type} (fuel : Nat) (g : Group U) (key : String) (s : LoadVars U) :
    Except Fail ((Option ByteView × Option GoError) × LoadVars U) :=
  let locally (s : LoadVars U) : Except Fail ((Option ByteView × Option GoError) × LoadVars U) :=
    match Group.getLocally fuel g key s with
    | .error f => .error f
    | .ok ((v, e), s1) => .ok ((some v, e), s1)
  match Group.pick g key s.world with
  | (some peer, w1) =>
    let r := Group.getFromPeer g peer key w1
    let s1 : LoadVars U := { s with world := r.2, value := r.1.1, err := r.1.2 }
    match r.1.2 with
    | none => .ok ((some s1.value, none), s1)
    | some e =>
      locally { s1 with world := { s1.world with
        trace := s1.world.trace ++ [.log ("[zcache] 远程节点获取数据失败 " ++ e.text)] } }
  | (none, w1) => locally { s with world := w1 }

/-- The method `load`. -/
def Group.load {U : Type} (fuel : Nat) (g : Group U) (key : String) (w : World U) :
    Except Fail ((ByteView × Option GoError) × Group U × World U) :=
  let s0 : LoadVars U := { mainCache := g.mainCache, world := w, value := ⟨[]⟩, err := none }
  match singleflight.Do g.loader key (Group.loadFn fuel g key) s0 with
  | .error f => .error f
  | .ok ((viewi, err), loader1, s1) =>
    let g1 : Group U := { g with loader := loader1, mainCache := s1.mainCache }
    match err with
    | none =>
      match viewi with
      | some v => .ok ((v, none), g1, s1.world)
      | none => .error .panic
    | some e => .ok ((s1.value, some e), g1, s1.world)

/-- The method `Group.Get`. -/
def Group.Get {U : Type} (fuel : Nat) (g : Group U) (key : String) (w : World U) :
    Except Fail ((ByteView × Option GoError) × Group U × World U) :=
  if key = "" then .ok ((⟨[]⟩, some ⟨"key 字段为空"⟩), g, w)
  else
    match g.mainCache.get key with
    | .error f => .error f
    | .ok (c1, some v) =>
      .ok ((v, none), { g with mainCache := c1 },
        { w with trace := w.trace ++ [.log "[zcache] 缓存命中"] })
    | .ok (c1, none) => Group.load fuel { g with mainCache := c1 } key w

/-- The groups obtained from `NewGroup` by calls of `RegisterPeers` and `Get`. -/
inductive Group.Reachable {U : Type} : Group U → Prop where
  | new (name : String) (cacheBytes : Int) (getter : Getter U) :
      Group.Reachable (NewGroup name cacheBytes getter)
  | register {g g1 : Group U} (peers : PeerPicker U) :
      Group.Reachable g → g.RegisterPeers peers = .ok g1 → Group.Reachable g1
  | get {g g1 : Group U} (fuel : Nat) (key : String) (w w1 : World U)
      (r : ByteView × Option GoError) :
      Group.Reachable g → g.Get fuel key w = .ok (r, g1, w1) → Group.Reachable g1

/-- The number of calls of the user getter recorded in a trace. -/
def getterCalls (t : List Event) : Nat :=
  (t.filter (fun e => match e with | .getterGet _ => true | _ => false)).length

/-- Whether `key` is a miss in the cache of the group. -/
def Group.misses {U : Type} (g : Group U) (key : String) : Prop :=
  (g.mainCache.get key).map Prod.snd = .ok none

instance {U : Type} (g : Group U) (key : String) : Decidable (g.misses key) := by
  unfold Group.misses
  infer_instance

/-- The cache of a group is well formed: the LRU store, once created, is live
and well linked, carries the byte budget of the wrapper and has no callback. -/
def cache.WF (c : cache) : Prop :=
  ∀ l, c.lru = some l → lru.Inv l ∧ l.maxBytes = c.cacheBytes

/-- No call is registered with the loader of the group. -/
def Group.idle {U : Type} (g : Group U) : Prop :=
  ∀ k, GoMap.find (g.loader.m.getD []) k = none

/-- The source of the group test: scores by name. -/
def db : GoMap String String := [("Tom", "630"), ("Jack", "589"), ("Sam", "567")]

/-- The getter of the group test; the user state is the map `loadCounts`. -/
def dbGetter : Getter (GoMap String Nat) := fun key loadCounts =>
  match GoMap.find db key with
  | some v =>
    let lc1 := match GoMap.find loadCounts key with
      | none => GoMap.put loadCounts key 0
      | some _ => loadCounts
    ((bytesOf v, none), GoMap.put lc1 key ((GoMap.find lc1 key).getD 0 + 1))
  | none => (([], some ⟨key ++ " not found"⟩), loadCounts)

/-- A peer whose fetch always fails. -/
def downPeer : PeerGetter Unit := fun _ _ u => (([], some ⟨"peer down"⟩), u)

/-- A picker that always picks `downPeer`. -/
def downPicker : PeerPicker Unit := fun _ u => (some downPeer, u)

/-- A getter that returns the bytes of the key. -/
def echoGetter : Getter Unit := fun key u => ((bytesOf key, none), u)

/-- A peer whose fetch returns the bytes of the group name and the key. -/
def upPeer : PeerGetter Unit := fun group key u => ((bytesOf (group ++ "/" ++ key), none), u)

/-- A picker that always picks `upPeer`. -/
def upPicker : PeerPicker Unit := fun _ u => (some upPeer, u)

end zcache

/-! ## Lemmas on Go maps -/

namespace zcache

namespace GoMap

variable {α β : Type} [DecidableEq α]

theorem find_del_self (m : GoMap α β) (k : α) : find (del m k) k = none := by
  induction m with
  | nil => rfl
  | cons p rest ih =>
    obtain ⟨a, b⟩ := p
    by_cases h : a = k
    · simpa [del, h] using ih
    · have : del ((a, b) :: rest) k = (a, b) :: del rest k := by simp [del, h]
      rw [this]
      simp [find, h, ih]

theorem find_del_ne (m : GoMap α β) {k k' : α} (h : k' ≠ k) :
    find (del m k) k' = find m k' := by
  induction m with
  | nil => rfl
  | cons p rest ih =>
    obtain ⟨a, b⟩ := p
    by_cases ha : a = k
    · have h1 : del ((a, b) :: rest) k = del rest k := by simp [del, ha]
      have h2 : ¬ a = k' := by rw [ha]; exact fun e => h e.symm
      rw [h1, ih]
      simp [find, h2]
    · have h1 : del ((a, b) :: rest) k = (a, b) :: del rest k := by simp [del, ha]
      rw [h1]
      simp [find, ih]

theorem find_put_self (m : GoMap α β) (k : α) (v : β) : find (put m k v) k = some v := by
  simp [put, find]

theorem find_put_ne (m : GoMap α β) {k k' : α} (v : β) (h : k' ≠ k) :
    find (put m k v) k' = find m k' := by
  have h2 : ¬ k = k' := fun e => h e.symm
  simp [put, find, h2, find_del_ne m h]

theorem find_eq_none_iff (m : GoMap α β) (k : α) :
    find m k = none ↔ k ∉ m.map Prod.fst := by
  induction m with
  | nil => simp [find]
  | cons p rest ih =>
    obtain ⟨a, b⟩ := p
    by_cases h : a = k
    · simp [find, h]
    · have h2 : ¬ k = a := fun e => h e.symm
      simp only [find, h, if_false, ih, List.map_cons, List.mem_cons, h2, false_or]

theorem keys_del_sublist (m : GoMap α β) (k : α) :
    ((del m k).map Prod.fst).Sublist (m.map Prod.fst) :=
  (List.filter_sublist m).map Prod.fst

theorem not_mem_keys_del (m : GoMap α β) (k : α) : k ∉ (del m k).map Prod.fst :=
  (find_eq_none_iff _ _).1 (find_del_self m k)

theorem nodup_keys_del {m : GoMap α β} (k : α) (h : (m.map Prod.fst).Nodup) :
    ((del m k).map Prod.fst).Nodup :=
  h.sublist (keys_del_sublist m k)

theorem nodup_keys_put {m : GoMap α β} (k : α) (v : β) (h : (m.map Prod.fst).Nodup) :
    ((put m k v).map Prod.fst).Nodup := by
  simp only [put, List.map_cons, List.nodup_cons]
  exact ⟨not_mem_keys_del m k, nodup_keys_del k h⟩

end GoMap

end zcache

namespace zcache

namespace lru

variable {V : Type}

/-! ## The index and the recency list agree -/

theorem elementAt_some {l : List (Element V)} {e : Nat} {x : Element V}
    (h : elementAt l e = some x) : x ∈ l ∧ x.id = e := by
  unfold elementAt at h
  exact ⟨List.mem_of_find?_eq_some h, by simpa using List.find?_some h⟩

theorem elementAt_of_mem {l : List (Element V)} {x : Element V}
    (hn : (l.map Element.id).Nodup) (hx : x ∈ l) : elementAt l x.id = some x := by
  induction l with
  | nil => simp at hx
  | cons y rest ih =>
    simp only [List.map_cons, List.nodup_cons] at hn
    rcases List.mem_cons.1 hx with rfl | hx
    · simp [elementAt]
    · have hne : y.id ≠ x.id := by
        intro e
        exact hn.1 (e ▸ List.mem_map_of_mem Element.id hx)
      have := ih hn.2 hx
      simpa [elementAt, List.find?_cons, hne] using this

theorem mem_listRemove {l : List (Element V)} {e : Nat} {y : Element V} :
    y ∈ listRemove l e ↔ y ∈ l ∧ y.id ≠ e := by
  simp [listRemove]

theorem eq_of_id_eq {l : List (Element V)} (hn : (l.map Element.id).Nodup)
    {x y : Element V} (hx : x ∈ l) (hy : y ∈ l) (h : x.id = y.id) : x = y :=
  List.inj_on_of_nodup_map hn hx hy h

theorem eq_of_key_eq {l : List (Element V)}
    (hn : (l.map (fun x => x.Value.key)).Nodup)
    {x y : Element V} (hx : x ∈ l) (hy : y ∈ l) (h : x.Value.key = y.Value.key) : x = y :=
  List.inj_on_of_nodup_map hn hx hy h

theorem cons_listRemove_perm {l : List (Element V)} (hn : (l.map Element.id).Nodup)
    {x : Element V} (hx : x ∈ l) : (x :: listRemove l x.id).Perm l := by
  induction l with
  | nil => simp at hx
  | cons y rest ih =>
    simp only [List.map_cons, List.nodup_cons] at hn
    by_cases hxy : y.id = x.id
    · have hyx : x = y := by
        rcases List.mem_cons.1 hx with h | h
        · exact h
        · exact absurd (hxy ▸ List.mem_map_of_mem Element.id h) hn.1
      subst hyx
      have : listRemove (x :: rest) x.id = rest := by
        unfold listRemove
        rw [List.filter_cons_of_neg (by simp)]
        apply List.filter_eq_self.2
        intro z hz
        have : z.id ≠ x.id := fun e => hn.1 (e ▸ List.mem_map_of_mem Element.id hz)
        simpa using this
      rw [this]
    · have hx2 : x ∈ rest := by
        rcases List.mem_cons.1 hx with h | h
        · exact absurd (h ▸ rfl) hxy
        · exact h
      have : listRemove (y :: rest) x.id = y :: listRemove rest x.id := by
        unfold listRemove
        rw [List.filter_cons_of_pos (by simpa using hxy)]
      rw [this]
      exact (List.Perm.swap y x _).trans ((ih hn.2 hx2).cons y)

theorem listMoveToFront_perm {l : List (Element V)} (hn : (l.map Element.id).Nodup)
    (e : Nat) : (listMoveToFront l e).Perm l := by
  unfold listMoveToFront
  cases h : elementAt l e with
  | none => exact List.Perm.refl _
  | some x =>
    obtain ⟨hx, rfl⟩ := elementAt_some h
    exact cons_listRemove_perm hn hx

theorem Linked.empty : Linked ([] : GoMap String Nat) ([] : List (Element V)) 0 :=
  ⟨by simp, by simp, by simp, by simp, by simp [GoMap.find], by simp⟩

theorem Linked.perm {m : GoMap String Nat} {l l' : List (Element V)} {n : Nat}
    (h : Linked m l n) (p : l'.Perm l) : Linked m l' n where
  ids := (p.map Element.id).nodup_iff.2 h.ids
  keys := (p.map _).nodup_iff.2 h.keys
  index := h.index
  toIndex := fun x hx => h.toIndex x (p.mem_iff.1 hx)
  toList := fun k e hk => by
    obtain ⟨x, hx, hh⟩ := h.toList k e hk
    exact ⟨x, p.mem_iff.2 hx, hh⟩
  fresh := fun x hx => h.fresh x (p.mem_iff.1 hx)

theorem Linked.remove {m : GoMap String Nat} {l : List (Element V)} {n : Nat}
    (h : Linked m l n) {x : Element V} (hx : x ∈ l) :
    Linked (GoMap.del m x.Value.key) (listRemove l x.id) n where
  ids := h.ids.sublist ((List.filter_sublist l).map _)
  keys := h.keys.sublist ((List.filter_sublist l).map _)
  index := GoMap.nodup_keys_del _ h.index
  toIndex := fun y hy => by
    obtain ⟨hy, hne⟩ := mem_listRemove.1 hy
    have hk : y.Value.key ≠ x.Value.key := fun e => hne (eq_of_key_eq h.keys hy hx e ▸ rfl)
    rw [GoMap.find_del_ne m hk]
    exact h.toIndex y hy
  toList := fun k e hk => by
    have hne : k ≠ x.Value.key := by
      rintro rfl
      rw [GoMap.find_del_self] at hk
      cases hk
    rw [GoMap.find_del_ne m hne] at hk
    obtain ⟨y, hy, rfl, rfl⟩ := h.toList k e hk
    refine ⟨y, mem_listRemove.2 ⟨hy, fun e => hne ?_⟩, rfl, rfl⟩
    rw [eq_of_id_eq h.ids hy hx e]
  fresh := fun y hy => h.fresh y (mem_listRemove.1 hy).1

theorem Linked.push {m : GoMap String Nat} {l : List (Element V)} {n : Nat}
    (h : Linked m l n) {k : String} (v : V) (hk : GoMap.find m k = none) :
    Linked (GoMap.put m k n) ({ id := n, Value := { key := k, value := v } } :: l) (n + 1) where
  ids := by
    simp only [List.map_cons, List.nodup_cons]
    refine ⟨fun hm => ?_, h.ids⟩
    obtain ⟨y, hy, e⟩ := List.mem_map.1 hm
    exact absurd (h.fresh y hy) (by omega)
  keys := by
    simp only [List.map_cons, List.nodup_cons]
    refine ⟨fun hm => ?_, h.keys⟩
    obtain ⟨y, hy, e⟩ := List.mem_map.1 hm
    have := h.toIndex y hy
    rw [e, hk] at this
    cases this
  index := GoMap.nodup_keys_put _ _ h.index
  toIndex := fun y hy => by
    rcases List.mem_cons.1 hy with rfl | hy
    · exact GoMap.find_put_self _ _ _
    · have hne : y.Value.key ≠ k := by
        intro e
        have := h.toIndex y hy
        rw [e, hk] at this
        cases this
      rw [GoMap.find_put_ne m _ hne]
      exact h.toIndex y hy
  toList := fun k' e hk' => by
    by_cases hkk : k' = k
    · subst hkk
      rw [GoMap.find_put_self] at hk'
      cases hk'
      exact ⟨_, List.mem_cons_self _ _, rfl, rfl⟩
    · rw [GoMap.find_put_ne m _ hkk] at hk'
      obtain ⟨y, hy, hh⟩ := h.toList k' e hk'
      exact ⟨y, List.mem_cons_of_mem _ hy, hh⟩
  fresh := fun y hy => by
    rcases List.mem_cons.1 hy with rfl | hy
    · exact Nat.lt_succ_self _
    · exact Nat.lt_succ_of_lt (h.fresh y hy)

theorem listSetValue_ids (l : List (Element V)) (e : Nat) (v : V) :
    (listSetValue l e v).map Element.id = l.map Element.id := by
  unfold listSetValue
  rw [List.map_map]
  apply List.map_congr_left
  intro x _
  by_cases h : x.id = e <;> simp [h]

theorem listSetValue_keys (l : List (Element V)) (e : Nat) (v : V) :
    (listSetValue l e v).map (fun x => x.Value.key) = l.map (fun x => x.Value.key) := by
  unfold listSetValue
  rw [List.map_map]
  apply List.map_congr_left
  intro x _
  by_cases h : x.id = e <;> simp [h]

theorem Linked.setValue {m : GoMap String Nat} {l : List (Element V)} {n : Nat}
    (h : Linked m l n) (e : Nat) (v : V) : Linked m (listSetValue l e v) n where
  ids := by rw [listSetValue_ids]; exact h.ids
  keys := by rw [listSetValue_keys]; exact h.keys
  index := h.index
  toIndex := fun y hy => by
    obtain ⟨x, hx, rfl⟩ := List.mem_map.1 hy
    have := h.toIndex x hx
    by_cases hh : x.id = e <;> simpa [hh] using this
  toList := fun k e' hk => by
    obtain ⟨x, hx, h1, h2⟩ := h.toList k e' hk
    refine ⟨_, List.mem_map_of_mem _ hx, ?_, ?_⟩
    · by_cases hh : x.id = e
      · simp only [hh, if_true]; exact hh ▸ h1
      · simp only [hh, if_false]; exact h1
    · by_cases hh : x.id = e
      · simp only [hh, if_true]; exact h2
      · simp only [hh, if_false]; exact h2
  fresh := fun y hy => by
    obtain ⟨x, hx, rfl⟩ := List.mem_map.1 hy
    have := h.fresh x hx
    by_cases hh : x.id = e <;> simpa [hh] using this

end lru

end zcache

namespace zcache

namespace lru

variable {V : Type}

/-! ## The invariant of a live store -/

theorem Inv_New (maxBytes : Int) (onEvicted : Bool) :
    Inv (New maxBytes onEvicted : Cache V) :=
  ⟨[], [], rfl, rfl, Linked.empty⟩

theorem removeElement_linked [Value V] {c : Cache V} {m : GoMap String Nat} {l : List (Element V)}
    (hc : c.cache = some m) (hl : c.list = some l) (hL : Linked m l c.nextId)
    {x : Element V} (hx : x ∈ l) :
    ∃ c1, removeElement c x.id = .ok c1 ∧ c1.cache = some (GoMap.del m x.Value.key) ∧
      c1.list = some (listRemove l x.id) ∧ c1.nextId = c.nextId ∧
      c1.maxBytes = c.maxBytes ∧ c1.OnEvicted = c.OnEvicted ∧
      Linked (GoMap.del m x.Value.key) (listRemove l x.id) c1.nextId := by
  have hat := elementAt_of_mem hL.ids hx
  have h1 : removeElement c x.id = .ok { c with
      list := some (listRemove l x.id)
      nbytes := c.nbytes - (x.Value.key.utf8ByteSize : Int) - Value.Len x.Value.value
      cache := some (GoMap.del m x.Value.key)
      evicted := if c.OnEvicted then c.evicted ++ [(x.Value.key, x.Value.value)]
        else c.evicted } := by
    simp only [removeElement, hl, hat, hc, Option.map_some']
  exact ⟨_, h1, rfl, rfl, rfl, rfl, rfl, hL.remove hx⟩

theorem RemoveOldest_inv [Value V] {c : Cache V} (h : Inv c) :
    ∃ c1, RemoveOldest c = .ok c1 ∧ Inv c1 ∧
      c1.maxBytes = c.maxBytes ∧ c1.OnEvicted = c.OnEvicted := by
  obtain ⟨m, l, hc, hl, hL⟩ := h
  cases hlast : l.getLast? with
  | none =>
    exact ⟨c, by simp only [RemoveOldest, hc, hl, hlast], ⟨m, l, hc, hl, hL⟩, rfl, rfl⟩
  | some x =>
    have hx : x ∈ l := List.mem_of_getLast?_eq_some hlast
    obtain ⟨c1, h1, h2, h3, h4, h5, h6, h7⟩ := removeElement_linked hc hl hL hx
    exact ⟨c1, by simp only [RemoveOldest, hc, hl, hlast, h1], ⟨_, _, h2, h3, h7⟩, h5, h6⟩

theorem Remove_inv [Value V] {c : Cache V} (h : Inv c) (key : String) :
    ∃ c1, Remove c key = .ok c1 ∧ Inv c1 ∧
      c1.maxBytes = c.maxBytes ∧ c1.OnEvicted = c.OnEvicted := by
  obtain ⟨m, l, hc, hl, hL⟩ := h
  cases hf : GoMap.find m key with
  | none => exact ⟨c, by simp only [Remove, hc, hf], ⟨m, l, hc, hl, hL⟩, rfl, rfl⟩
  | some e =>
    obtain ⟨x, hx, rfl, -⟩ := hL.toList key e hf
    obtain ⟨c1, h1, h2, h3, h4, h5, h6, h7⟩ := removeElement_linked hc hl hL hx
    exact ⟨c1, by simp only [Remove, hc, hf, h1], ⟨_, _, h2, h3, h7⟩, h5, h6⟩

theorem elementAt_listMoveToFront {l : List (Element V)} {x : Element V}
    (hn : (l.map Element.id).Nodup) (hx : x ∈ l) :
    listMoveToFront l x.id = x :: listRemove l x.id ∧
      elementAt (listMoveToFront l x.id) x.id = some x := by
  have h1 : listMoveToFront l x.id = x :: listRemove l x.id := by
    simp only [listMoveToFront, elementAt_of_mem hn hx]
  refine ⟨h1, ?_⟩
  rw [h1]
  simp [elementAt]

theorem Get_inv {c : Cache V} (h : Inv c) (k : String) :
    ∃ c1 r, Get c k = .ok (c1, r) ∧ Inv c1 ∧
      c1.maxBytes = c.maxBytes ∧ c1.OnEvicted = c.OnEvicted := by
  obtain ⟨m, l, hc, hl, hL⟩ := h
  cases hf : GoMap.find m k with
  | none => exact ⟨c, none, by simp only [Get, hc, hf], ⟨m, l, hc, hl, hL⟩, rfl, rfl⟩
  | some e =>
    obtain ⟨x, hx, rfl, -⟩ := hL.toList k e hf
    obtain ⟨h1, h2⟩ := elementAt_listMoveToFront hL.ids hx
    have hg : Get c k = .ok ({ c with list := some (listMoveToFront l x.id) },
        some x.Value.value) := by
      simp only [Get, hc, hf, hl, h2]
    exact ⟨_, _, hg, ⟨m, _, hc, rfl, hL.perm (listMoveToFront_perm hL.ids _)⟩, rfl, rfl⟩

theorem evictLoop_inv [Value V] (fuel : Nat) : ∀ {c c1 : Cache V}, Inv c → evictLoop fuel c = .ok c1 →
    Inv c1 ∧ c1.maxBytes = c.maxBytes ∧ c1.OnEvicted = c.OnEvicted := by
  induction fuel with
  | zero =>
    intro c c1 h hr
    unfold evictLoop at hr
    cases hcond : evictCond c with
    | error f => simp [hcond] at hr
    | ok b =>
      cases b with
      | false =>
        simp only [hcond, Except.ok.injEq] at hr
        subst hr
        exact ⟨h, rfl, rfl⟩
      | true => simp [hcond] at hr
  | succ n ih =>
    intro c c1 h hr
    unfold evictLoop at hr
    cases hcond : evictCond c with
    | error f => simp [hcond] at hr
    | ok b =>
      cases b with
      | false =>
        simp only [hcond, Except.ok.injEq] at hr
        subst hr
        exact ⟨h, rfl, rfl⟩
      | true =>
        obtain ⟨c2, h2, hi, hm, ho⟩ := RemoveOldest_inv h
        simp only [hcond, h2] at hr
        obtain ⟨a, b, d⟩ := ih hi hr
        exact ⟨a, b.trans hm, d.trans ho⟩

theorem listSetValue_head {x : Element V} {l : List (Element V)}
    (hn : ((x :: l).map Element.id).Nodup) (v : V) :
    listSetValue (x :: l) x.id v =
      { id := x.id, Value := { key := x.Value.key, value := v } } :: l := by
  simp only [List.map_cons, List.nodup_cons] at hn
  unfold listSetValue
  simp only [List.map_cons, if_true, List.cons.injEq, true_and]
  conv_rhs => rw [← List.map_id l]
  apply List.map_congr_left
  intro y hy
  have : y.id ≠ x.id := fun e => hn.1 (e ▸ List.mem_map_of_mem Element.id hy)
  simp [this]

theorem Add_inv [Value V] {c c1 : Cache V} (h : Inv c) {fuel : Nat} {k : String} {v : V}
    (hr : Add fuel c k v = .ok c1) :
    Inv c1 ∧ c1.maxBytes = c.maxBytes ∧ c1.OnEvicted = c.OnEvicted := by
  obtain ⟨m, l, hc, hl, hL⟩ := h
  cases hf : GoMap.find m k with
  | none =>
    simp only [Add, hc, hf, hl] at hr
    have hI : Inv ({ c with
        list := some ({ id := c.nextId, Value := { key := k, value := v } } :: l)
        cache := some (GoMap.put m k c.nextId)
        nextId := c.nextId + 1 } : Cache V) := ⟨_, _, rfl, rfl, hL.push v hf⟩
    have h3 := evictLoop_inv fuel hI hr
    exact h3
  | some e =>
    obtain ⟨x, hx, rfl, -⟩ := hL.toList k e hf
    obtain ⟨h1, h2⟩ := elementAt_listMoveToFront hL.ids hx
    simp only [Add, hc, hf, hl, h2] at hr
    have hI : Inv ({ c with
        list := some (listSetValue (listMoveToFront l x.id) x.id v)
        nbytes := c.nbytes - Value.Len x.Value.value + Value.Len v
        cache := some m } : Cache V) :=
      ⟨m, _, rfl, rfl, (hL.perm (listMoveToFront_perm hL.ids _)).setValue _ _⟩
    have h3 := evictLoop_inv fuel hI hr
    exact h3

theorem step_inv [Value V] {c c1 : Cache V} (h : Inv c) {fuel : Nat} {op : Op V}
    (hr : step fuel c op = .ok c1) :
    Inv c1 ∧ c1.maxBytes = c.maxBytes ∧ c1.OnEvicted = c.OnEvicted := by
  cases op with
  | add k v => exact Add_inv h hr
  | get k =>
    obtain ⟨c2, r, h2, hi⟩ := Get_inv h k
    simp only [step, h2, Except.map, Except.ok.injEq] at hr
    subst hr
    exact hi
  | remove k =>
    obtain ⟨c2, h2, hi⟩ := Remove_inv h k
    simp only [step, h2, Except.ok.injEq] at hr
    subst hr
    exact hi
  | removeOldest =>
    obtain ⟨c2, h2, hi⟩ := RemoveOldest_inv h
    simp only [step, h2, Except.ok.injEq] at hr
    subst hr
    exact hi

theorem run_inv [Value V] (fuel : Nat) (ops : List (Op V)) : ∀ {c c1 : Cache V}, Inv c →
    run fuel c ops = .ok c1 →
    Inv c1 ∧ c1.maxBytes = c.maxBytes ∧ c1.OnEvicted = c.OnEvicted := by
  induction ops with
  | nil =>
    intro c c1 h hr
    simp only [run, Except.ok.injEq] at hr
    subst hr
    exact ⟨h, rfl, rfl⟩
  | cons op ops ih =>
    intro c c1 h hr
    unfold run at hr
    cases hs : step fuel c op with
    | error f => simp [hs] at hr
    | ok c2 =>
      simp only [hs] at hr
      obtain ⟨a, b, d⟩ := step_inv h hs
      obtain ⟨a', b', d'⟩ := ih a hr
      exact ⟨a', b'.trans b, d'.trans d⟩

theorem Reachable.inv [Value V] {maxBytes : Int} {onEvicted : Bool} {c : Cache V}
    (h : Reachable maxBytes onEvicted c) :
    Inv c ∧ c.maxBytes = maxBytes ∧ c.OnEvicted = onEvicted := by
  obtain ⟨fuel, ops, hr⟩ := h
  exact run_inv fuel ops (Inv_New maxBytes onEvicted) hr

end lru

end zcache

namespace zcache

namespace lru

variable {V : Type}

/-! ## The eviction loop keeps the front entry -/

theorem listRemove_cons_of_mem {x y : Element V} {rest : List (Element V)}
    (hn : ((x :: rest).map Element.id).Nodup) (hy : y ∈ rest) :
    listRemove (x :: rest) y.id = x :: listRemove rest y.id ∧
      (listRemove rest y.id).length < rest.length := by
  simp only [List.map_cons, List.nodup_cons] at hn
  have hne : x.id ≠ y.id := fun e => hn.1 (e ▸ List.mem_map_of_mem Element.id hy)
  constructor
  · unfold listRemove
    rw [List.filter_cons_of_pos (by simpa using hne)]
  · unfold listRemove
    apply List.length_filter_lt_length_iff_exists.2
    exact ⟨y, hy, by simp⟩

theorem evictLoop_keeps_head [Value V] (fuel : Nat) :
    ∀ {c : Cache V} {m : GoMap String Nat} {x : Element V} {rest : List (Element V)},
    c.cache = some m → c.list = some (x :: rest) → Linked m (x :: rest) c.nextId →
    0 ≤ c.maxBytes → rest.length ≤ fuel →
    ∃ c1 m1 rest1, evictLoop fuel c = .ok c1 ∧ c1.cache = some m1 ∧
      c1.list = some (x :: rest1) ∧ Linked m1 (x :: rest1) c1.nextId := by
  induction fuel with
  | zero =>
    intro c m x rest hc hl hL hmb hf
    have hrest : rest = [] := List.length_eq_zero.1 (Nat.le_zero.1 hf)
    subst hrest
    have hcond : evictCond c = .ok false := by
      unfold evictCond
      by_cases h0 : c.maxBytes = 0
      · simp [h0]
      · have : ¬ (1 : Int) > c.maxBytes := by omega
        simp [h0, hl, this]
    exact ⟨c, m, [], by simp only [evictLoop, hcond], hc, hl, hL⟩
  | succ n ih =>
    intro c m x rest hc hl hL hmb hf
    by_cases hgo : c.maxBytes ≠ 0 ∧ (((x :: rest).length : Int) > c.maxBytes)
    · have hgt : c.maxBytes < (rest.length : Int) + 1 := by
        have := hgo.2
        simp only [List.length_cons, Nat.cast_add, Nat.cast_one] at this
        omega
      have hcond : evictCond c = .ok true := by
        unfold evictCond
        simp [hgo.1, hl, hgt]
      have hlen : 1 ≤ rest.length := by omega
      obtain ⟨r, rs, rfl⟩ : ∃ r rs, rest = r :: rs := by
        cases rest with
        | nil => simp at hlen
        | cons r rs => exact ⟨r, rs, rfl⟩
      obtain ⟨y, hy⟩ : ∃ y, (r :: rs).getLast? = some y := by
        cases h : (r :: rs).getLast? with
        | none => simp at h
        | some y => exact ⟨y, rfl⟩
      have hlast : (x :: r :: rs).getLast? = some y := by
        rw [List.getLast?_cons_cons]; exact hy
      have hyr : y ∈ r :: rs := List.mem_of_getLast?_eq_some hy
      obtain ⟨c1, h1, h2, h3, h4, -, -, h7⟩ :=
        removeElement_linked hc hl hL (List.mem_cons_of_mem x hyr)
      obtain ⟨hrm, hlt⟩ := listRemove_cons_of_mem hL.ids hyr
      rw [hrm] at h3 h7
      have hmb1 : 0 ≤ c1.maxBytes := by
        obtain ⟨_, h1', _, _, _, h5, _⟩ :=
          removeElement_linked hc hl hL (List.mem_cons_of_mem x hyr)
        rw [h1] at h1'
        cases h1'
        rw [h5]; exact hmb
      have hfu : (listRemove (r :: rs) y.id).length ≤ n := by omega
      obtain ⟨c2, m2, rest2, e1, e2, e3, e4⟩ := ih h2 h3 h7 hmb1 hfu
      refine ⟨c2, m2, rest2, ?_, e2, e3, e4⟩
      have hro : RemoveOldest c = .ok c1 := by
        simp only [RemoveOldest, hc, hl, hlast, h1]
      simp only [evictLoop, hcond, hro, e1]
    · have hcond : evictCond c = .ok false := by
        unfold evictCond
        by_cases h0 : c.maxBytes = 0
        · simp [h0]
        · have : (rest.length : Int) + 1 ≤ c.maxBytes := by
            have h3 : ¬ (((x :: rest).length : Int) > c.maxBytes) := fun h => hgo ⟨h0, h⟩
            simp only [List.length_cons, Nat.cast_add, Nat.cast_one] at h3
            omega
          simp [h0, hl, this]
      exact ⟨c, m, rest, by simp only [evictLoop, hcond], hc, hl, hL⟩

theorem Get_head {c : Cache V} {m : GoMap String Nat} {x : Element V}
    {rest : List (Element V)} (hc : c.cache = some m) (hl : c.list = some (x :: rest))
    (hL : Linked m (x :: rest) c.nextId) :
    ∃ c1, Get c x.Value.key = .ok (c1, some x.Value.value) := by
  have hf := hL.toIndex x (List.mem_cons_self _ _)
  obtain ⟨-, h2⟩ := elementAt_listMoveToFront hL.ids (List.mem_cons_self x rest)
  exact ⟨{ c with list := some (listMoveToFront (x :: rest) x.id) },
    by simp only [Get, hc, hf, hl, h2]⟩

theorem Add_front [Value V] {c : Cache V} (h : Inv c) (hmb : 0 ≤ c.maxBytes) (k : String) (v : V)
    {fuel : Nat} (hf : (c.list.getD []).length ≤ fuel) :
    ∃ c1 m e rest, Add fuel c k v = .ok c1 ∧ c1.cache = some m ∧
      c1.list = some ({ id := e, Value := { key := k, value := v } } :: rest) ∧
      Linked m ({ id := e, Value := { key := k, value := v } } :: rest) c1.nextId := by
  obtain ⟨m, l, hc, hl, hL⟩ := h
  rw [hl] at hf
  simp only [Option.getD_some] at hf
  cases hfind : GoMap.find m k with
  | none =>
    have hL1 := hL.push v hfind
    obtain ⟨c1, m1, rest1, e1, e2, e3, e4⟩ :=
      evictLoop_keeps_head fuel
        (c := { c with
          list := some ({ id := c.nextId, Value := { key := k, value := v } } :: l)
          cache := some (GoMap.put m k c.nextId)
          nextId := c.nextId + 1 }) rfl rfl hL1 hmb hf
    exact ⟨c1, m1, c.nextId, rest1, by simp only [Add, hc, hfind, hl, e1], e2, e3, e4⟩
  | some e =>
    obtain ⟨x, hx, rfl, rfl⟩ := hL.toList k e hfind
    obtain ⟨h1, h2⟩ := elementAt_listMoveToFront hL.ids hx
    have hp : Linked m (x :: listRemove l x.id) c.nextId := by
      rw [← h1]; exact hL.perm (listMoveToFront_perm hL.ids _)
    have hs := listSetValue_head hp.ids v
    have hL1 := hp.setValue x.id v
    rw [hs] at hL1
    have hlen : (listRemove l x.id).length ≤ fuel :=
      le_trans (List.length_filter_le _ _) hf
    obtain ⟨c1, m1, rest1, e1, e2, e3, e4⟩ :=
      evictLoop_keeps_head fuel
        (c := { c with
          list := some ({ id := x.id, Value := { key := x.Value.key, value := v } } ::
            listRemove l x.id)
          nbytes := c.nbytes - Value.Len x.Value.value + Value.Len v
          cache := some m }) rfl rfl hL1 hmb hlen
    refine ⟨c1, m1, x.id, rest1, ?_, e2, e3, e4⟩
    simp only [Add, hc, hfind, hl, h2]
    rw [h1, hs]
    exact e1

end lru

end zcache

namespace zcache

namespace consistenthash

/-! ## Binary search and ring lookup -/

theorem searchLoop_spec (f : Nat → Bool) (n : Nat)
    (mono : ∀ a b, a ≤ b → b < n → f a = true → f b = true) (fuel : Nat) :
    ∀ i j, i ≤ j → j ≤ n → j - i ≤ fuel →
      (∀ a, a < i → f a = false) → (∀ a, j ≤ a → a < n → f a = true) →
      searchLoop f fuel i j ≤ n ∧ (∀ a, a < searchLoop f fuel i j → f a = false) ∧
        (∀ a, searchLoop f fuel i j ≤ a → a < n → f a = true) := by
  induction fuel with
  | zero =>
    intro i j hij hjn hf lo hi
    have : i = j := by omega
    subst this
    exact ⟨hjn, lo, hi⟩
  | succ fuel ih =>
    intro i j hij hjn hf lo hi
    unfold searchLoop
    by_cases hlt : i < j
    · simp only [hlt, if_true]
      have hh1 : i ≤ (i + j) / 2 := by omega
      have hh2 : (i + j) / 2 < j := by omega
      cases hfh : f ((i + j) / 2) with
      | false =>
        simp only [Bool.not_false, if_true]
        refine ih _ _ (by omega) hjn (by omega) (fun a ha => ?_) hi
        cases hfa : f a with
        | false => rfl
        | true =>
          have := mono a ((i + j) / 2) (by omega) (by omega) hfa
          rw [hfh] at this
          cases this
      | true =>
        simp only [Bool.not_true, Bool.false_eq_true, if_false]
        refine ih _ _ hh1 (by omega) (by omega) lo (fun a ha han => ?_)
        exact mono _ a ha han hfh
    · simp only [hlt, if_false]
      have : i = j := by omega
      subst this
      exact ⟨hjn, lo, hi⟩

theorem Search_spec (f : Nat → Bool) (n : Nat)
    (mono : ∀ a b, a ≤ b → b < n → f a = true → f b = true) :
    Search n f ≤ n ∧ (∀ a, a < Search n f → f a = false) ∧
      (∀ a, Search n f ≤ a → a < n → f a = true) :=
  searchLoop_spec f n mono n 0 n (Nat.zero_le _) (Nat.le_refl _) (by omega)
    (fun a ha => absurd ha (Nat.not_lt_zero _)) (fun a h1 h2 => absurd h2 (by omega))

theorem sorted_getD_mono {l : List Nat} (hs : l.Sorted (fun a b => a ≤ b)) {a b : Nat}
    (hab : a ≤ b) (hb : b < l.length) : l.getD a 0 ≤ l.getD b 0 := by
  rw [List.getD_eq_getElem (l := l) (d := 0) (lt_of_le_of_lt hab hb),
    List.getD_eq_getElem (l := l) (d := 0) hb]
  exact hs.rel_get_of_le (a := ⟨a, lt_of_le_of_lt hab hb⟩) (b := ⟨b, hb⟩) hab

theorem mem_iff_getD {l : List Nat} {x : Nat} :
    x ∈ l ↔ ∃ i, i < l.length ∧ l.getD i 0 = x := by
  constructor
  · intro hx
    obtain ⟨i, hi, rfl⟩ := List.getElem_of_mem hx
    exact ⟨i, hi, List.getD_eq_getElem (l := l) (d := 0) hi⟩
  · rintro ⟨i, hi, rfl⟩
    rw [List.getD_eq_getElem (l := l) (d := 0) hi]
    exact List.getElem_mem hi

theorem addReplica_mapped (key : String) (m : Map) (i : Nat)
    (h : ∀ x ∈ m.keys, ∃ p, GoMap.find m.hashMap x = some p) :
    ∀ x ∈ (addReplica key m i).keys, ∃ p, GoMap.find (addReplica key m i).hashMap x = some p := by
  intro x hx
  simp only [addReplica, List.mem_append, List.mem_singleton] at hx ⊢
  by_cases hxe : x = m.hash (toString i ++ key)
  · exact ⟨key, by rw [hxe]; exact GoMap.find_put_self _ _ _⟩
  · rcases hx with hx | hx
    · rw [GoMap.find_put_ne _ _ hxe]
      exact h x hx
    · exact absurd hx hxe

theorem foldl_mapped {α : Type} (step : Map → α → Map)
    (hstep : ∀ m a, (∀ x ∈ m.keys, ∃ p, GoMap.find m.hashMap x = some p) →
      ∀ x ∈ (step m a).keys, ∃ p, GoMap.find (step m a).hashMap x = some p)
    (l : List α) : ∀ m : Map, (∀ x ∈ m.keys, ∃ p, GoMap.find m.hashMap x = some p) →
      ∀ x ∈ (l.foldl step m).keys, ∃ p, GoMap.find (l.foldl step m).hashMap x = some p := by
  induction l with
  | nil => intro m h; exact h
  | cons a l ih => intro m h; exact ih _ (hstep m a h)

theorem addKey_mapped (m : Map) (key : String)
    (h : ∀ x ∈ m.keys, ∃ p, GoMap.find m.hashMap x = some p) :
    ∀ x ∈ (addKey m key).keys, ∃ p, GoMap.find (addKey m key).hashMap x = some p :=
  foldl_mapped (addReplica key) (fun m a => addReplica_mapped key m a) _ m h

theorem Add_ringInv (m : Map) (keys : List String)
    (h : ∀ x ∈ m.keys, ∃ p, GoMap.find m.hashMap x = some p) : RingInv (Add m keys) where
  sorted := List.sorted_insertionSort _ _
  mapped := fun x hx => by
    have hx' : x ∈ (keys.foldl addKey m).keys :=
      (List.perm_insertionSort _ _).mem_iff.1 hx
    exact foldl_mapped addKey addKey_mapped keys m h x hx'

theorem Reachable.ringInv {m : Map} (h : Reachable m) : RingInv m := by
  obtain ⟨replicas, fn, adds, rfl⟩ := h
  induction adds using List.reverseRecOn with
  | nil => exact ⟨List.sorted_nil, fun x hx => by simp [New] at hx⟩
  | append_singleton adds ks ih =>
    rw [List.foldl_append]
    exact Add_ringInv _ _ ih.mapped

end consistenthash

end zcache

namespace zcache

/-! ## Single-flight, run alone -/

namespace singleflight

theorem Do_idle {R W : Type} [Inhabited R] (g : Group R) (key : String)
    (fn : W → Except Fail ((R × Option GoError) × W)) (w : W)
    (hidle : GoMap.find (g.m.getD []) key = none)
    {val : R} {err : Option GoError} {w1 : W} (hfn : fn w = .ok ((val, err), w1)) :
    ∃ m1, Do g key fn w = .ok ((val, err), { m := some m1 }, w1) ∧
      GoMap.find m1 key = none ∧
      ∀ k, k ≠ key → GoMap.find m1 k = GoMap.find (g.m.getD []) k := by
  refine ⟨GoMap.del (GoMap.put (GoMap.put (g.m.getD []) key
      { wg := 0 + 1, val := default, err := none }) key
      { wg := 0 + 1 - 1, val := val, err := err }) key, ?_, GoMap.find_del_self _ _,
    fun k hk => ?_⟩
  · simp only [Do, hidle, hfn]
  · rw [GoMap.find_del_ne _ hk, GoMap.find_put_ne _ _ hk, GoMap.find_put_ne _ _ hk]

theorem Do_idle_error {R W : Type} [Inhabited R] (g : Group R) (key : String)
    (fn : W → Except Fail ((R × Option GoError) × W)) (w : W)
    (hidle : GoMap.find (g.m.getD []) key = none)
    {f : Fail} (hfn : fn w = .error f) : Do g key fn w = .error f := by
  simp only [Do, hidle, hfn]

end singleflight

/-! ## The cache wrapper -/

theorem cache.get_miss {c : cache} {key : String}
    (h : (c.get key).map Prod.snd = .ok none) : c.get key = .ok (c, none) := by
  unfold cache.get at h ⊢
  cases hl : c.lru with
  | none => rfl
  | some l =>
    simp only [hl] at h ⊢
    have hc : ({ c with lru := some l } : cache) = c := by
      cases c; simp_all
    unfold lru.Get at h ⊢
    cases hm : l.cache with
    | none => simp only [hc]
    | some m =>
      simp only [hm] at h ⊢
      cases hf : GoMap.find m key with
      | none => simp only [hc]
      | some e =>
        simp only [hf] at h ⊢
        cases hll : l.list with
        | none => simp [hll, Except.map] at h
        | some ll =>
          simp only [hll] at h ⊢
          cases he : lru.elementAt (lru.listMoveToFront ll e) e with
          | none => simp [he, Except.map] at h
          | some x => simp [he, Except.map] at h

theorem cache.get_wf {c : cache} (h : c.WF) (key : String) :
    ∃ c1 r, c.get key = .ok (c1, r) ∧ c1.WF ∧ c1.cacheBytes = c.cacheBytes := by
  unfold cache.get
  cases hl : c.lru with
  | none => exact ⟨c, none, rfl, h, rfl⟩
  | some l =>
    obtain ⟨hI, hmb⟩ := h l hl
    obtain ⟨l1, r, hg, hI1, hmb1, -⟩ := lru.Get_inv hI key
    have hwf : ({ c with lru := some l1 } : cache).WF := by
      intro l2 h2
      simp only [Option.some.injEq] at h2
      subst h2
      exact ⟨hI1, hmb1.trans hmb⟩
    cases r with
    | none => exact ⟨_, none, by simp only [hg], hwf, rfl⟩
    | some v => exact ⟨_, some v, by simp only [hg], hwf, rfl⟩

theorem cache.add_wf {c c1 : cache} (h : c.WF) {fuel : Nat} {key : String} {value : ByteView}
    (hr : c.add fuel key value = .ok c1) : c1.WF ∧ c1.cacheBytes = c.cacheBytes := by
  unfold cache.add at hr
  cases hl : c.lru with
  | none =>
    simp only [hl] at hr
    cases ha : lru.Add fuel (lru.New c.cacheBytes false) key value with
    | error f => simp [ha] at hr
    | ok l1 =>
      simp only [ha, Except.ok.injEq] at hr
      subst hr
      obtain ⟨hI, hmb, -⟩ := lru.Add_inv (lru.Inv_New _ _) ha
      refine ⟨fun l2 h2 => ?_, rfl⟩
      simp only [Option.some.injEq] at h2
      subst h2
      exact ⟨hI, hmb⟩
  | some l =>
    simp only [hl] at hr
    obtain ⟨hI0, hmb0⟩ := h l hl
    cases ha : lru.Add fuel l key value with
    | error f => simp [ha] at hr
    | ok l1 =>
      simp only [ha, Except.ok.injEq] at hr
      subst hr
      obtain ⟨hI, hmb, -⟩ := lru.Add_inv hI0 ha
      refine ⟨fun l2 h2 => ?_, rfl⟩
      simp only [Option.some.injEq] at h2
      subst h2
      exact ⟨hI, hmb.trans hmb0⟩

/-- With a budget that is not negative, `add` returns once its eviction loop has
enough iterations, and the `get` that follows hits the value just stored. -/
theorem cache.add_then_get {c : cache} (h : c.WF) (hcb : 0 ≤ c.cacheBytes)
    (key : String) (value : ByteView) :
    ∃ n, ∀ fuel, n ≤ fuel → ∃ c1 c2, c.add fuel key value = .ok c1 ∧
      c1.get key = .ok (c2, some value) := by
  cases hl : c.lru with
  | none =>
    refine ⟨0, fun fuel hf => ?_⟩
    obtain ⟨l1, m, e, rest, h1, h2, h3, h4⟩ :=
      lru.Add_front (lru.Inv_New c.cacheBytes false) (c := lru.New c.cacheBytes false)
        hcb key value (Nat.zero_le fuel)
    obtain ⟨l2, h5⟩ := lru.Get_head h2 h3 h4
    refine ⟨{ c with lru := some l1 }, { c with lru := some l2 }, ?_, ?_⟩
    · simp only [cache.add, hl, h1]
    · simp only [cache.get, h5]
  | some l =>
    obtain ⟨hI, hmb⟩ := h l hl
    refine ⟨(l.list.getD []).length, fun fuel hf => ?_⟩
    obtain ⟨l1, m, e, rest, h1, h2, h3, h4⟩ :=
      lru.Add_front hI (hmb ▸ hcb) key value hf
    obtain ⟨l2, h5⟩ := lru.Get_head h2 h3 h4
    refine ⟨{ c with lru := some l1 }, { c with lru := some l2 }, ?_, ?_⟩
    · simp only [cache.add, hl, h1]
    · simp only [cache.get, h5]

end zcache

namespace zcache

/-! ## The group loader -/

variable {U : Type}

theorem Group.getLocally_wf {g : Group U} {fuel : Nat} {key : String} {s s1 : LoadVars U}
    {r : ByteView × Option GoError} (h : s.mainCache.WF)
    (hr : Group.getLocally fuel g key s = .ok (r, s1)) :
    s1.mainCache.WF ∧ s1.mainCache.cacheBytes = s.mainCache.cacheBytes := by
  unfold Group.getLocally at hr
  cases he : (g.getter key s.world.user).1.2 with
  | some e =>
    simp only [he, Except.ok.injEq, Prod.mk.injEq] at hr
    obtain ⟨-, rfl⟩ := hr
    exact ⟨h, rfl⟩
  | none =>
    simp only [he, Group.populateCache] at hr
    cases ha : s.mainCache.add fuel key ⟨cloneBytes (g.getter key s.world.user).1.1⟩ with
    | error f => simp [ha] at hr
    | ok c1 =>
      simp only [ha, Except.ok.injEq, Prod.mk.injEq] at hr
      obtain ⟨-, rfl⟩ := hr
      exact cache.add_wf h ha

theorem Group.loadFn_wf {g : Group U} {fuel : Nat} {key : String} {s s1 : LoadVars U}
    {r : Option ByteView × Option GoError} (h : s.mainCache.WF)
    (hr : Group.loadFn fuel g key s = .ok (r, s1)) :
    s1.mainCache.WF ∧ s1.mainCache.cacheBytes = s.mainCache.cacheBytes := by
  have key_fact : ∀ (s2 : LoadVars U), s2.mainCache = s.mainCache →
      (match Group.getLocally fuel g key s2 with
        | .error f => (.error f : Except Fail ((Option ByteView × Option GoError) × LoadVars U))
        | .ok ((v, e), s3) => .ok ((some v, e), s3)) = .ok (r, s1) →
      s1.mainCache.WF ∧ s1.mainCache.cacheBytes = s.mainCache.cacheBytes := by
    intro s2 h2 h3
    cases hg : Group.getLocally fuel g key s2 with
    | error f => simp [hg] at h3
    | ok p =>
      obtain ⟨⟨v, e⟩, s3⟩ := p
      simp only [hg, Except.ok.injEq, Prod.mk.injEq] at h3
      obtain ⟨-, rfl⟩ := h3
      have := Group.getLocally_wf (h2 ▸ h) hg
      rw [h2] at this
      exact this
  unfold Group.loadFn at hr
  rcases hp : Group.pick g key s.world with ⟨_ | peer, w1⟩
  · simp only [hp] at hr
    exact key_fact _ (by rfl) hr
  · simp only [hp] at hr
    cases he : (Group.getFromPeer g peer key w1).1.2 with
    | none =>
      simp only [he, Except.ok.injEq, Prod.mk.injEq] at hr
      obtain ⟨-, rfl⟩ := hr
      exact ⟨h, rfl⟩
    | some e =>
      simp only [he] at hr
      exact key_fact _ (by rfl) hr

theorem Group.Get_of_miss {g : Group U} {key : String} (hk : key ≠ "") (hm : g.misses key)
    (fuel : Nat) (w : World U) : g.Get fuel key w = g.load fuel key w := by
  have hg : ({ g with mainCache := g.mainCache } : Group U) = g := by cases g; rfl
  simp only [Group.Get, hk, if_false, cache.get_miss hm, hg]

/-- What `load` returns with an idle loader, from what its closure returns. -/
theorem Group.load_of_loadFn {g : Group U} (hi : g.idle) {fuel : Nat} {key : String}
    {w : World U} {viewi : Option ByteView} {err : Option GoError} {s1 : LoadVars U}
    (hf : Group.loadFn fuel g key
      { mainCache := g.mainCache, world := w, value := ⟨[]⟩, err := none } =
        .ok ((viewi, err), s1)) :
    ∃ g1 : Group U, g1.mainCache = s1.mainCache ∧ g1.name = g.name ∧ g1.getter = g.getter ∧
      g1.peers = g.peers ∧ g1.idle ∧
      (∀ v, viewi = some v → err = none → g.load fuel key w = .ok ((v, none), g1, s1.world)) ∧
      (∀ e, err = some e → g.load fuel key w = .ok ((s1.value, some e), g1, s1.world)) := by
  obtain ⟨m1, hd, h1, h2⟩ := singleflight.Do_idle g.loader key _ _ (hi key) hf
  refine ⟨{ g with loader := { m := some m1 }, mainCache := s1.mainCache },
    rfl, rfl, rfl, rfl, fun k => ?_, fun v hv he => ?_, fun e he => ?_⟩
  · by_cases hk : k = key
    · rw [hk]; exact h1
    · exact (h2 k hk).trans (hi k)
  · subst hv he
    simp only [Group.load, hd]
  · subst he
    simp only [Group.load, hd]

theorem Group.load_wf {g g1 : Group U} (hc : g.mainCache.WF) (hi : g.idle) {fuel : Nat}
    {key : String} {w w1 : World U} {r : ByteView × Option GoError}
    (hr : g.load fuel key w = .ok (r, g1, w1)) :
    g1.mainCache.WF ∧ g1.idle ∧ g1.mainCache.cacheBytes = g.mainCache.cacheBytes ∧
      g1.peers = g.peers ∧ g1.getter = g.getter ∧ g1.name = g.name := by
  cases hf : Group.loadFn fuel g key
      { mainCache := g.mainCache, world := w, value := ⟨[]⟩, err := none } with
  | error f =>
    have := singleflight.Do_idle_error g.loader key _ _ (hi key) hf
    simp [Group.load, this] at hr
  | ok p =>
    obtain ⟨⟨viewi, err⟩, s1⟩ := p
    have hc0 : (LoadVars.mk g.mainCache w ⟨[]⟩ none).mainCache.WF := hc
    obtain ⟨hw, hb⟩ := Group.loadFn_wf hc0 hf
    obtain ⟨g2, a1, a2, a3, a4, a5, a6, a7⟩ := Group.load_of_loadFn hi hf
    cases err with
    | some e =>
      rw [a7 e rfl] at hr
      simp only [Except.ok.injEq, Prod.mk.injEq] at hr
      obtain ⟨-, rfl, -⟩ := hr
      exact ⟨a1 ▸ hw, a5, a1 ▸ hb, a4, a3, a2⟩
    | none =>
      cases viewi with
      | some v =>
        rw [a6 v rfl rfl] at hr
        simp only [Except.ok.injEq, Prod.mk.injEq] at hr
        obtain ⟨-, rfl, -⟩ := hr
        exact ⟨a1 ▸ hw, a5, a1 ▸ hb, a4, a3, a2⟩
      | none =>
        obtain ⟨m1, hd, -, -⟩ := singleflight.Do_idle g.loader key _ _ (hi key) hf
        simp [Group.load, hd] at hr

theorem Group.Get_wf {g g1 : Group U} (hc : g.mainCache.WF) (hi : g.idle) {fuel : Nat}
    {key : String} {w w1 : World U} {r : ByteView × Option GoError}
    (hr : g.Get fuel key w = .ok (r, g1, w1)) : g1.mainCache.WF ∧ g1.idle := by
  unfold Group.Get at hr
  by_cases hk : key = ""
  · simp only [hk, if_true, Except.ok.injEq, Prod.mk.injEq] at hr
    obtain ⟨-, rfl, -⟩ := hr
    exact ⟨hc, hi⟩
  · obtain ⟨c1, r1, hg, hw, -⟩ := cache.get_wf hc key
    simp only [hk, if_false, hg] at hr
    cases r1 with
    | some v =>
      simp only [Except.ok.injEq, Prod.mk.injEq] at hr
      obtain ⟨-, rfl, -⟩ := hr
      exact ⟨hw, hi⟩
    | none =>
      simp only at hr
      obtain ⟨a, b, -⟩ := Group.load_wf (g := { g with mainCache := c1 }) hw hi hr
      exact ⟨a, b⟩

theorem Group.Reachable.wf {g : Group U} (h : g.Reachable) : g.mainCache.WF ∧ g.idle := by
  induction h with
  | new name cacheBytes getter =>
    exact ⟨fun l hl => by simp [NewGroup] at hl, fun k => rfl⟩
  | @register g0 g1 peers _ hr ih =>
    unfold Group.RegisterPeers at hr
    cases hp : g0.peers with
    | some p => simp [hp] at hr
    | none =>
      simp only [hp, Except.ok.injEq] at hr
      subst hr
      exact ih
  | get fuel key w w1 r _ hr ih => exact Group.Get_wf ih.1 ih.2 hr

end zcache

namespace zcache

variable {U : Type}

/-! ## Outcomes of the closure of `load` -/

theorem getterCalls_append_getter (t : List Event) (key : String) :
    getterCalls (t ++ [.getterGet key]) = getterCalls t + 1 := by
  simp [getterCalls, List.filter_append]

theorem getterCalls_append_log (t : List Event) (msg : String) :
    getterCalls (t ++ [.log msg]) = getterCalls t := by
  simp [getterCalls, List.filter_append]

theorem getterCalls_append_pick (t : List Event) (key : String) :
    getterCalls (t ++ [.pickPeer key]) = getterCalls t := by
  simp [getterCalls, List.filter_append]

theorem getterCalls_append_peer (t : List Event) (group key : String) :
    getterCalls (t ++ [.peerGet group key]) = getterCalls t := by
  simp [getterCalls, List.filter_append]

theorem Group.getLocally_err (g : Group U) (fuel : Nat) (key : String) (s : LoadVars U)
    {b : List UInt8} {e : GoError} {u1 : U}
    (hget : g.getter key s.world.user = ((b, some e), u1)) :
    Group.getLocally fuel g key s = .ok ((⟨[]⟩, some e),
      { s with world := { user := u1, trace := s.world.trace ++ [.getterGet key] } }) := by
  simp only [Group.getLocally, hget]

theorem Group.getLocally_ok (g : Group U) (fuel : Nat) (key : String) (s : LoadVars U)
    {b : List UInt8} {u1 : U} {c1 : cache}
    (hget : g.getter key s.world.user = ((b, none), u1))
    (hadd : s.mainCache.add fuel key ⟨b⟩ = .ok c1) :
    Group.getLocally fuel g key s = .ok ((⟨b⟩, none),
      { s with world := { user := u1, trace := s.world.trace ++ [.getterGet key] },
               mainCache := c1 }) := by
  simp only [Group.getLocally, hget, Group.populateCache, cloneBytes, hadd]

theorem Group.getLocally_fail (g : Group U) (fuel : Nat) (key : String) (s : LoadVars U)
    {b : List UInt8} {u1 : U} {f : Fail}
    (hget : g.getter key s.world.user = ((b, none), u1))
    (hadd : s.mainCache.add fuel key ⟨b⟩ = .error f) :
    Group.getLocally fuel g key s = .error f := by
  simp only [Group.getLocally, hget, Group.populateCache, cloneBytes, hadd]

theorem Group.getFromPeer_err (g : Group U) (peer : PeerGetter U) (key : String)
    (w : World U) {b : List UInt8} {e : GoError} {u1 : U}
    (h : peer g.name key w.user = ((b, some e), u1)) :
    Group.getFromPeer g peer key w =
      ((⟨[]⟩, some e), { user := u1, trace := w.trace ++ [.peerGet g.name key] }) := by
  simp only [Group.getFromPeer, h]

theorem Group.getFromPeer_ok (g : Group U) (peer : PeerGetter U) (key : String)
    (w : World U) {b : List UInt8} {u1 : U}
    (h : peer g.name key w.user = ((b, none), u1)) :
    Group.getFromPeer g peer key w =
      ((⟨b⟩, none), { user := u1, trace := w.trace ++ [.peerGet g.name key] }) := by
  simp only [Group.getFromPeer, h]

theorem Group.pick_registered {g : Group U} {picker : PeerPicker U} {key : String}
    {w : World U} {p : Option (PeerGetter U)} {u1 : U}
    (hp : g.peers = some picker) (hpick : picker key w.user = (p, u1)) :
    Group.pick g key w = (p, { user := u1, trace := w.trace ++ [.pickPeer key] }) := by
  simp only [Group.pick, hp, hpick]

/-! ## A negative budget: the eviction loop does not end -/

namespace lru

variable {V : Type}

theorem evictLoop_diverges [Value V] (fuel : Nat) : ∀ {c : Cache V}, Inv c → c.maxBytes < 0 →
    evictLoop fuel c = .error .outOfFuel := by
  induction fuel with
  | zero =>
    intro c h hneg
    obtain ⟨m, l, hc, hl, hL⟩ := h
    have hcond : evictCond c = .ok true := by
      have h0 : c.maxBytes ≠ 0 := by omega
      have : c.maxBytes < (l.length : Int) := by omega
      simp [evictCond, h0, hl, this]
    simp only [evictLoop, hcond]
  | succ n ih =>
    intro c h hneg
    obtain ⟨c1, h1, hI, hm, -⟩ := RemoveOldest_inv h
    obtain ⟨m, l, hc, hl, hL⟩ := h
    have hcond : evictCond c = .ok true := by
      have h0 : c.maxBytes ≠ 0 := by omega
      have : c.maxBytes < (l.length : Int) := by omega
      simp [evictCond, h0, hl, this]
    simp only [evictLoop, hcond, h1]
    exact ih hI (hm ▸ hneg)

theorem Add_diverges [Value V] {c : Cache V} (h : Inv c) (hneg : c.maxBytes < 0) (fuel : Nat)
    (k : String) (v : V) : Add fuel c k v = .error .outOfFuel := by
  obtain ⟨m, l, hc, hl, hL⟩ := h
  cases hf : GoMap.find m k with
  | none =>
    simp only [Add, hc, hf, hl]
    have hI : Inv ({ c with
        list := some ({ id := c.nextId, Value := { key := k, value := v } } :: l)
        cache := some (GoMap.put m k c.nextId)
        nextId := c.nextId + 1 } : Cache V) := ⟨_, _, rfl, rfl, hL.push v hf⟩
    exact evictLoop_diverges fuel hI hneg
  | some e =>
    obtain ⟨x, hx, rfl, -⟩ := hL.toList k e hf
    obtain ⟨h1, h2⟩ := elementAt_listMoveToFront hL.ids hx
    simp only [Add, hc, hf, hl, h2]
    have hI : Inv ({ c with
        list := some (listSetValue (listMoveToFront l x.id) x.id v)
        nbytes := c.nbytes - Value.Len x.Value.value + Value.Len v
        cache := some m } : Cache V) :=
      ⟨m, _, rfl, rfl, (hL.perm (listMoveToFront_perm hL.ids _)).setValue _ _⟩
    exact evictLoop_diverges fuel hI hneg

end lru

theorem cache.add_diverges {c : cache} (h : c.WF) (hneg : c.cacheBytes < 0) (fuel : Nat)
    (key : String) (value : ByteView) : c.add fuel key value = .error .outOfFuel := by
  cases hl : c.lru with
  | none =>
    have := lru.Add_diverges (lru.Inv_New c.cacheBytes false) (c := lru.New c.cacheBytes false)
      hneg fuel key value
    simp only [cache.add, hl, this]
  | some l =>
    obtain ⟨hI, hmb⟩ := h l hl
    have := lru.Add_diverges hI (hmb ▸ hneg) fuel key value
    simp only [cache.add, hl, this]

end zcache

namespace zcache

namespace lru

/-! ## Properties of the LRU store -/

/-- C1: the eviction loop of `Add` compares the number of entries, not the used
bytes, with `maxBytes`.  On a store with `maxBytes = 20` the four adds of six
bytes each all stay: 24 live bytes, no call of `OnEvicted`, and `Get("a")` still
hits. -/
theorem C1_eviction_counts_entries (fuel : Nat) :
    ∃ c : Cache ByteView,
      run fuel (New 20 true)
        [.add "a" ⟨bytesOf "xxxxx"⟩, .add "b" ⟨bytesOf "yyyyy"⟩,
         .add "c" ⟨bytesOf "zzzzz"⟩, .add "d" ⟨bytesOf "wwwww"⟩] = .ok c ∧
      liveBytes c = 24 ∧ c.maxBytes = 20 ∧ c.evicted = [] ∧
      (Get c "a").map Prod.snd = .ok (some ⟨bytesOf "xxxxx"⟩) := by
  cases fuel <;> exact ⟨_, rfl, by decide, rfl, rfl, by decide⟩

/-- C2: `Add` of a key that is not present leaves `nbytes` untouched.  After
`Add("a", "xxxxx")` on a new store the counter is 0 while the live entry takes
6 bytes, and a `Remove("a")` then drives the counter to -6 on an empty store. -/
theorem C2_insert_skips_counter (fuel : Nat) :
    ∃ c1 c2 : Cache ByteView,
      Add fuel (New 0 false) "a" ⟨bytesOf "xxxxx"⟩ = .ok c1 ∧
      c1.nbytes = 0 ∧ liveBytes c1 = 6 ∧
      Remove c1 "a" = .ok c2 ∧ c2.nbytes = -6 ∧ liveBytes c2 = 0 := by
  cases fuel <;> exact ⟨_, _, rfl, rfl, by decide, rfl, by decide, by decide⟩

variable {V : Type}

/-- C3: on a store created by `New` with `maxBytes >= 0` and driven by any
sequence of `Add`, `Get`, `Remove` and `RemoveOldest` calls, `Add(k, v)` returns
(given enough iterations for its eviction loop) with the entry `(k, v)` at the
front of the list, and the `Get(k)` that follows returns `(v, true)`. -/
theorem C3_add_then_get [Value V] (maxBytes : Int) (onEvicted : Bool) (c : Cache V)
    (hmb : 0 ≤ maxBytes) (hr : Reachable maxBytes onEvicted c) (k : String) (v : V) :
    ∃ n, ∀ fuel, n ≤ fuel → ∃ c1 c2 e rest, Add fuel c k v = .ok c1 ∧
      c1.list = some ({ id := e, Value := { key := k, value := v } } :: rest) ∧
      Get c1 k = .ok (c2, some v) := by
  obtain ⟨hI, hm, -⟩ := hr.inv
  refine ⟨(c.list.getD []).length, fun fuel hf => ?_⟩
  obtain ⟨c1, m, e, rest, h1, h2, h3, h4⟩ := Add_front hI (hm ▸ hmb) k v hf
  obtain ⟨c2, h5⟩ := Get_head h2 h3 h4
  exact ⟨c1, c2, e, rest, h1, h3, h5⟩

/-- C3 at a store of capacity 1 that already holds "a": adding "b" evicts "a"
and the following `Get("b")` hits. -/
theorem C3_add_then_get_witness :
    ∃ n, ∀ fuel, n ≤ fuel → ∃ c1 c2 e rest,
      Add fuel ({ maxBytes := 1, nbytes := 0, cache := some [("a", 0)],
                  list := some [{ id := 0, Value := { key := "a", value := ⟨[1, 2]⟩ } }],
                  OnEvicted := true, evicted := [], nextId := 1 } : Cache ByteView)
        "b" ⟨[3]⟩ = .ok c1 ∧
      c1.list = some ({ id := e, Value := { key := "b", value := ⟨[3]⟩ } } :: rest) ∧
      Get c1 "b" = .ok (c2, some ⟨[3]⟩) :=
  C3_add_then_get (V := ByteView) 1 true _ (by decide)
    ⟨0, [.add "a" ⟨[1, 2]⟩], by decide⟩ "b" ⟨[3]⟩

end lru

end zcache

namespace zcache

namespace consistenthash

/-! ## Properties of the ring -/

theorem Get_of_keys_ne_nil (m : Map) (key : String) (h : m.keys.length ≠ 0) :
    Get m key = (GoMap.find m.hashMap (m.keys.getD
      (Search m.keys.length (fun i => decide (m.keys.getD i 0 ≥ m.hash key)) % m.keys.length)
      0)).getD "" := by
  simp only [Get, h, if_false]

theorem search_keys (m : Map) (hI : RingInv m) (key : String) :
    Search m.keys.length (fun i => decide (m.keys.getD i 0 ≥ m.hash key)) ≤ m.keys.length ∧
    (∀ a, a < Search m.keys.length (fun i => decide (m.keys.getD i 0 ≥ m.hash key)) →
      m.keys.getD a 0 < m.hash key) ∧
    (∀ a, Search m.keys.length (fun i => decide (m.keys.getD i 0 ≥ m.hash key)) ≤ a →
      a < m.keys.length → m.hash key ≤ m.keys.getD a 0) := by
  have mono : ∀ a b, a ≤ b → b < m.keys.length →
      (fun i => decide (m.keys.getD i 0 ≥ m.hash key)) a = true →
      (fun i => decide (m.keys.getD i 0 ≥ m.hash key)) b = true := by
    intro a b hab hb ha
    simp only [ge_iff_le, decide_eq_true_eq] at ha ⊢
    exact le_trans ha (sorted_getD_mono hI.sorted hab hb)
  obtain ⟨h1, h2, h3⟩ := Search_spec _ _ mono
  refine ⟨h1, fun a ha => ?_, fun a ha han => ?_⟩
  · have := h2 a ha
    simpa using this
  · have := h3 a ha han
    simpa using this

/-- C4: on a ring built from `New` by any sequence of `Add` calls, `Get(k)` is
the empty string when there are no virtual nodes; otherwise it is the peer the
vnode-to-peer map holds for the smallest virtual-node hash that is at least
`hash(k)`, and when every virtual-node hash is below `hash(k)` it is the peer of
the smallest virtual-node hash overall. -/
theorem C4_get_owner (m : Map) (hm : Reachable m) (k : String) :
    (m.keys = [] → Get m k = "") ∧
    (∀ x ∈ m.keys, m.hash k ≤ x → (∀ y ∈ m.keys, m.hash k ≤ y → x ≤ y) →
      GoMap.find m.hashMap x = some (Get m k)) ∧
    (∀ x ∈ m.keys, (∀ y ∈ m.keys, y < m.hash k) → (∀ y ∈ m.keys, x ≤ y) →
      GoMap.find m.hashMap x = some (Get m k)) := by
  have hI := hm.ringInv
  obtain ⟨hr, hlo, hhi⟩ := search_keys m hI k
  refine ⟨fun h => by simp [Get, h], fun x hx hge hmin => ?_, fun x hx hall hmin => ?_⟩
  · obtain ⟨i, hi, rfl⟩ := mem_iff_getD.1 hx
    have hn : m.keys.length ≠ 0 := by omega
    rw [Get_of_keys_ne_nil m k hn]
    have hri : Search m.keys.length (fun i => decide (m.keys.getD i 0 ≥ m.hash k)) ≤ i := by
      by_contra hc
      have := hlo i (by omega)
      omega
    rw [Nat.mod_eq_of_lt (lt_of_le_of_lt hri hi)]
    have h1 := sorted_getD_mono hI.sorted hri hi
    have h2 := hmin _ (mem_iff_getD.2 ⟨_, lt_of_le_of_lt hri hi, rfl⟩)
      (hhi _ (Nat.le_refl _) (lt_of_le_of_lt hri hi))
    rw [le_antisymm h1 h2]
    obtain ⟨p, hp⟩ := hI.mapped _ (mem_iff_getD.2 ⟨i, hi, rfl⟩)
    rw [hp]; rfl
  · obtain ⟨i, hi, rfl⟩ := mem_iff_getD.1 hx
    have hn : m.keys.length ≠ 0 := by omega
    rw [Get_of_keys_ne_nil m k hn]
    have hrn : Search m.keys.length (fun i => decide (m.keys.getD i 0 ≥ m.hash k)) =
        m.keys.length := by
      by_contra hc
      have hlt : Search m.keys.length (fun i => decide (m.keys.getD i 0 ≥ m.hash k)) <
          m.keys.length := lt_of_le_of_ne hr hc
      have h1 := hhi _ (Nat.le_refl _) hlt
      have h2 := hall _ (mem_iff_getD.2 ⟨_, hlt, rfl⟩)
      omega
    rw [hrn, Nat.mod_self]
    have h0 : 0 < m.keys.length := by omega
    have h1 := sorted_getD_mono hI.sorted (Nat.zero_le i) hi
    have h2 := hmin _ (mem_iff_getD.2 ⟨0, h0, rfl⟩)
    rw [le_antisymm h1 h2]
    obtain ⟨p, hp⟩ := hI.mapped _ (mem_iff_getD.2 ⟨i, hi, rfl⟩)
    rw [hp]; rfl

/-- C4 on the ring of the test: replicas 3, peers "6", "4", "2", decimal hash.
The virtual nodes are 2, 4, 6, 12, 14, 16, 22, 24, 26; key "23" goes to the
peer of 24, key "27" wraps to the peer of 2. -/
theorem C4_get_owner_witness :
    Reachable (Add (New 3 (some atoi)) ["6", "4", "2"]) ∧
    GoMap.find (Add (New 3 (some atoi)) ["6", "4", "2"]).hashMap 24 =
      some (Get (Add (New 3 (some atoi)) ["6", "4", "2"]) "23") ∧
    GoMap.find (Add (New 3 (some atoi)) ["6", "4", "2"]).hashMap 2 =
      some (Get (Add (New 3 (some atoi)) ["6", "4", "2"]) "27") ∧
    Get (Add (New 3 (some atoi)) ["6", "4", "2"]) "2" = "2" ∧
    Get (Add (New 3 (some atoi)) ["6", "4", "2"]) "11" = "2" ∧
    Get (Add (New 3 (some atoi)) ["6", "4", "2"]) "23" = "4" ∧
    Get (Add (New 3 (some atoi)) ["6", "4", "2"]) "27" = "2" ∧
    Get (New 3 (some atoi)) "27" = "" :=
  ⟨⟨3, some atoi, [["6", "4", "2"]], rfl⟩,
   (C4_get_owner _ ⟨3, some atoi, [["6", "4", "2"]], rfl⟩ "23").2.1 24
     (by decide) (by decide) (by decide),
   (C4_get_owner _ ⟨3, some atoi, [["6", "4", "2"]], rfl⟩ "27").2.2 2
     (by decide) (by decide) (by decide),
   by decide, by decide, by decide, by decide, by decide⟩

end consistenthash

end zcache

namespace zcache

variable {U : Type}

/-! ## Properties of the group loader -/

theorem Group.pick_none_of_peers_none {g : Group U} (hp : g.peers = none) (key : String)
    (w : World U) : Group.pick g key w = (none, w) := by
  simp only [Group.pick, hp]

theorem Group.getterCalls_pick (g : Group U) (key : String) (w : World U) :
    getterCalls (Group.pick g key w).2.trace = getterCalls w.trace := by
  unfold Group.pick
  cases g.peers with
  | none => rfl
  | some p => exact getterCalls_append_pick _ _

/-- The local load that succeeds: what `Get` returns on a miss when no peer is
picked and the getter returns bytes. -/
theorem Group.Get_local_ok {g : Group U} (hi : g.idle) {k : String} (hk : k ≠ "")
    (hmiss : g.misses k) {w : World U} (hlocal : (Group.pick g k w).1 = none)
    {b : List UInt8} {u1 : U}
    (hget : g.getter k (Group.pick g k w).2.user = ((b, none), u1))
    {fuel : Nat} {c1 : cache} (hadd : g.mainCache.add fuel k ⟨b⟩ = .ok c1) :
    ∃ g1 : Group U, g.Get fuel k w = .ok ((⟨b⟩, none), g1,
        { user := u1, trace := (Group.pick g k w).2.trace ++ [.getterGet k] }) ∧
      g1.mainCache = c1 ∧ g1.idle ∧ g1.peers = g.peers ∧ g1.getter = g.getter ∧
      g1.name = g.name := by
  have hloc := Group.getLocally_ok g fuel k
    { mainCache := g.mainCache, world := (Group.pick g k w).2, value := ⟨[]⟩, err := none }
    hget hadd
  have hfn : Group.loadFn fuel g k
      { mainCache := g.mainCache, world := w, value := ⟨[]⟩, err := none } =
      .ok ((some ⟨b⟩, none),
        { mainCache := c1,
          world := { user := u1, trace := (Group.pick g k w).2.trace ++ [.getterGet k] },
          value := ⟨[]⟩, err := none }) := by
    rcases hp : Group.pick g k w with ⟨p, w1⟩
    rw [hp] at hlocal hloc
    simp only at hlocal
    subst hlocal
    simp only [Group.loadFn, hp, hloc]
  obtain ⟨g1, a1, a2, a3, a4, a5, a6, -⟩ := Group.load_of_loadFn hi hfn
  refine ⟨g1, ?_, a1, a5, a4, a3, a2⟩
  rw [Group.Get_of_miss hk hmiss]
  exact a6 _ rfl rfl

/-- The local load that fails: what `Get` returns on a miss when no peer is
picked and the getter returns an error. -/
theorem Group.Get_local_err {g : Group U} (hi : g.idle) {k : String} (hk : k ≠ "")
    (hmiss : g.misses k) {w : World U} (hlocal : (Group.pick g k w).1 = none)
    {b : List UInt8} {e : GoError} {u1 : U}
    (hget : g.getter k (Group.pick g k w).2.user = ((b, some e), u1)) (fuel : Nat) :
    ∃ g1 : Group U, g.Get fuel k w = .ok ((⟨[]⟩, some e), g1,
        { user := u1, trace := (Group.pick g k w).2.trace ++ [.getterGet k] }) ∧
      g1.mainCache = g.mainCache ∧ g1.idle ∧ g1.peers = g.peers ∧ g1.getter = g.getter ∧
      g1.name = g.name := by
  have hloc := Group.getLocally_err g fuel k
    { mainCache := g.mainCache, world := (Group.pick g k w).2, value := ⟨[]⟩, err := none }
    hget
  have hfn : Group.loadFn fuel g k
      { mainCache := g.mainCache, world := w, value := ⟨[]⟩, err := none } =
      .ok ((some ⟨[]⟩, some e),
        { mainCache := g.mainCache,
          world := { user := u1, trace := (Group.pick g k w).2.trace ++ [.getterGet k] },
          value := ⟨[]⟩, err := none }) := by
    rcases hp : Group.pick g k w with ⟨p, w1⟩
    rw [hp] at hlocal hloc
    simp only at hlocal
    subst hlocal
    simp only [Group.loadFn, hp, hloc]
  obtain ⟨g1, a1, a2, a3, a4, a5, -, a7⟩ := Group.load_of_loadFn hi hfn
  refine ⟨g1, ?_, a1, a5, a4, a3, a2⟩
  rw [Group.Get_of_miss hk hmiss]
  exact a7 e rfl

/-- A `Get` that hits: the stored value comes back, the getter is not called. -/
theorem Group.Get_hit (g : Group U) {k : String} (hk : k ≠ "") {c2 : cache} {v : ByteView}
    (hget : g.mainCache.get k = .ok (c2, some v)) (fuel : Nat) (w : World U) :
    g.Get fuel k w = .ok ((v, none), { g with mainCache := c2 },
      { w with trace := w.trace ++ [.log "[zcache] 缓存命中"] }) := by
  simp only [Group.Get, hk, if_false, hget]

/-- C5: on a group without a picker and with `cacheBytes >= 0`, for a key that
is not empty and not yet in the cache and for which the getter returns bytes `b`
without error: `Get(k)` calls the getter once and returns `b` with a nil error,
and the `Get(k)` that follows returns `b` with a nil error without calling the
getter, leaving the user state as it was. -/
theorem C5_hit_after_miss (g : Group U) (hg : g.Reachable) (hp : g.peers = none)
    (hcb : 0 ≤ g.mainCache.cacheBytes) (k : String) (hk : k ≠ "") (hmiss : g.misses k)
    (w : World U) (b : List UInt8) (u1 : U) (hget : g.getter k w.user = ((b, none), u1)) :
    ∃ n, ∀ fuel, n ≤ fuel → ∃ g1 w1 g2 w2,
      g.Get fuel k w = .ok ((⟨b⟩, none), g1, w1) ∧
      getterCalls w1.trace = getterCalls w.trace + 1 ∧ w1.user = u1 ∧
      g1.Get fuel k w1 = .ok ((⟨b⟩, none), g2, w2) ∧
      getterCalls w2.trace = getterCalls w1.trace ∧ w2.user = u1 := by
  obtain ⟨hc, hi⟩ := hg.wf
  obtain ⟨n, hn⟩ := cache.add_then_get hc hcb k ⟨b⟩
  refine ⟨n, fun fuel hf => ?_⟩
  obtain ⟨c1, c2, ha, hg2⟩ := hn fuel hf
  have hpick := Group.pick_none_of_peers_none hp k w
  obtain ⟨g1, h1, h2, -⟩ := Group.Get_local_ok hi hk hmiss (by rw [hpick])
    (by rw [hpick]; exact hget) ha
  rw [hpick] at h1
  refine ⟨g1, _, _, _, h1, getterCalls_append_getter _ _, rfl,
    Group.Get_hit g1 hk (h2 ▸ hg2) fuel _, getterCalls_append_log _ _, rfl⟩

/-- C5 on the group of the test: two `Get("Tom")` both return "630" and the load
count of "Tom" is 1 after each. -/
theorem C5_hit_after_miss_witness :
    ∃ n, ∀ fuel, n ≤ fuel → ∃ g1 w1 g2 w2,
      (NewGroup "scores" 2048 dbGetter).Get fuel "Tom" ⟨[], []⟩ =
        .ok ((⟨bytesOf "630"⟩, none), g1, w1) ∧
      getterCalls w1.trace = getterCalls [] + 1 ∧ w1.user = [("Tom", 1)] ∧
      g1.Get fuel "Tom" w1 = .ok ((⟨bytesOf "630"⟩, none), g2, w2) ∧
      getterCalls w2.trace = getterCalls w1.trace ∧ w2.user = [("Tom", 1)] :=
  C5_hit_after_miss (NewGroup "scores" 2048 dbGetter) (.new _ _ _) rfl (by decide) "Tom"
    (by decide) (by decide) ⟨[], []⟩ (bytesOf "630") [("Tom", 1)] (by decide)

end zcache

namespace zcache

variable {U : Type}

theorem Group.misses_of_mainCache_eq {g g1 : Group U} (h : g1.mainCache = g.mainCache)
    {k : String} (hm : g.misses k) : g1.misses k := by
  unfold Group.misses at hm ⊢
  rw [h]; exact hm

/-- C6: on a group reached from `NewGroup`, for a key that is not empty, misses
the cache and is loaded locally (no picker, or the picker declines): when the
getter returns error `e`, `Get(k)` returns the zero `ByteView` with exactly `e`,
after one call of the getter, and leaves the cache as it was, so `k` still
misses; the `Get(k)` that follows, when it is again loaded locally and the
getter fails again, calls the getter once more. -/
theorem C6_getter_error (g : Group U) (hg : g.Reachable) (k : String) (hk : k ≠ "")
    (hmiss : g.misses k) (w : World U) (hlocal : (Group.pick g k w).1 = none)
    (b : List UInt8) (e : GoError) (u1 : U)
    (hget : g.getter k (Group.pick g k w).2.user = ((b, some e), u1)) (fuel : Nat) :
    ∃ g1 w1, g.Get fuel k w = .ok ((⟨[]⟩, some e), g1, w1) ∧
      g1.mainCache = g.mainCache ∧ g1.misses k ∧ w1.user = u1 ∧
      getterCalls w1.trace = getterCalls w.trace + 1 ∧
      ∀ b2 e2 u2, (Group.pick g1 k w1).1 = none →
        g1.getter k (Group.pick g1 k w1).2.user = ((b2, some e2), u2) →
        ∃ g2 w2, g1.Get fuel k w1 = .ok ((⟨[]⟩, some e2), g2, w2) ∧
          getterCalls w2.trace = getterCalls w1.trace + 1 := by
  obtain ⟨-, hi⟩ := hg.wf
  obtain ⟨g1, h1, h2, h3, -⟩ := Group.Get_local_err hi hk hmiss hlocal hget fuel
  have hm1 := Group.misses_of_mainCache_eq h2 hmiss
  refine ⟨g1, _, h1, h2, hm1, rfl, ?_, fun b2 e2 u2 hl2 hg2 => ?_⟩
  · rw [getterCalls_append_getter, Group.getterCalls_pick]
  · obtain ⟨g2, k1, -⟩ := Group.Get_local_err h3 hk hm1 hl2 hg2 fuel
    refine ⟨g2, _, k1, ?_⟩
    rw [getterCalls_append_getter, Group.getterCalls_pick]

/-- C6 on the group of the test: `Get("Unknown")` returns the zero value with
the error "Unknown not found", the cache stays nil and no load count is
recorded; a second `Get("Unknown")` calls the getter again. -/
theorem C6_getter_error_witness :
    ∃ g1 w1, (NewGroup "scores" 2048 dbGetter).Get 0 "Unknown" ⟨[], []⟩ =
        .ok ((⟨[]⟩, some ⟨"Unknown not found"⟩), g1, w1) ∧
      g1.mainCache = (NewGroup "scores" 2048 dbGetter).mainCache ∧ g1.misses "Unknown" ∧
      w1.user = [] ∧ getterCalls w1.trace = getterCalls [] + 1 ∧
      ∀ b2 e2 u2, (Group.pick g1 "Unknown" w1).1 = none →
        g1.getter "Unknown" (Group.pick g1 "Unknown" w1).2.user = ((b2, some e2), u2) →
        ∃ g2 w2, g1.Get 0 "Unknown" w1 = .ok ((⟨[]⟩, some e2), g2, w2) ∧
          getterCalls w2.trace = getterCalls w1.trace + 1 :=
  C6_getter_error (NewGroup "scores" 2048 dbGetter) (.new _ _ _) "Unknown" (by decide)
    (by decide) ⟨[], []⟩ rfl [] ⟨"Unknown not found"⟩ [] (by decide) 0

end zcache

namespace zcache

namespace singleflight

/-- C8: a `Do(k, fn)` made while no call for `k` is registered runs `fn` once
(a counter bumped by `fn` goes up by one), returns the pair `fn` returned, error
included, and ends with `k` absent from the map and every other key as before;
a second call `Do(k, f2)` made after it runs `f2` and returns the result of `f2`. -/
theorem C8_do_alone {R W : Type} [Inhabited R] (g : Group R) (key : String)
    (fn : W → Except Fail ((R × Option GoError) × W)) (w : W)
    (hidle : GoMap.find (g.m.getD []) key = none)
    (val : R) (err : Option GoError) (w1 : W) (hfn : fn w = .ok ((val, err), w1)) :
    ∃ m1, Do g key fn w = .ok ((val, err), { m := some m1 }, w1) ∧
      GoMap.find m1 key = none ∧
      (∀ k, k ≠ key → GoMap.find m1 k = GoMap.find (g.m.getD []) k) ∧
      (∀ n : Nat, Do g key (counted fn) (w, n) = .ok ((val, err), { m := some m1 }, (w1, n + 1))) ∧
      (∀ (f2 : W → Except Fail ((R × Option GoError) × W)) (val2 : R)
          (err2 : Option GoError) (w2 : W), f2 w1 = .ok ((val2, err2), w2) →
        ∃ m2, Do { m := some m1 } key f2 w1 = .ok ((val2, err2), { m := some m2 }, w2) ∧
          ∀ n : Nat, Do { m := some m1 } key (counted f2) (w1, n) =
            .ok ((val2, err2), { m := some m2 }, (w2, n + 1))) := by
  have hdo : ∀ (g0 : Group R) (f : W → Except Fail ((R × Option GoError) × W)) (a : W)
      (v : R) (e : Option GoError) (a1 : W), GoMap.find (g0.m.getD []) key = none →
      f a = .ok ((v, e), a1) →
      Do g0 key f a = .ok ((v, e), { m := some (GoMap.del (GoMap.put (GoMap.put (g0.m.getD [])
        key { wg := 0 + 1, val := default, err := none }) key
        { wg := 0 + 1 - 1, val := v, err := e }) key) }, a1) ∧
      ∀ n : Nat, Do g0 key (counted f) (a, n) =
        .ok ((v, e), { m := some (GoMap.del (GoMap.put (GoMap.put (g0.m.getD [])
          key { wg := 0 + 1, val := default, err := none }) key
          { wg := 0 + 1 - 1, val := v, err := e }) key) }, (a1, n + 1)) := by
    intro g0 f a v e a1 h0 hf
    constructor
    · simp only [Do, h0, hf]
    · intro n
      simp only [Do, h0, counted, hf]
  obtain ⟨h1, h2⟩ := hdo g fn w val err w1 hidle hfn
  refine ⟨_, h1, GoMap.find_del_self _ _, fun k hk => ?_, h2, fun f2 val2 err2 w2 hf2 => ?_⟩
  · rw [GoMap.find_del_ne _ hk, GoMap.find_put_ne _ _ hk, GoMap.find_put_ne _ _ hk]
  · obtain ⟨h3, h4⟩ := hdo { m := some _ } f2 w1 val2 err2 w2 (GoMap.find_del_self _ _) hf2
    exact ⟨_, h3, h4⟩

/-- C8 on a new group whose map holds a call in flight for another key: the call
for "k" returns 42 and the error of `fn`, and the entry of "other" stays. -/
theorem C8_do_alone_witness :
    ∃ m1, Do ({ m := some [("other", { wg := 1, val := 7, err := none })] } : Group Nat) "k"
        (fun w : Nat => .ok ((42, some ⟨"boom"⟩), w + 1)) 0 =
        .ok ((42, some ⟨"boom"⟩), { m := some m1 }, 1) ∧
      GoMap.find m1 "k" = none ∧
      (∀ k, k ≠ "k" → GoMap.find m1 k =
        GoMap.find ((some [("other", ({ wg := 1, val := 7, err := none } : call Nat))]).getD []) k) ∧
      (∀ n : Nat, Do ({ m := some [("other", { wg := 1, val := 7, err := none })] } : Group Nat)
        "k" (counted (fun w : Nat => .ok ((42, some ⟨"boom"⟩), w + 1))) (0, n) =
        .ok ((42, some ⟨"boom"⟩), { m := some m1 }, (1, n + 1))) ∧
      (∀ (f2 : Nat → Except Fail ((Nat × Option GoError) × Nat)) (val2 : Nat)
          (err2 : Option GoError) (w2 : Nat), f2 1 = .ok ((val2, err2), w2) →
        ∃ m2, Do { m := some m1 } "k" f2 1 = .ok ((val2, err2), { m := some m2 }, w2) ∧
          ∀ n : Nat, Do { m := some m1 } "k" (counted f2) (1, n) =
            .ok ((val2, err2), { m := some m2 }, (w2, n + 1))) :=
  C8_do_alone ({ m := some [("other", { wg := 1, val := 7, err := none })] } : Group Nat) "k"
    (fun w : Nat => .ok ((42, some ⟨"boom"⟩), w + 1)) 0 rfl 42 (some ⟨"boom"⟩) 1 rfl

end singleflight

end zcache

namespace zcache

variable {U : Type}

/-- The closure of `load` when the picked peer fails: the named results are
assigned, the failure is logged and the load falls back to `getLocally`. -/
theorem Group.loadFn_peer_err (g : Group U) (fuel : Nat) (k : String) (s : LoadVars U)
    {peer : PeerGetter U} {w1 : World U} (hpick : Group.pick g k s.world = (some peer, w1))
    {b1 : List UInt8} {e1 : GoError} {u2 : U}
    (hpeer : peer g.name k w1.user = ((b1, some e1), u2)) :
    Group.loadFn fuel g k s =
      match Group.getLocally fuel g k
        { s with
          world := { user := u2, trace := w1.trace ++ [.peerGet g.name k] ++
            [.log ("[zcache] 远程节点获取数据失败 " ++ e1.text)] }
          value := ⟨[]⟩, err := some e1 } with
      | .error f => .error f
      | .ok ((v, e), s1) => .ok ((some v, e), s1) := by
  simp only [Group.loadFn, hpick, Group.getFromPeer_err g peer k w1 hpeer]

/-- C9, for budgets that are not negative: on a group with a registered picker, for a key that is not
empty and misses the cache, when `PickPeer(k)` yields a peer whose fetch fails
with `e1`: if `cacheBytes >= 0` and the getter returns bytes `b`, `Get(k)`
returns `b` with a nil error after exactly one pick, one fetch, one log line and
one getter call, and the next `Get(k)` is a hit that returns `b`; if the getter
fails with `e2`, `Get(k)` returns the zero `ByteView` and `e2`. -/
theorem C9_peer_failure_fallback (g : Group U) (hg : g.Reachable) (picker : PeerPicker U)
    (hp : g.peers = some picker) (k : String) (hk : k ≠ "") (hmiss : g.misses k)
    (w : World U) (peer : PeerGetter U) (u1 : U)
    (hpick : picker k w.user = (some peer, u1))
    (b1 : List UInt8) (e1 : GoError) (u2 : U)
    (hpeer : peer g.name k u1 = ((b1, some e1), u2)) :
    (∀ (b : List UInt8) (u3 : U), 0 ≤ g.mainCache.cacheBytes →
      g.getter k u2 = ((b, none), u3) →
      ∃ n, ∀ fuel, n ≤ fuel → ∃ g1 g2,
        g.Get fuel k w = .ok ((⟨b⟩, none), g1,
          { user := u3, trace := w.trace ++ [.pickPeer k] ++ [.peerGet g.name k] ++
            [.log ("[zcache] 远程节点获取数据失败 " ++ e1.text)] ++ [.getterGet k] }) ∧
        ∀ w1 : World U, g1.Get fuel k w1 = .ok ((⟨b⟩, none), g2,
          { w1 with trace := w1.trace ++ [.log "[zcache] 缓存命中"] })) ∧
    (∀ (b : List UInt8) (e2 : GoError) (u3 : U), g.getter k u2 = ((b, some e2), u3) →
      ∀ fuel, ∃ g1, g.Get fuel k w = .ok ((⟨[]⟩, some e2), g1,
          { user := u3, trace := w.trace ++ [.pickPeer k] ++ [.peerGet g.name k] ++
            [.log ("[zcache] 远程节点获取数据失败 " ++ e1.text)] ++ [.getterGet k] }) ∧
        g1.mainCache = g.mainCache) := by
  obtain ⟨hc, hi⟩ := hg.wf
  have hpk := Group.pick_registered (w := w) hp hpick
  constructor
  · intro b u3 hcb hget
    obtain ⟨n, hn⟩ := cache.add_then_get hc hcb k ⟨b⟩
    refine ⟨n, fun fuel hf => ?_⟩
    obtain ⟨c1, c2, ha, hg2⟩ := hn fuel hf
    have hfn := Group.loadFn_peer_err g fuel k
      { mainCache := g.mainCache, world := w, value := ⟨[]⟩, err := none } hpk hpeer
    rw [Group.getLocally_ok g fuel k _ hget ha] at hfn
    obtain ⟨g1, a1, -, -, -, -, a6, -⟩ := Group.load_of_loadFn hi hfn
    refine ⟨g1, { g1 with mainCache := c2 }, ?_, fun w1 => ?_⟩
    · rw [Group.Get_of_miss hk hmiss]
      exact a6 _ rfl rfl
    · exact Group.Get_hit g1 hk (a1 ▸ hg2) fuel w1
  · intro b e2 u3 hget fuel
    have hfn := Group.loadFn_peer_err g fuel k
      { mainCache := g.mainCache, world := w, value := ⟨[]⟩, err := none } hpk hpeer
    rw [Group.getLocally_err g fuel k _ hget] at hfn
    obtain ⟨g1, a1, -, -, -, -, -, a7⟩ := Group.load_of_loadFn hi hfn
    refine ⟨g1, ?_, a1⟩
    rw [Group.Get_of_miss hk hmiss]
    exact a7 e2 rfl

/-- C9 on a group with budget 64 whose picker always yields a peer
that is down and whose getter echoes the key. -/
theorem C9_peer_failure_fallback_witness :
    (∀ (b : List UInt8) (u3 : Unit),
      0 ≤ ({ NewGroup "g" 64 echoGetter with peers := some downPicker } : Group Unit).mainCache.cacheBytes →
      ({ NewGroup "g" 64 echoGetter with peers := some downPicker } : Group Unit).getter "k" () =
        ((b, none), u3) →
      ∃ n, ∀ fuel, n ≤ fuel → ∃ g1 g2,
        ({ NewGroup "g" 64 echoGetter with peers := some downPicker } : Group Unit).Get fuel "k"
            ⟨(), []⟩ = .ok ((⟨b⟩, none), g1,
          { user := u3, trace := [] ++ [.pickPeer "k"] ++ [.peerGet "g" "k"] ++
            [.log ("[zcache] 远程节点获取数据失败 " ++ "peer down")] ++ [.getterGet "k"] }) ∧
        ∀ w1 : World Unit, g1.Get fuel "k" w1 = .ok ((⟨b⟩, none), g2,
          { w1 with trace := w1.trace ++ [.log "[zcache] 缓存命中"] })) ∧
    (∀ (b : List UInt8) (e2 : GoError) (u3 : Unit),
      ({ NewGroup "g" 64 echoGetter with peers := some downPicker } : Group Unit).getter "k" () =
        ((b, some e2), u3) →
      ∀ fuel, ∃ g1,
        ({ NewGroup "g" 64 echoGetter with peers := some downPicker } : Group Unit).Get fuel "k"
            ⟨(), []⟩ = .ok ((⟨[]⟩, some e2), g1,
          { user := u3, trace := [] ++ [.pickPeer "k"] ++ [.peerGet "g" "k"] ++
            [.log ("[zcache] 远程节点获取数据失败 " ++ "peer down")] ++ [.getterGet "k"] }) ∧
        g1.mainCache =
          ({ NewGroup "g" 64 echoGetter with peers := some downPicker } : Group Unit).mainCache) :=
  C9_peer_failure_fallback
    ({ NewGroup "g" 64 echoGetter with peers := some downPicker } : Group Unit)
    (.register downPicker (.new "g" 64 echoGetter) rfl) downPicker rfl "k" (by decide)
    (by decide) ⟨(), []⟩ downPeer () rfl [] ⟨"peer down"⟩ () rfl

/-- With a negative budget the fallback load does not return: the `Add` behind
`populateCache` stays in its eviction loop. -/
theorem Group.Get_negative_budget (g : Group U) (hg : g.Reachable) (picker : PeerPicker U)
    (hp : g.peers = some picker) (k : String) (hk : k ≠ "") (hmiss : g.misses k)
    (w : World U) (peer : PeerGetter U) (u1 : U)
    (hpick : picker k w.user = (some peer, u1))
    (b1 : List UInt8) (e1 : GoError) (u2 : U)
    (hpeer : peer g.name k u1 = ((b1, some e1), u2))
    (b : List UInt8) (u3 : U) (hget : g.getter k u2 = ((b, none), u3))
    (hneg : g.mainCache.cacheBytes < 0) (fuel : Nat) :
    g.Get fuel k w = .error .outOfFuel := by
  obtain ⟨hc, hi⟩ := hg.wf
  have hpk := Group.pick_registered (w := w) hp hpick
  have hadd := cache.add_diverges hc hneg fuel k ⟨b⟩
  have hfn := Group.loadFn_peer_err g fuel k
    { mainCache := g.mainCache, world := w, value := ⟨[]⟩, err := none } hpk hpeer
  rw [Group.getLocally_fail g fuel k _ hget hadd] at hfn
  have hd := singleflight.Do_idle_error g.loader k _ _ (hi k) hfn
  rw [Group.Get_of_miss hk hmiss]
  simp only [Group.load, hd]

/-- C9 as stated fails on a group whose budget is negative: with `cacheBytes = -1`,
a key that misses, a picked peer that is down and a getter that returns bytes,
`Get("k")` does not return, whatever number of iterations its eviction loop is
given. -/
theorem C9_negative_budget_counterexample :
    Group.Reachable ({ NewGroup "g" (-1) echoGetter with peers := some downPicker } : Group Unit) ∧
    ({ NewGroup "g" (-1) echoGetter with peers := some downPicker } : Group Unit).misses "k" ∧
    downPicker "k" () = (some downPeer, ()) ∧
    downPeer "g" "k" () = (([], some ⟨"peer down"⟩), ()) ∧
    echoGetter "k" () = ((bytesOf "k", none), ()) ∧
    ¬ ∃ fuel r,
      ({ NewGroup "g" (-1) echoGetter with peers := some downPicker } : Group Unit).Get fuel "k"
        ⟨(), []⟩ = .ok r := by
  refine ⟨.register downPicker (.new "g" (-1) echoGetter) rfl, by decide, rfl, rfl, rfl, ?_⟩
  rintro ⟨fuel, r, h⟩
  rw [Group.Get_negative_budget
    ({ NewGroup "g" (-1) echoGetter with peers := some downPicker } : Group Unit)
    (.register downPicker (.new "g" (-1) echoGetter) rfl) downPicker rfl "k" (by decide)
    (by decide) ⟨(), []⟩ downPeer () rfl [] ⟨"peer down"⟩ () rfl (bytesOf "k") () rfl
    (by decide) fuel] at h
  cases h

/-- C10: on a group with a registered picker, for a key that is not empty and
misses the cache, when `PickPeer(k)` yields a peer whose fetch for the group's
name and `k` returns bytes `b`: `Get(k)` returns `b` with a nil error after one
pick and one fetch and no getter call, and the cache is as before, so `k` still
misses. -/
theorem C10_remote_hit (g : Group U) (hg : g.Reachable) (picker : PeerPicker U)
    (hp : g.peers = some picker) (k : String) (hk : k ≠ "") (hmiss : g.misses k)
    (w : World U) (peer : PeerGetter U) (u1 : U)
    (hpick : picker k w.user = (some peer, u1))
    (b : List UInt8) (u2 : U) (hpeer : peer g.name k u1 = ((b, none), u2)) (fuel : Nat) :
    ∃ g1, g.Get fuel k w = .ok ((⟨b⟩, none), g1,
        { user := u2, trace := w.trace ++ [.pickPeer k] ++ [.peerGet g.name k] }) ∧
      getterCalls (w.trace ++ [.pickPeer k] ++ [.peerGet g.name k]) = getterCalls w.trace ∧
      g1.mainCache = g.mainCache ∧ g1.misses k := by
  obtain ⟨-, hi⟩ := hg.wf
  have hpk := Group.pick_registered (w := w) hp hpick
  have hfn : Group.loadFn fuel g k
      { mainCache := g.mainCache, world := w, value := ⟨[]⟩, err := none } =
      .ok ((some ⟨b⟩, none),
        { mainCache := g.mainCache,
          world := { user := u2, trace := w.trace ++ [.pickPeer k] ++ [.peerGet g.name k] },
          value := ⟨b⟩, err := none }) := by
    have hgp := Group.getFromPeer_ok g peer k
      { user := u1, trace := w.trace ++ [.pickPeer k] } hpeer
    simp only [Group.loadFn, hpk, hgp]
  obtain ⟨g1, a1, -, -, -, -, a6, -⟩ := Group.load_of_loadFn hi hfn
  refine ⟨g1, ?_, ?_, a1, Group.misses_of_mainCache_eq a1 hmiss⟩
  · rw [Group.Get_of_miss hk hmiss]
    exact a6 _ rfl rfl
  · rw [getterCalls_append_peer, getterCalls_append_pick]

/-- C10 on a group whose picker always yields a peer that answers: `Get("k")`
returns the peer's bytes for ("g", "k") and the cache stays nil. -/
theorem C10_remote_hit_witness :
    ∃ g1, ({ NewGroup "g" 64 echoGetter with peers := some upPicker } : Group Unit).Get 0 "k"
        ⟨(), []⟩ = .ok ((⟨bytesOf "g/k"⟩, none), g1,
        { user := (), trace := [] ++ [.pickPeer "k"] ++ [.peerGet "g" "k"] }) ∧
      getterCalls ([] ++ [.pickPeer "k"] ++ [.peerGet "g" "k"]) = getterCalls [] ∧
      g1.mainCache =
        ({ NewGroup "g" 64 echoGetter with peers := some upPicker } : Group Unit).mainCache ∧
      g1.misses "k" :=
  C10_remote_hit ({ NewGroup "g" 64 echoGetter with peers := some upPicker } : Group Unit)
    (.register upPicker (.new "g" 64 echoGetter) rfl) upPicker rfl "k" (by decide)
    (by decide) ⟨(), []⟩ upPeer () rfl (bytesOf "g/k") () rfl 0

end zcache

namespace zcache

namespace lru

variable {V : Type}

/-! ## The exact effect of each call on a well-linked store -/

theorem listRemove_eq_filter_key {m : GoMap String Nat} {l : List (Element V)} {n : Nat}
    (hL : Linked m l n) {x : Element V} (hx : x ∈ l) :
    listRemove l x.id = l.filter (fun y => decide (y.Value.key ≠ x.Value.key)) := by
  unfold listRemove
  apply List.filter_congr
  intro y hy
  by_cases h : y.id = x.id
  · have := eq_of_id_eq hL.ids hy hx h
    subst this
    simp
  · have hk : y.Value.key ≠ x.Value.key := fun e => h (eq_of_key_eq hL.keys hy hx e ▸ rfl)
    simp [h, hk]

theorem listRemove_append_last {init : List (Element V)} {x : Element V}
    (hn : ((init ++ [x]).map Element.id).Nodup) : listRemove (init ++ [x]) x.id = init := by
  unfold listRemove
  rw [List.filter_append]
  have h1 : List.filter (fun y => decide (y.id ≠ x.id)) [x] = [] := by simp
  rw [h1, List.append_nil]
  apply List.filter_eq_self.2
  intro y hy
  have : y.id ≠ x.id := by
    intro e
    rw [List.map_append, List.nodup_append] at hn
    exact hn.2.2 (List.mem_map_of_mem Element.id hy) (by simp [e])
  simpa using this

theorem filter_key_of_absent {l : List (Element V)} {k : String}
    (h : ∀ x ∈ l, x.Value.key ≠ k) :
    l.filter (fun y => decide (y.Value.key ≠ k)) = l := by
  apply List.filter_eq_self.2
  intro y hy
  simpa using h y hy

theorem removeElement_eq [Value V] {c : Cache V} {m : GoMap String Nat} {l : List (Element V)}
    (hc : c.cache = some m) (hl : c.list = some l) (hL : Linked m l c.nextId)
    {x : Element V} (hx : x ∈ l) :
    removeElement c x.id = .ok { c with
      list := some (listRemove l x.id)
      nbytes := c.nbytes - (x.Value.key.utf8ByteSize : Int) - Value.Len x.Value.value
      cache := some (GoMap.del m x.Value.key)
      evicted := if c.OnEvicted then c.evicted ++ [(x.Value.key, x.Value.value)]
        else c.evicted } := by
  have hat := elementAt_of_mem hL.ids hx
  simp only [removeElement, hl, hat, hc, Option.map_some']

theorem RemoveOldest_eq_nil [Value V] {c : Cache V} {m : GoMap String Nat}
    (hc : c.cache = some m) (hl : c.list = some []) : RemoveOldest c = .ok c := by
  simp only [RemoveOldest, hc, hl, List.getLast?_nil]

theorem RemoveOldest_eq_last [Value V] {c : Cache V} {m : GoMap String Nat}
    {init : List (Element V)} {x : Element V}
    (hc : c.cache = some m) (hl : c.list = some (init ++ [x]))
    (hL : Linked m (init ++ [x]) c.nextId) :
    RemoveOldest c = .ok { c with
      list := some init
      nbytes := c.nbytes - (x.Value.key.utf8ByteSize : Int) - Value.Len x.Value.value
      cache := some (GoMap.del m x.Value.key)
      evicted := if c.OnEvicted then c.evicted ++ [(x.Value.key, x.Value.value)]
        else c.evicted } := by
  have hlast : (init ++ [x]).getLast? = some x := by simp
  have h1 := removeElement_eq hc hl hL (x := x) (by simp)
  rw [listRemove_append_last hL.ids] at h1
  simp only [RemoveOldest, hc, hl, hlast, h1]

theorem Remove_eq_miss [Value V] {c : Cache V} {m : GoMap String Nat} {l : List (Element V)}
    (hc : c.cache = some m) (hL : Linked m l c.nextId) {k : String}
    (hk : ∀ x ∈ l, x.Value.key ≠ k) : Remove c k = .ok c := by
  have hf : GoMap.find m k = none := by
    cases h : GoMap.find m k with
    | none => rfl
    | some e =>
      obtain ⟨x, hx, -, hxk⟩ := hL.toList k e h
      exact absurd hxk (hk x hx)
  simp only [Remove, hc, hf]

theorem Remove_eq_hit [Value V] {c : Cache V} {m : GoMap String Nat} {l : List (Element V)}
    (hc : c.cache = some m) (hl : c.list = some l) (hL : Linked m l c.nextId)
    {x : Element V} (hx : x ∈ l) :
    Remove c x.Value.key = .ok { c with
      list := some (l.filter (fun y => decide (y.Value.key ≠ x.Value.key)))
      nbytes := c.nbytes - (x.Value.key.utf8ByteSize : Int) - Value.Len x.Value.value
      cache := some (GoMap.del m x.Value.key)
      evicted := if c.OnEvicted then c.evicted ++ [(x.Value.key, x.Value.value)]
        else c.evicted } := by
  have hf := hL.toIndex x hx
  have h1 := removeElement_eq hc hl hL hx
  rw [listRemove_eq_filter_key hL hx] at h1
  simp only [Remove, hc, hf, h1]

theorem Get_eq_miss {c : Cache V} {m : GoMap String Nat} {l : List (Element V)}
    (hc : c.cache = some m) (hL : Linked m l c.nextId) {k : String}
    (hk : ∀ x ∈ l, x.Value.key ≠ k) : Get c k = .ok (c, none) := by
  have hf : GoMap.find m k = none := by
    cases h : GoMap.find m k with
    | none => rfl
    | some e =>
      obtain ⟨x, hx, -, hxk⟩ := hL.toList k e h
      exact absurd hxk (hk x hx)
  simp only [Get, hc, hf]

theorem Get_eq_hit {c : Cache V} {m : GoMap String Nat} {l : List (Element V)}
    (hc : c.cache = some m) (hl : c.list = some l) (hL : Linked m l c.nextId)
    {x : Element V} (hx : x ∈ l) :
    Get c x.Value.key = .ok ({ c with
      list := some (x :: l.filter (fun y => decide (y.Value.key ≠ x.Value.key))) },
      some x.Value.value) := by
  have hf := hL.toIndex x hx
  obtain ⟨h1, h2⟩ := elementAt_listMoveToFront hL.ids hx
  rw [← listRemove_eq_filter_key hL hx, ← h1]
  simp only [Get, hc, hf, hl, h2]

end lru

end zcache

namespace zcache

namespace lru

variable {V : Type}

theorem evictedCalls_concat (onEvicted : Bool) (xs : List (Element V)) (x : Element V)
    (ev : List (String × V)) :
    (if onEvicted then ev ++ [(x.Value.key, x.Value.value)] else ev) ++ evictedCalls onEvicted xs =
      ev ++ evictedCalls onEvicted (xs ++ [x]) := by
  cases onEvicted <;> simp [evictedCalls, onEvictedArgs]

theorem evictCond_false_iff {c : Cache V} {l : List (Element V)} (hl : c.list = some l) :
    evictCond c = .ok false ↔ (c.maxBytes = 0 ∨ (l.length : Int) ≤ c.maxBytes) := by
  unfold evictCond
  by_cases h0 : c.maxBytes = 0
  · simp [h0]
  · simp [h0, hl]

theorem evictCond_ok {c : Cache V} {l : List (Element V)} (hl : c.list = some l) :
    ∃ b, evictCond c = .ok b := by
  unfold evictCond
  by_cases h0 : c.maxBytes = 0
  · exact ⟨false, by simp [h0]⟩
  · exact ⟨decide ((l.length : Int) > c.maxBytes), by simp only [h0, if_false, hl]⟩

/-- The eviction loop removes a suffix of the list, from the tail upwards, and
reports each removed entry once. -/
theorem evictLoop_take [Value V] (fuel : Nat) :
    ∀ {c c1 : Cache V} {m : GoMap String Nat} {l : List (Element V)},
    c.cache = some m → c.list = some l → Linked m l c.nextId →
    evictLoop fuel c = .ok c1 →
    ∃ j, j ≤ l.length ∧ c1.list = some (l.take j) ∧
      c1.evicted = c.evicted ++ evictedCalls c.OnEvicted (l.drop j) ∧
      (c1.maxBytes = 0 ∨ (j : Int) ≤ c1.maxBytes) ∧
      (evictCond c = .ok false → c1 = c) := by
  induction fuel with
  | zero =>
    intro c c1 m l hc hl hL hr
    obtain ⟨b, hb⟩ := evictCond_ok hl
    cases b with
    | true => simp [evictLoop, hb] at hr
    | false =>
      simp only [evictLoop, hb, Except.ok.injEq] at hr
      subst hr
      refine ⟨l.length, le_refl _, by simp [hl], by simp [evictedCalls], ?_, fun _ => rfl⟩
      exact (evictCond_false_iff hl).1 hb
  | succ n ih =>
    intro c c1 m l hc hl hL hr
    obtain ⟨b, hb⟩ := evictCond_ok hl
    cases b with
    | false =>
      simp only [evictLoop, hb, Except.ok.injEq] at hr
      subst hr
      refine ⟨l.length, le_refl _, by simp [hl], by simp [evictedCalls], ?_, fun _ => rfl⟩
      exact (evictCond_false_iff hl).1 hb
    | true =>
      rcases List.eq_nil_or_concat l with rfl | ⟨init, x, hcat⟩
      on_goal 2 => rw [List.concat_eq_append] at hcat; subst hcat
      · have h1 := RemoveOldest_eq_nil hc hl
        simp only [evictLoop, hb, h1] at hr
        obtain ⟨j, hj, a, b, d, -⟩ := ih hc hl hL hr
        exact ⟨j, hj, a, b, d, fun h => by rw [hb] at h; cases h⟩
      · have h1 := RemoveOldest_eq_last hc hl hL
        simp only [evictLoop, hb, h1] at hr
        have hL1 : Linked (GoMap.del m x.Value.key) init c.nextId := by
          have := hL.remove (x := x) (by simp)
          rwa [listRemove_append_last hL.ids] at this
        obtain ⟨j, hj, a, b, d, -⟩ := ih (c := { c with
            list := some init
            nbytes := c.nbytes - (x.Value.key.utf8ByteSize : Int) - Value.Len x.Value.value
            cache := some (GoMap.del m x.Value.key)
            evicted := if c.OnEvicted then c.evicted ++ [(x.Value.key, x.Value.value)]
              else c.evicted }) rfl rfl hL1 hr
        refine ⟨j, ?_, ?_, ?_, d, fun h => by rw [hb] at h; cases h⟩
        · simp only [List.length_append, List.length_singleton]; omega
        · rw [List.take_append_of_le_length hj]; exact a
        · rw [List.drop_append_of_le_length hj, b]
          exact evictedCalls_concat _ _ _ _

/-- The state of `Add` at the head of its eviction loop: the entry `(k, v)` is
at the front, the other entries follow in their old order. -/
theorem Add_eq_evictLoop [Value V] {c : Cache V} {m : GoMap String Nat} {l : List (Element V)}
    (hc : c.cache = some m) (hl : c.list = some l) (hL : Linked m l c.nextId)
    (fuel : Nat) (k : String) (v : V) :
    ∃ (mid : Cache V) (m1 : GoMap String Nat) (e : Nat),
      Add fuel c k v = evictLoop fuel mid ∧ mid.cache = some m1 ∧
      mid.list = some ({ id := e, Value := { key := k, value := v } } ::
        l.filter (fun y => decide (y.Value.key ≠ k))) ∧
      Linked m1 ({ id := e, Value := { key := k, value := v } } ::
        l.filter (fun y => decide (y.Value.key ≠ k))) mid.nextId ∧
      mid.evicted = c.evicted ∧ mid.maxBytes = c.maxBytes ∧ mid.OnEvicted = c.OnEvicted ∧
      ((∀ x ∈ l, x.Value.key ≠ k) ∨
        ∃ x ∈ l, x.Value.key = k ∧ mid = { c with
          list := some ({ id := x.id, Value := { key := k, value := v } } ::
            l.filter (fun y => decide (y.Value.key ≠ k)))
          nbytes := c.nbytes - Value.Len x.Value.value + Value.Len v }) := by
  cases hf : GoMap.find m k with
  | none =>
    have habs : ∀ x ∈ l, x.Value.key ≠ k := by
      intro x hx e
      have := hL.toIndex x hx
      rw [e, hf] at this
      cases this
    refine ⟨{ c with
        list := some ({ id := c.nextId, Value := { key := k, value := v } } :: l)
        cache := some (GoMap.put m k c.nextId)
        nextId := c.nextId + 1 }, _, c.nextId, ?_, rfl, ?_, ?_, rfl, rfl, rfl, Or.inl habs⟩
    · simp only [Add, hc, hf, hl]
    · rw [filter_key_of_absent habs]
    · rw [filter_key_of_absent habs]
      exact hL.push v hf
  | some e =>
    obtain ⟨x, hx, rfl, rfl⟩ := hL.toList k e hf
    obtain ⟨h1, h2⟩ := elementAt_listMoveToFront hL.ids hx
    have hp : Linked m (x :: listRemove l x.id) c.nextId := by
      rw [← h1]; exact hL.perm (listMoveToFront_perm hL.ids _)
    have hs := listSetValue_head hp.ids v
    have hL1 := hp.setValue x.id v
    rw [hs, listRemove_eq_filter_key hL hx] at hL1
    refine ⟨{ c with
        list := some ({ id := x.id, Value := { key := x.Value.key, value := v } } ::
          l.filter (fun y => decide (y.Value.key ≠ x.Value.key)))
        nbytes := c.nbytes - Value.Len x.Value.value + Value.Len v }, m, x.id,
      ?_, hc, rfl, hL1, rfl, rfl, rfl, Or.inr ⟨x, hx, rfl, rfl⟩⟩
    simp only [Add, hc, hf, hl, h2]
    rw [h1, hs, listRemove_eq_filter_key hL hx]

end lru

end zcache

namespace zcache

namespace lru

variable {V : Type}

/-! ## What each call does to the recency list -/

theorem mem_key_or_absent (l : List (Element V)) (k : String) :
    (∃ x ∈ l, x.Value.key = k) ∨ ∀ x ∈ l, x.Value.key ≠ k := by
  by_cases h : ∃ x ∈ l, x.Value.key = k
  · exact Or.inl h
  · right
    intro x hx e
    exact h ⟨x, hx, e⟩

theorem Add_list [Value V] {c c1 : Cache V} {m : GoMap String Nat} {l : List (Element V)}
    (hc : c.cache = some m) (hl : c.list = some l) (hL : Linked m l c.nextId)
    {fuel : Nat} {k : String} {v : V} (hr : Add fuel c k v = .ok c1) :
    ∃ e j, c1.list = some ((({ id := e, Value := { key := k, value := v } } : Element V) ::
        l.filter (fun y => decide (y.Value.key ≠ k))).take j) ∧
      c1.evicted = c.evicted ++ evictedCalls c.OnEvicted
        ((({ id := e, Value := { key := k, value := v } } : Element V) ::
          l.filter (fun y => decide (y.Value.key ≠ k))).drop j) ∧
      (c1.maxBytes = 0 ∨ (j : Int) ≤ c1.maxBytes) := by
  obtain ⟨mid, m1, e, h1, h2, h3, h4, h5, h6, h7, -⟩ := Add_eq_evictLoop hc hl hL fuel k v
  rw [h1] at hr
  obtain ⟨j, -, a, b, d, -⟩ := evictLoop_take fuel h2 h3 h4 hr
  exact ⟨e, j, a, by rw [b, h5, h7], d⟩

/-- On a bounded store an `Add` of a present key evicts nothing. -/
theorem Add_present [Value V] {c : Cache V} {m : GoMap String Nat} {l : List (Element V)}
    (hc : c.cache = some m) (hl : c.list = some l) (hL : Linked m l c.nextId)
    (hB : Bounded c) {x : Element V} (hx : x ∈ l) (fuel : Nat) (v : V) :
    Add fuel c x.Value.key v = .ok { c with
      list := some ({ id := x.id, Value := { key := x.Value.key, value := v } } ::
        l.filter (fun y => decide (y.Value.key ≠ x.Value.key)))
      nbytes := c.nbytes - Value.Len x.Value.value + Value.Len v } := by
  obtain ⟨mid, m1, e, h1, h2, h3, h4, h5, h6, h7, h8⟩ :=
    Add_eq_evictLoop hc hl hL fuel x.Value.key v
  rcases h8 with h8 | ⟨y, hy, hk, h8⟩
  · exact absurd rfl (h8 x hx)
  · have hyx := eq_of_key_eq hL.keys hy hx hk
    subst hyx
    have hlen : (({ id := y.id, Value := { key := y.Value.key, value := v } } : Element V) ::
        l.filter (fun z => decide (z.Value.key ≠ y.Value.key))).length = l.length := by
      have := (cons_listRemove_perm hL.ids hy).length_eq
      rw [listRemove_eq_filter_key hL hy] at this
      simpa using this
    have hcond : evictCond mid = .ok false := by
      rw [h8]
      refine (evictCond_false_iff (l := _) rfl).2 ?_
      rw [hlen]
      rcases hB l hl with h | h | h
      · exact Or.inl h
      · exact Or.inr h
      · subst h; simp at hy
    rw [h1, ← h8]
    cases fuel with
    | zero => simp only [evictLoop, hcond]
    | succ n => simp only [evictLoop, hcond]

theorem Bounded_New (maxBytes : Int) (onEvicted : Bool) :
    Bounded (New maxBytes onEvicted : Cache V) := by
  intro l hl
  simp only [New, Option.some.injEq] at hl
  exact Or.inr (Or.inr hl.symm)

theorem Bounded_of_le {c c1 : Cache V} {l l1 : List (Element V)} (hB : Bounded c)
    (hl : c.list = some l) (hl1 : c1.list = some l1) (hm : c1.maxBytes = c.maxBytes)
    (hle : l1.length ≤ l.length) : Bounded c1 := by
  intro l2 h2
  rw [hl1, Option.some.injEq] at h2
  subst h2
  rw [hm]
  rcases hB l hl with h | h | h
  · exact Or.inl h
  · exact Or.inr (Or.inl (le_trans (by exact_mod_cast hle) h))
  · subst h
    exact Or.inr (Or.inr (List.length_eq_zero.1 (Nat.le_zero.1 hle)))

end lru

end zcache

namespace zcache

namespace lru

variable {V : Type}

/-! ## The clock orders the recency list -/

theorem Stamps.lastOf_touch_self (s : Stamps) (k : String) : (s.touch k).lastOf k = s.now := by
  simp [Stamps.lastOf, Stamps.touch, GoMap.find_put_self]

theorem Stamps.lastOf_touch_ne (s : Stamps) {k a : String} (h : a ≠ k) :
    (s.touch k).lastOf a = s.lastOf a := by
  simp [Stamps.lastOf, Stamps.touch, GoMap.find_put_ne _ _ h]

theorem stamped_tick {s : Stamps} {l l1 : List (Element V)}
    (hp : (l.map (fun x : Element V => x.Value.key)).Pairwise (fun a b => s.lastOf b < s.lastOf a))
    (hn : ∀ x ∈ l, s.lastOf x.Value.key < s.now) (hsub : l1.Sublist l) :
    (l1.map (fun x : Element V => x.Value.key)).Pairwise
        (fun a b => s.tick.lastOf b < s.tick.lastOf a) ∧
      ∀ x ∈ l1, s.tick.lastOf x.Value.key < s.tick.now := by
  refine ⟨hp.sublist (hsub.map _), fun x hx => ?_⟩
  exact Nat.lt_succ_of_lt (hn x (hsub.subset hx))

theorem stamped_touch {s : Stamps} {l l1 : List (Element V)} {k : String}
    (hp : (l.map (fun x : Element V => x.Value.key)).Pairwise (fun a b => s.lastOf b < s.lastOf a))
    (hn : ∀ x ∈ l, s.lastOf x.Value.key < s.now)
    (hsub : (l1.map (fun x : Element V => x.Value.key)).Sublist
      (k :: (l.filter (fun y => decide (y.Value.key ≠ k))).map (fun x => x.Value.key))) :
    (l1.map (fun x : Element V => x.Value.key)).Pairwise
        (fun a b => (s.touch k).lastOf b < (s.touch k).lastOf a) ∧
      ∀ x ∈ l1, (s.touch k).lastOf x.Value.key < (s.touch k).now := by
  have hks : ∀ a ∈ (l.filter (fun y => decide (y.Value.key ≠ k))).map (fun x => x.Value.key),
      a ≠ k ∧ s.lastOf a < s.now := by
    intro a ha
    obtain ⟨y, hy, rfl⟩ := List.mem_map.1 ha
    obtain ⟨hyl, hyk⟩ := List.mem_filter.1 hy
    exact ⟨by simpa using hyk, hn y hyl⟩
  have hfull : (k :: (l.filter (fun y => decide (y.Value.key ≠ k))).map
      (fun x => x.Value.key)).Pairwise
      (fun a b => (s.touch k).lastOf b < (s.touch k).lastOf a) := by
    rw [List.pairwise_cons]
    constructor
    · intro b hb
      rw [Stamps.lastOf_touch_self, Stamps.lastOf_touch_ne s (hks b hb).1]
      exact (hks b hb).2
    · have h0 := hp.sublist ((List.filter_sublist (p := fun y => decide (y.Value.key ≠ k)) l).map
        (fun x : Element V => x.Value.key))
      refine h0.imp_of_mem ?_
      intro a b ha hb hab
      rw [Stamps.lastOf_touch_ne s (hks a ha).1, Stamps.lastOf_touch_ne s (hks b hb).1]
      exact hab
  refine ⟨hfull.sublist hsub, fun x hx => ?_⟩
  have hmem : x.Value.key ∈ k :: (l.filter (fun y => decide (y.Value.key ≠ k))).map
      (fun x => x.Value.key) :=
    hsub.subset (List.mem_map_of_mem (fun x : Element V => x.Value.key) hx)
  show (s.touch k).lastOf x.Value.key < s.now + 1
  rcases List.mem_cons.1 hmem with h | h
  · rw [h, Stamps.lastOf_touch_self]; exact Nat.lt_succ_self _
  · rw [Stamps.lastOf_touch_ne s (hks _ h).1]
    exact Nat.lt_succ_of_lt (hks _ h).2

theorem Stamped_of_eq {c : Cache V} {s : Stamps} {l : List (Element V)} (hl : c.list = some l)
    (h : (l.map (fun x : Element V => x.Value.key)).Pairwise (fun a b => s.lastOf b < s.lastOf a) ∧
      ∀ x ∈ l, s.lastOf x.Value.key < s.now) : Stamped c s := by
  intro l2 h2
  rw [hl, Option.some.injEq] at h2
  subst h2
  exact h

theorem stepT_good [Value V] {c c1 : Cache V} {s s1 : Stamps} {fuel : Nat} {op : Op V}
    (hI : Inv c) (hB : Bounded c) (hS : Stamped c s)
    (hr : stepT fuel c s op = .ok (c1, s1)) :
    Inv c1 ∧ Bounded c1 ∧ Stamped c1 s1 ∧ c1.maxBytes = c.maxBytes ∧
      c1.OnEvicted = c.OnEvicted ∧ step fuel c op = .ok c1 := by
  obtain ⟨m, l, hc, hl, hL⟩ := hI
  obtain ⟨hp, hn⟩ := hS l hl
  cases op with
  | add k v =>
    cases ha : Add fuel c k v with
    | error f => simp [stepT, ha] at hr
    | ok c2 =>
      simp only [stepT, ha, Except.ok.injEq, Prod.mk.injEq] at hr
      obtain ⟨rfl, rfl⟩ := hr
      obtain ⟨hI2, hm2, ho2⟩ := Add_inv ⟨m, l, hc, hl, hL⟩ ha
      obtain ⟨e, j, a, -, d⟩ := Add_list hc hl hL ha
      refine ⟨hI2, ?_, ?_, hm2, ho2, ha⟩
      · intro l2 h2
        rw [a, Option.some.injEq] at h2
        subst h2
        rcases d with d | d
        · exact Or.inl d
        · refine Or.inr (Or.inl (le_trans ?_ d))
          exact_mod_cast (List.length_take_le _ _)
      · refine Stamped_of_eq a (stamped_touch hp hn ?_)
        exact (List.take_sublist _ _).map _
  | get k =>
    rcases mem_key_or_absent l k with ⟨x, hx, rfl⟩ | habs
    · have hg := Get_eq_hit hc hl hL hx
      simp only [stepT, hg, Except.ok.injEq, Prod.mk.injEq] at hr
      obtain ⟨rfl, rfl⟩ := hr
      obtain ⟨c3, r3, hg3, hI3, -⟩ := Get_inv ⟨m, l, hc, hl, hL⟩ x.Value.key
      rw [hg] at hg3
      simp only [Except.ok.injEq, Prod.mk.injEq] at hg3
      obtain ⟨rfl, -⟩ := hg3
      have hlen : (x :: l.filter (fun z => decide (z.Value.key ≠ x.Value.key))).length =
          l.length := by
        have := (cons_listRemove_perm hL.ids hx).length_eq
        rwa [listRemove_eq_filter_key hL hx] at this
      refine ⟨hI3, Bounded_of_le hB hl rfl rfl (le_of_eq hlen), ?_, rfl, rfl, ?_⟩
      · exact Stamped_of_eq rfl (stamped_touch hp hn (List.Sublist.refl _))
      · simp only [step, hg, Except.map]
    · have hg := Get_eq_miss hc hL habs
      simp only [stepT, hg, Except.ok.injEq, Prod.mk.injEq] at hr
      obtain ⟨rfl, rfl⟩ := hr
      refine ⟨⟨m, l, hc, hl, hL⟩, hB, ?_, rfl, rfl, ?_⟩
      · exact Stamped_of_eq hl (stamped_tick hp hn (List.Sublist.refl _))
      · simp only [step, hg, Except.map]
  | remove k =>
    obtain ⟨c2, h2, hI2, hm2, ho2⟩ := Remove_inv ⟨m, l, hc, hl, hL⟩ k
    simp only [stepT, h2, Except.ok.injEq, Prod.mk.injEq] at hr
    obtain ⟨rfl, rfl⟩ := hr
    rcases mem_key_or_absent l k with ⟨x, hx, rfl⟩ | habs
    · have hg := Remove_eq_hit hc hl hL hx
      rw [h2, Except.ok.injEq] at hg
      subst hg
      refine ⟨hI2, Bounded_of_le hB hl rfl rfl (List.length_filter_le _ _), ?_, rfl, rfl, h2⟩
      exact Stamped_of_eq rfl (stamped_tick hp hn (List.filter_sublist _))
    · have hg := Remove_eq_miss hc hL habs
      rw [h2, Except.ok.injEq] at hg
      subst hg
      exact ⟨hI2, hB, Stamped_of_eq hl (stamped_tick hp hn (List.Sublist.refl _)), rfl, rfl, h2⟩
  | removeOldest =>
    obtain ⟨c2, h2, hI2, hm2, ho2⟩ := RemoveOldest_inv ⟨m, l, hc, hl, hL⟩
    simp only [stepT, h2, Except.ok.injEq, Prod.mk.injEq] at hr
    obtain ⟨rfl, rfl⟩ := hr
    rcases List.eq_nil_or_concat l with rfl | ⟨init, x, hcat⟩
    · have hg := RemoveOldest_eq_nil hc hl
      rw [h2, Except.ok.injEq] at hg
      subst hg
      exact ⟨hI2, hB, Stamped_of_eq hl (stamped_tick hp hn (List.Sublist.refl _)), rfl, rfl, h2⟩
    · rw [List.concat_eq_append] at hcat
      subst hcat
      have hg := RemoveOldest_eq_last hc hl hL
      rw [h2, Except.ok.injEq] at hg
      subst hg
      refine ⟨hI2, Bounded_of_le hB hl rfl rfl (by simp), ?_, rfl, rfl, h2⟩
      exact Stamped_of_eq rfl (stamped_tick hp hn (List.sublist_append_left _ _))

theorem runT_good [Value V] (fuel : Nat) (ops : List (Op V)) :
    ∀ {c c1 : Cache V} {s s1 : Stamps}, Inv c → Bounded c → Stamped c s →
    runT fuel c s ops = .ok (c1, s1) →
    Inv c1 ∧ Bounded c1 ∧ Stamped c1 s1 ∧ c1.maxBytes = c.maxBytes ∧
      c1.OnEvicted = c.OnEvicted ∧ run fuel c ops = .ok c1 := by
  induction ops with
  | nil =>
    intro c c1 s s1 hI hB hS hr
    simp only [runT, Except.ok.injEq, Prod.mk.injEq] at hr
    obtain ⟨rfl, rfl⟩ := hr
    exact ⟨hI, hB, hS, rfl, rfl, rfl⟩
  | cons op ops ih =>
    intro c c1 s s1 hI hB hS hr
    unfold runT at hr
    cases hs : stepT fuel c s op with
    | error f => simp [hs] at hr
    | ok p =>
      obtain ⟨c2, s2⟩ := p
      simp only [hs] at hr
      obtain ⟨a1, a2, a3, a4, a5, a6⟩ := stepT_good hI hB hS hs
      obtain ⟨b1, b2, b3, b4, b5, b6⟩ := ih a1 a2 a3 hr
      refine ⟨b1, b2, b3, b4.trans a4, b5.trans a5, ?_⟩
      simp only [run, a6, b6]

theorem runT_of_run [Value V] (fuel : Nat) (ops : List (Op V)) :
    ∀ {c c1 : Cache V} (s : Stamps), run fuel c ops = .ok c1 →
    ∃ s1, runT fuel c s ops = .ok (c1, s1) := by
  induction ops with
  | nil =>
    intro c c1 s hr
    simp only [run, Except.ok.injEq] at hr
    subst hr
    exact ⟨s, rfl⟩
  | cons op ops ih =>
    intro c c1 s hr
    unfold run at hr
    cases hs : step fuel c op with
    | error f => simp [hs] at hr
    | ok c2 =>
      simp only [hs] at hr
      have : ∃ s2, stepT fuel c s op = .ok (c2, s2) := by
        cases op with
        | add k v =>
          simp only [step] at hs
          exact ⟨s.touch k, by simp only [stepT, hs]⟩
        | get k =>
          simp only [step] at hs
          cases hg : Get c k with
          | error f => simp [hg, Except.map] at hs
          | ok p =>
            obtain ⟨c3, r⟩ := p
            simp only [hg, Except.map, Except.ok.injEq] at hs
            subst hs
            cases r with
            | none => exact ⟨s.tick, by simp only [stepT, hg]⟩
            | some v => exact ⟨s.touch k, by simp only [stepT, hg]⟩
        | remove k =>
          simp only [step] at hs
          exact ⟨s.tick, by simp only [stepT, hs]⟩
        | removeOldest =>
          simp only [step] at hs
          exact ⟨s.tick, by simp only [stepT, hs]⟩
      obtain ⟨s2, h2⟩ := this
      obtain ⟨s1, h1⟩ := ih s2 hr
      exact ⟨s1, by simp only [runT, h2, h1]⟩

theorem Stamped_New (maxBytes : Int) (onEvicted : Bool) :
    Stamped (New maxBytes onEvicted : Cache V) { now := 0, last := [] } := by
  intro l hl
  simp only [New, Option.some.injEq] at hl
  subst hl
  simp

theorem ReachableT.good [Value V] {maxBytes : Int} {onEvicted : Bool} {c : Cache V} {s : Stamps}
    (h : ReachableT maxBytes onEvicted c s) :
    Inv c ∧ Bounded c ∧ Stamped c s ∧ c.maxBytes = maxBytes ∧ c.OnEvicted = onEvicted ∧
      Reachable maxBytes onEvicted c := by
  obtain ⟨fuel, ops, hr⟩ := h
  obtain ⟨a1, a2, a3, a4, a5, a6⟩ :=
    runT_good fuel ops (Inv_New maxBytes onEvicted) (Bounded_New maxBytes onEvicted)
      (Stamped_New maxBytes onEvicted) hr
  exact ⟨a1, a2, a3, a4, a5, fuel, ops, a6⟩

theorem Reachable.bounded [Value V] {maxBytes : Int} {onEvicted : Bool} {c : Cache V}
    (h : Reachable maxBytes onEvicted c) : Bounded c := by
  obtain ⟨fuel, ops, hr⟩ := h
  obtain ⟨s1, h1⟩ := runT_of_run fuel ops { now := 0, last := [] } hr
  exact (ReachableT.good ⟨fuel, ops, h1⟩).2.1

end lru

end zcache

namespace zcache

namespace GoMap

variable {α β : Type} [DecidableEq α]

theorem find_eq_some_of_mem {m : GoMap α β} (hn : (m.map Prod.fst).Nodup) {k : α} {v : β}
    (h : (k, v) ∈ m) : find m k = some v := by
  induction m with
  | nil => simp at h
  | cons p rest ih =>
    obtain ⟨a, b⟩ := p
    simp only [List.map_cons, List.nodup_cons] at hn
    rcases List.mem_cons.1 h with h | h
    · simp only [Prod.mk.injEq] at h
      obtain ⟨rfl, rfl⟩ := h
      simp [find]
    · have hne : a ≠ k := by
        intro e
        exact hn.1 (e ▸ List.mem_map_of_mem Prod.fst h)
      simp only [find, hne, if_false]
      exact ih hn.2 h

theorem mem_of_find_eq_some {m : GoMap α β} {k : α} {v : β} (h : find m k = some v) :
    (k, v) ∈ m := by
  induction m with
  | nil => simp [find] at h
  | cons p rest ih =>
    obtain ⟨a, b⟩ := p
    by_cases hak : a = k
    · simp only [find, hak, if_true, Option.some.injEq] at h
      subst h
      rw [hak]
      exact List.mem_cons_self _ _
    · simp only [find, hak, if_false] at h
      exact List.mem_cons_of_mem _ (ih h)

end GoMap

namespace lru

variable {V : Type}

/-! ## The index is a relabelling of the list -/

theorem Linked.index_perm {m : GoMap String Nat} {l : List (Element V)} {n : Nat}
    (h : Linked m l n) : m.Perm (l.map (fun x => (x.Value.key, x.id))) := by
  have hd1 : m.Nodup := List.Nodup.of_map Prod.fst h.index
  have hd2 : (l.map (fun x : Element V => (x.Value.key, x.id))).Nodup := by
    refine List.Nodup.map_on ?_ (List.Nodup.of_map Element.id h.ids)
    intro x hx y hy e
    simp only [Prod.mk.injEq] at e
    exact eq_of_id_eq h.ids hx hy e.2
  refine (List.perm_ext_iff_of_nodup hd1 hd2).2 ?_
  rintro ⟨k, e⟩
  constructor
  · intro hm
    obtain ⟨x, hx, rfl, rfl⟩ := h.toList k e (GoMap.find_eq_some_of_mem h.index hm)
    exact List.mem_map_of_mem (fun x : Element V => (x.Value.key, x.id)) hx
  · intro hm
    obtain ⟨x, hx, hxe⟩ := List.mem_map.1 hm
    simp only [Prod.mk.injEq] at hxe
    obtain ⟨rfl, rfl⟩ := hxe
    exact GoMap.mem_of_find_eq_some (h.toIndex x hx)

theorem Linked.length_eq {m : GoMap String Nat} {l : List (Element V)} {n : Nat}
    (h : Linked m l n) : m.length = l.length := by
  simpa using h.index_perm.length_eq

theorem Linked.keys_iff {m : GoMap String Nat} {l : List (Element V)} {n : Nat}
    (h : Linked m l n) (k : String) :
    k ∈ m.map Prod.fst ↔ k ∈ l.map (fun x => x.Value.key) := by
  have := (h.index_perm.map Prod.fst).mem_iff (a := k)
  simpa [List.map_map, Function.comp] using this

/-! ## Clear -/

theorem clearCalls_eq (l : List (Element V)) (m : GoMap String Nat)
    (h : ∀ p ∈ m, ∃ x, elementAt l p.2 = some x) :
    clearCalls (some l) m =
      .ok (m.filterMap (fun p => (elementAt l p.2).map onEvictedArgs)) := by
  induction m with
  | nil => rfl
  | cons p rest ih =>
    obtain ⟨k, e⟩ := p
    obtain ⟨x, hx⟩ := h (k, e) (List.mem_cons_self _ _)
    have hrest := ih (fun q hq => h q (List.mem_cons_of_mem _ hq))
    simp only at hx
    simp only [clearCalls, Option.some_bind, hx, hrest, List.filterMap_cons, Option.map_some',
      onEvictedArgs]

theorem clearCalls_linked {m : GoMap String Nat} {l : List (Element V)} {n : Nat}
    (h : Linked m l n) :
    ∃ cs, clearCalls (some l) m = .ok cs ∧ cs.Perm (l.map onEvictedArgs) := by
  have hall : ∀ p ∈ m, ∃ x, elementAt l p.2 = some x := by
    rintro ⟨k, e⟩ hp
    obtain ⟨x, hx, rfl, -⟩ := h.toList k e (GoMap.find_eq_some_of_mem h.index hp)
    exact ⟨x, elementAt_of_mem h.ids hx⟩
  refine ⟨_, clearCalls_eq l m hall, ?_⟩
  have hp := h.index_perm.filterMap (fun p => (elementAt l p.2).map onEvictedArgs)
  refine hp.trans ?_
  rw [List.filterMap_map]
  have : l.filterMap ((fun p : String × Nat => (elementAt l p.2).map onEvictedArgs) ∘
      fun x : Element V => (x.Value.key, x.id)) = l.map onEvictedArgs := by
    rw [← List.filterMap_eq_map]
    apply List.filterMap_congr
    intro x hx
    simp [elementAt_of_mem h.ids hx]
  rw [this]

theorem Clear_linked {c : Cache V} {m : GoMap String Nat} {l : List (Element V)}
    (hc : c.cache = some m) (hl : c.list = some l) (hL : Linked m l c.nextId) :
    ∃ cs, cs.Perm (l.map onEvictedArgs) ∧
      Clear c = .ok { c with
        evicted := if c.OnEvicted then c.evicted ++ cs else c.evicted
        list := none
        cache := none } := by
  obtain ⟨cs, h1, h2⟩ := clearCalls_linked hL
  refine ⟨cs, h2, ?_⟩
  unfold Clear
  cases ho : c.OnEvicted with
  | false => simp
  | true => simp [hl, hc, h1]

/-- A store whose index is nil ignores every call. -/
theorem inert_of_cache_none [Value V] {c : Cache V} (hc : c.cache = none) :
    Len c = .ok 0 ∧ (∀ k, Get c k = .ok (c, none)) ∧ (∀ fuel k v, Add fuel c k v = .ok c) ∧
      (∀ k, Remove c k = .ok c) ∧ RemoveOldest c = .ok c := by
  refine ⟨by simp only [Len, hc], fun k => by simp only [Get, hc],
    fun fuel k v => by simp only [Add, hc], fun k => by simp only [Remove, hc],
    by simp only [RemoveOldest, hc]⟩

theorem Clear_of_cleared {c : Cache V} (hc : c.cache = none) (hl : c.list = none) :
    Clear c = .ok c := by
  obtain ⟨mb, nb, ca, li, oe, ev, ni⟩ := c
  simp only at hc hl
  subst hc hl
  cases oe <;> simp [Clear, clearCalls]

end lru

end zcache

namespace zcache

namespace lru

variable {V : Type}

/-! ## Recency order, eviction order, index, callback, cleared store -/

/-- C11: on a store reached from `New`, a `Get(k)` of a present key returns the
value stored under `k` and moves that entry to the front of the list, every
other entry keeping its place relative to the others and nothing else in the
store changing; `Add(k, v)` of a present key moves the entry to the front in the
same way, with the new value; a `Get` of an absent key leaves the store as it is. -/
theorem C11_hit_promotes [Value V] (maxBytes : Int) (onEvicted : Bool) (c : Cache V)
    (hr : Reachable maxBytes onEvicted c) (k : String) :
    ∃ l, c.list = some l ∧
      (∀ x ∈ l, x.Value.key = k →
        Get c k = .ok ({ c with
          list := some (x :: l.filter (fun y => decide (y.Value.key ≠ k))) },
          some x.Value.value) ∧
        ∀ (fuel : Nat) (v : V), Add fuel c k v = .ok { c with
          list := some ({ id := x.id, Value := { key := k, value := v } } ::
            l.filter (fun y => decide (y.Value.key ≠ k)))
          nbytes := c.nbytes - Value.Len x.Value.value + Value.Len v }) ∧
      ((∀ x ∈ l, x.Value.key ≠ k) → Get c k = .ok (c, none)) := by
  obtain ⟨⟨m, l, hc, hl, hL⟩, -, -⟩ := hr.inv
  have hB := hr.bounded
  refine ⟨l, hl, fun x hx hk => ?_, fun habs => Get_eq_miss hc hL habs⟩
  subst hk
  exact ⟨Get_eq_hit hc hl hL hx, fun fuel v => Add_present hc hl hL hB hx fuel v⟩

/-- C11 on the store of the demo run, for the key "c" at the tail. -/
theorem C11_hit_promotes_witness :
    ∃ l, demoStore.list = some l ∧
      (∀ x ∈ l, x.Value.key = "c" →
        Get demoStore "c" = .ok ({ demoStore with
          list := some (x :: l.filter (fun y => decide (y.Value.key ≠ "c"))) },
          some x.Value.value) ∧
        ∀ (fuel : Nat) (v : ByteView), Add fuel demoStore "c" v = .ok { demoStore with
          list := some ({ id := x.id, Value := { key := "c", value := v } } ::
            l.filter (fun y => decide (y.Value.key ≠ "c")))
          nbytes := demoStore.nbytes - Value.Len x.Value.value + Value.Len v }) ∧
      ((∀ x ∈ l, x.Value.key ≠ "c") → Get demoStore "c" = .ok (demoStore, none)) :=
  C11_hit_promotes 3 true demoStore ⟨1, demoOps, by decide⟩ "c"

/-- C12: on a store reached from `New`, `RemoveOldest` on an empty list changes
nothing; on a list `init ++ [x]` the tail `x` is the live entry whose most recent
`Add` or `Get` hit is the earliest, and `RemoveOldest` removes `x` from list and
index, reports it to the callback if there is one, and leaves `init` as it is.
The eviction loop of `Add` removes a suffix of the list from the tail upwards. -/
theorem C12_remove_oldest [Value V] (maxBytes : Int) (onEvicted : Bool) (c : Cache V)
    (s : Stamps) (hr : ReachableT maxBytes onEvicted c s) :
    ∃ m l, c.cache = some m ∧ c.list = some l ∧
      (l = [] → RemoveOldest c = .ok c) ∧
      (∀ init x, l = init ++ [x] →
        (∀ y ∈ init, s.lastOf x.Value.key < s.lastOf y.Value.key) ∧
        RemoveOldest c = .ok { c with
          list := some init
          nbytes := c.nbytes - (x.Value.key.utf8ByteSize : Int) - Value.Len x.Value.value
          cache := some (GoMap.del m x.Value.key)
          evicted := if c.OnEvicted then c.evicted ++ [(x.Value.key, x.Value.value)]
            else c.evicted }) ∧
      (∀ (fuel : Nat) (k : String) (v : V) (c1 : Cache V), Add fuel c k v = .ok c1 →
        ∃ e j,
          c1.list = some ((({ id := e, Value := { key := k, value := v } } : Element V) ::
            l.filter (fun y => decide (y.Value.key ≠ k))).take j) ∧
          c1.evicted = c.evicted ++ evictedCalls c.OnEvicted
            ((({ id := e, Value := { key := k, value := v } } : Element V) ::
              l.filter (fun y => decide (y.Value.key ≠ k))).drop j)) := by
  obtain ⟨⟨m, l, hc, hl, hL⟩, -, hS, -⟩ := hr.good
  refine ⟨m, l, hc, hl, fun h => ?_, fun init x h => ?_, fun fuel k v c1 ha => ?_⟩
  · subst h
    exact RemoveOldest_eq_nil hc hl
  · subst h
    refine ⟨fun y hy => ?_, RemoveOldest_eq_last hc hl hL⟩
    have hp := (hS _ hl).1
    rw [List.map_append, List.pairwise_append] at hp
    exact hp.2.2 _ (List.mem_map_of_mem (fun x : Element V => x.Value.key) hy) _ (by simp)
  · obtain ⟨e, j, a, b, -⟩ := Add_list hc hl hL ha
    exact ⟨e, j, a, b⟩

/-- C12 on the store of the demo run: the tail "c" was last touched at time 2,
before "a" (3) and "d" (4). -/
theorem C12_remove_oldest_witness :
    ∃ m l, demoStore.cache = some m ∧ demoStore.list = some l ∧
      (l = [] → RemoveOldest demoStore = .ok demoStore) ∧
      (∀ init x, l = init ++ [x] →
        (∀ y ∈ init, demoStamps.lastOf x.Value.key < demoStamps.lastOf y.Value.key) ∧
        RemoveOldest demoStore = .ok { demoStore with
          list := some init
          nbytes := demoStore.nbytes - (x.Value.key.utf8ByteSize : Int) -
            Value.Len x.Value.value
          cache := some (GoMap.del m x.Value.key)
          evicted := if demoStore.OnEvicted then
              demoStore.evicted ++ [(x.Value.key, x.Value.value)]
            else demoStore.evicted }) ∧
      (∀ (fuel : Nat) (k : String) (v : ByteView) (c1 : Cache ByteView),
        Add fuel demoStore k v = .ok c1 →
        ∃ e j,
          c1.list = some ((({ id := e, Value := { key := k, value := v } } :
              Element ByteView) ::
            l.filter (fun y => decide (y.Value.key ≠ k))).take j) ∧
          c1.evicted = demoStore.evicted ++ evictedCalls demoStore.OnEvicted
            ((({ id := e, Value := { key := k, value := v } } : Element ByteView) ::
              l.filter (fun y => decide (y.Value.key ≠ k))).drop j)) :=
  C12_remove_oldest 3 true demoStore demoStamps ⟨1, demoOps, by decide⟩

/-- C13: on a store reached from `New`, the index and the list carry the same
keys, no key occurs twice in the list or in the index, no node occurs twice,
every index entry points to a node with that key and every node is indexed
under its own key, and `Len` is the number of list nodes, which is the number
of index entries. -/
theorem C13_index_matches_list [Value V] (maxBytes : Int) (onEvicted : Bool) (c : Cache V)
    (hr : Reachable maxBytes onEvicted c) :
    ∃ m l, c.cache = some m ∧ c.list = some l ∧
      (∀ k, k ∈ m.map Prod.fst ↔ k ∈ l.map (fun x => x.Value.key)) ∧
      (l.map (fun x => x.Value.key)).Nodup ∧ (m.map Prod.fst).Nodup ∧
      (l.map Element.id).Nodup ∧
      (∀ k e, GoMap.find m k = some e → ∃ x ∈ l, x.id = e ∧ x.Value.key = k) ∧
      (∀ x ∈ l, GoMap.find m x.Value.key = some x.id) ∧
      Len c = .ok (l.length : Int) ∧ m.length = l.length := by
  obtain ⟨⟨m, l, hc, hl, hL⟩, -, -⟩ := hr.inv
  exact ⟨m, l, hc, hl, hL.keys_iff, hL.keys, hL.index, hL.ids, hL.toList, hL.toIndex,
    by simp only [Len, hc, hl], hL.length_eq⟩

/-- C13 on the store of the demo run. -/
theorem C13_index_matches_list_witness :
    ∃ m l, demoStore.cache = some m ∧ demoStore.list = some l ∧
      (∀ k, k ∈ m.map Prod.fst ↔ k ∈ l.map (fun x => x.Value.key)) ∧
      (l.map (fun x => x.Value.key)).Nodup ∧ (m.map Prod.fst).Nodup ∧
      (l.map Element.id).Nodup ∧
      (∀ k e, GoMap.find m k = some e → ∃ x ∈ l, x.id = e ∧ x.Value.key = k) ∧
      (∀ x ∈ l, GoMap.find m x.Value.key = some x.id) ∧
      Len demoStore = .ok (l.length : Int) ∧ m.length = l.length :=
  C13_index_matches_list 3 true demoStore ⟨1, demoOps, by decide⟩

/-- C14: on a store reached from `New` with a callback, `Remove` of a present
key and `RemoveOldest` on a non-empty list call `OnEvicted` once, with the key
and value of the entry they remove; `Add` calls it once for each entry its
eviction loop removes and, on a present key, not at all; `Clear` calls it once
for each live entry; `Get`, `Remove` of an absent key and `RemoveOldest` on an
empty list do not call it. -/
theorem C14_on_evicted_calls [Value V] (maxBytes : Int) (c : Cache V)
    (hr : Reachable maxBytes true c) :
    ∃ l, c.list = some l ∧
      (∀ x ∈ l, ∃ c1, Remove c x.Value.key = .ok c1 ∧
        c1.list = some (l.filter (fun y => decide (y.Value.key ≠ x.Value.key))) ∧
        c1.evicted = c.evicted ++ [(x.Value.key, x.Value.value)]) ∧
      (∀ k, (∀ x ∈ l, x.Value.key ≠ k) → Remove c k = .ok c) ∧
      (∀ init x, l = init ++ [x] → ∃ c1, RemoveOldest c = .ok c1 ∧
        c1.list = some init ∧ c1.evicted = c.evicted ++ [(x.Value.key, x.Value.value)]) ∧
      (l = [] → RemoveOldest c = .ok c) ∧
      (∀ k, ∃ c1 r, Get c k = .ok (c1, r) ∧ c1.evicted = c.evicted) ∧
      (∀ (fuel : Nat) (k : String) (v : V) (c1 : Cache V), Add fuel c k v = .ok c1 →
        ∃ e j,
          c1.list = some ((({ id := e, Value := { key := k, value := v } } : Element V) ::
            l.filter (fun y => decide (y.Value.key ≠ k))).take j) ∧
          c1.evicted = c.evicted ++
            (((({ id := e, Value := { key := k, value := v } } : Element V) ::
              l.filter (fun y => decide (y.Value.key ≠ k))).drop j).reverse.map
                onEvictedArgs) ∧
          ((∃ x ∈ l, x.Value.key = k) → c1.evicted = c.evicted)) ∧
      (∃ cs, cs.Perm (l.map onEvictedArgs) ∧
        Clear c = .ok { c with evicted := c.evicted ++ cs, list := none, cache := none }) := by
  obtain ⟨⟨m, l, hc, hl, hL⟩, -, ho⟩ := hr.inv
  have hB := hr.bounded
  refine ⟨l, hl, fun x hx => ?_, fun k habs => Remove_eq_miss hc hL habs,
    fun init x h => ?_, fun h => ?_, fun k => ?_, fun fuel k v c1 ha => ?_, ?_⟩
  · exact ⟨_, Remove_eq_hit hc hl hL hx, rfl, by simp [ho]⟩
  · subst h
    exact ⟨_, RemoveOldest_eq_last hc hl hL, rfl, by simp [ho]⟩
  · subst h
    exact RemoveOldest_eq_nil hc hl
  · rcases mem_key_or_absent l k with ⟨x, hx, rfl⟩ | habs
    · exact ⟨_, _, Get_eq_hit hc hl hL hx, rfl⟩
    · exact ⟨_, _, Get_eq_miss hc hL habs, rfl⟩
  · obtain ⟨e, j, a, b, -⟩ := Add_list hc hl hL ha
    refine ⟨e, j, a, ?_, ?_⟩
    · rw [b, ho]; simp [evictedCalls]
    · rintro ⟨x, hx, rfl⟩
      rw [Add_present hc hl hL hB hx fuel v, Except.ok.injEq] at ha
      rw [← ha]
  · obtain ⟨cs, h1, h2⟩ := Clear_linked hc hl hL
    refine ⟨cs, h1, ?_⟩
    rw [h2, ho]; simp

/-- C14 on the store of the demo run, whose callback has been called once, for
"b". -/
theorem C14_on_evicted_calls_witness :
    ∃ l, demoStore.list = some l ∧
      (∀ x ∈ l, ∃ c1, Remove demoStore x.Value.key = .ok c1 ∧
        c1.list = some (l.filter (fun y => decide (y.Value.key ≠ x.Value.key))) ∧
        c1.evicted = demoStore.evicted ++ [(x.Value.key, x.Value.value)]) ∧
      (∀ k, (∀ x ∈ l, x.Value.key ≠ k) → Remove demoStore k = .ok demoStore) ∧
      (∀ init x, l = init ++ [x] → ∃ c1, RemoveOldest demoStore = .ok c1 ∧
        c1.list = some init ∧
        c1.evicted = demoStore.evicted ++ [(x.Value.key, x.Value.value)]) ∧
      (l = [] → RemoveOldest demoStore = .ok demoStore) ∧
      (∀ k, ∃ c1 r, Get demoStore k = .ok (c1, r) ∧ c1.evicted = demoStore.evicted) ∧
      (∀ (fuel : Nat) (k : String) (v : ByteView) (c1 : Cache ByteView),
        Add fuel demoStore k v = .ok c1 →
        ∃ e j,
          c1.list = some ((({ id := e, Value := { key := k, value := v } } :
              Element ByteView) ::
            l.filter (fun y => decide (y.Value.key ≠ k))).take j) ∧
          c1.evicted = demoStore.evicted ++
            (((({ id := e, Value := { key := k, value := v } } : Element ByteView) ::
              l.filter (fun y => decide (y.Value.key ≠ k))).drop j).reverse.map
                onEvictedArgs) ∧
          ((∃ x ∈ l, x.Value.key = k) → c1.evicted = demoStore.evicted)) ∧
      (∃ cs, cs.Perm (l.map onEvictedArgs) ∧
        Clear demoStore = .ok { demoStore with
          evicted := demoStore.evicted ++ cs, list := none, cache := none }) :=
  C14_on_evicted_calls 3 demoStore ⟨1, demoOps, by decide⟩

/-- C19: `Clear` on a store reached from `New` returns, and the cleared store
has a nil index and list; on it `Len` is 0, `Get` misses for every key, and
`Add`, `Remove`, `RemoveOldest` and a second `Clear` return the store unchanged,
trace of callback calls included, so an `Add(k, v)` followed by `Get(k)` is a
miss. -/
theorem C19_cleared_is_inert [Value V] (maxBytes : Int) (onEvicted : Bool) (c : Cache V)
    (hr : Reachable maxBytes onEvicted c) :
    ∃ c0, Clear c = .ok c0 ∧ c0.cache = none ∧ c0.list = none ∧
      Len c0 = .ok 0 ∧ (∀ k, Get c0 k = .ok (c0, none)) ∧
      (∀ (fuel : Nat) (k : String) (v : V), Add fuel c0 k v = .ok c0) ∧
      (∀ k, Remove c0 k = .ok c0) ∧ RemoveOldest c0 = .ok c0 ∧ Clear c0 = .ok c0 := by
  obtain ⟨⟨m, l, hc, hl, hL⟩, -, -⟩ := hr.inv
  obtain ⟨cs, -, h2⟩ := Clear_linked hc hl hL
  obtain ⟨a1, a2, a3, a4, a5⟩ := inert_of_cache_none
    (c := ({ c with
      evicted := if c.OnEvicted then c.evicted ++ cs else c.evicted
      list := none
      cache := none } : Cache V)) rfl
  exact ⟨_, h2, rfl, rfl, a1, a2, a3, a4, a5, Clear_of_cleared rfl rfl⟩

/-- C19 on the store of the demo run. -/
theorem C19_cleared_is_inert_witness :
    ∃ c0, Clear demoStore = .ok c0 ∧ c0.cache = none ∧ c0.list = none ∧
      Len c0 = .ok 0 ∧ (∀ k, Get c0 k = .ok (c0, none)) ∧
      (∀ (fuel : Nat) (k : String) (v : ByteView), Add fuel c0 k v = .ok c0) ∧
      (∀ k, Remove c0 k = .ok c0) ∧ RemoveOldest c0 = .ok c0 ∧ Clear c0 = .ok c0 :=
  C19_cleared_is_inert 3 true demoStore ⟨1, demoOps, by decide⟩

end lru

end zcache

namespace zcache

namespace consistenthash

/-! ## What `Add` writes -/

theorem foldl_addReplica (p : String) (is : List Nat) : ∀ m : Map,
    (is.foldl (addReplica p) m).hash = m.hash ∧
    (is.foldl (addReplica p) m).replicas = m.replicas ∧
    (is.foldl (addReplica p) m).keys = m.keys ++ is.map (fun i => m.hash (toString i ++ p)) ∧
    ∀ h, GoMap.find (is.foldl (addReplica p) m).hashMap h =
      if h ∈ is.map (fun i => m.hash (toString i ++ p)) then some p
      else GoMap.find m.hashMap h := by
  induction is with
  | nil => intro m; simp
  | cons i is ih =>
    intro m
    obtain ⟨a, b, c, d⟩ := ih (addReplica p m i)
    have hh : (addReplica p m i).hash = m.hash := rfl
    rw [List.foldl_cons]
    refine ⟨a.trans hh, b, ?_, fun h => ?_⟩
    · rw [c, hh]
      simp [addReplica]
    · rw [d, hh]
      by_cases h1 : h ∈ is.map (fun i => m.hash (toString i ++ p))
      · simp [h1]
      · by_cases h2 : h = m.hash (toString i ++ p)
        · subst h2
          simp [h1, addReplica, GoMap.find_put_self]
        · simp [h1, h2, addReplica, GoMap.find_put_ne _ _ h2]

theorem addKey_spec (m : Map) (p : String) :
    (addKey m p).hash = m.hash ∧ (addKey m p).replicas = m.replicas ∧
    (addKey m p).keys = m.keys ++ vnodes m.hash m.replicas p ∧
    ∀ h, GoMap.find (addKey m p).hashMap h =
      if h ∈ vnodes m.hash m.replicas p then some p else GoMap.find m.hashMap h :=
  foldl_addReplica p _ m

theorem foldl_addKey (qs : List String) : ∀ m : Map,
    (qs.foldl addKey m).hash = m.hash ∧ (qs.foldl addKey m).replicas = m.replicas ∧
    (qs.foldl addKey m).keys = m.keys ++ vnodesOf m.hash m.replicas qs ∧
    (∀ h, h ∉ vnodesOf m.hash m.replicas qs →
      GoMap.find (qs.foldl addKey m).hashMap h = GoMap.find m.hashMap h) ∧
    (∀ h, h ∈ vnodesOf m.hash m.replicas qs →
      ∃ q ∈ qs, h ∈ vnodes m.hash m.replicas q ∧
        GoMap.find (qs.foldl addKey m).hashMap h = some q) := by
  induction qs with
  | nil => intro m; simp [vnodesOf]
  | cons q qs ih =>
    intro m
    obtain ⟨a1, a2, a3, a4⟩ := addKey_spec m q
    obtain ⟨b1, b2, b3, b4, b5⟩ := ih (addKey m q)
    rw [a1, a2] at b3 b4 b5
    rw [List.foldl_cons]
    have hv : vnodesOf m.hash m.replicas (q :: qs) =
        vnodes m.hash m.replicas q ++ vnodesOf m.hash m.replicas qs := by
      simp [vnodesOf]
    refine ⟨b1.trans a1, b2.trans a2, ?_, fun h hh => ?_, fun h hh => ?_⟩
    · rw [b3, a3, hv, List.append_assoc]
    · rw [hv, List.mem_append, not_or] at hh
      rw [b4 h hh.2, a4 h, if_neg hh.1]
    · by_cases h2 : h ∈ vnodesOf m.hash m.replicas qs
      · obtain ⟨q', hq', hv', hf⟩ := b5 h h2
        exact ⟨q', List.mem_cons_of_mem _ hq', hv', hf⟩
      · rw [hv, List.mem_append] at hh
        have h1 : h ∈ vnodes m.hash m.replicas q := hh.resolve_right h2
        refine ⟨q, List.mem_cons_self _ _, h1, ?_⟩
        rw [b4 h h2, a4 h, if_pos h1]

theorem Add_spec (m : Map) (qs : List String) :
    (Add m qs).hash = m.hash ∧ (Add m qs).replicas = m.replicas ∧
    (Add m qs).keys = (m.keys ++ vnodesOf m.hash m.replicas qs).insertionSort
      (fun a b => a ≤ b) ∧
    (∀ h, h ∉ vnodesOf m.hash m.replicas qs →
      GoMap.find (Add m qs).hashMap h = GoMap.find m.hashMap h) ∧
    (∀ h, h ∈ vnodesOf m.hash m.replicas qs →
      ∃ q ∈ qs, h ∈ vnodes m.hash m.replicas q ∧ GoMap.find (Add m qs).hashMap h = some q) := by
  obtain ⟨a1, a2, a3, a4, a5⟩ := foldl_addKey qs m
  refine ⟨a1, a2, ?_, a4, a5⟩
  show ((qs.foldl addKey m).keys).insertionSort (fun a b => a ≤ b) = _
  rw [a3]

theorem Add_keys_perm (m : Map) (qs : List String) :
    (Add m qs).keys.Perm (m.keys ++ vnodesOf m.hash m.replicas qs) := by
  rw [(Add_spec m qs).2.2.1]
  exact List.perm_insertionSort _ _

theorem length_vnodesOf (hash : Hash) (replicas : Int) (ps : List String) :
    (vnodesOf hash replicas ps).length = ps.length * replicas.toNat := by
  induction ps with
  | nil => simp [vnodesOf]
  | cons p ps ih =>
    have hv : vnodesOf hash replicas (p :: ps) =
        vnodes hash replicas p ++ vnodesOf hash replicas ps := by
      simp [vnodesOf]
    rw [hv, List.length_append, ih]
    simp [vnodes, Nat.succ_mul, Nat.add_comm]

theorem vnodesOf_append (hash : Hash) (replicas : Int) (ps qs : List String) :
    vnodesOf hash replicas (ps ++ qs) = vnodesOf hash replicas ps ++ vnodesOf hash replicas qs := by
  simp [vnodesOf]

theorem mem_vnodesOf {hash : Hash} {replicas : Int} {ps : List String} {h : Nat} :
    h ∈ vnodesOf hash replicas ps ↔ ∃ p ∈ ps, h ∈ vnodes hash replicas p := by
  simp [vnodesOf]

/-- The ring built from `New replicas fn` by the calls `Add(adds[0]...)`,
`Add(adds[1]...)`, ...: its hash list is the sorted list of the virtual nodes of
all peers added, and its map sends a hash only to an added peer that has a
virtual node with that hash. -/
theorem built_spec (replicas : Int) (fn : Option Hash) (adds : List (List String)) :
    (adds.foldl Add (New replicas fn)).hash = (New replicas fn).hash ∧
    (adds.foldl Add (New replicas fn)).replicas = replicas ∧
    (adds.foldl Add (New replicas fn)).keys.Perm
      (vnodesOf (New replicas fn).hash replicas adds.flatten) ∧
    (∀ h q, GoMap.find (adds.foldl Add (New replicas fn)).hashMap h = some q →
      q ∈ adds.flatten ∧ h ∈ vnodes (New replicas fn).hash replicas q) := by
  induction adds using List.reverseRecOn with
  | nil =>
    refine ⟨rfl, rfl, ?_, fun h q hq => ?_⟩
    · simp [New, vnodesOf]
    · simp [New, GoMap.find] at hq
  | append_singleton adds qs ih =>
    obtain ⟨a1, a2, a3, a4⟩ := ih
    rw [List.foldl_append, List.foldl_cons, List.foldl_nil]
    obtain ⟨b1, b2, b3, b4, b5⟩ := Add_spec (adds.foldl Add (New replicas fn)) qs
    have b6 := Add_keys_perm (adds.foldl Add (New replicas fn)) qs
    rw [a1, a2] at b4 b5 b6
    refine ⟨b1.trans a1, b2.trans a2, ?_, fun h q hq => ?_⟩
    · rw [List.flatten_append, vnodesOf_append]
      simp only [List.flatten_cons, List.flatten_nil, List.append_nil]
      exact b6.trans (a3.append_right _)
    · rw [List.flatten_append]
      simp only [List.flatten_cons, List.flatten_nil, List.append_nil, List.mem_append]
      by_cases hv : h ∈ vnodesOf (New replicas fn).hash replicas qs
      · obtain ⟨q', hq', hv', hf⟩ := b5 h hv
        rw [hf, Option.some.injEq] at hq
        subst hq
        exact ⟨Or.inr hq', hv'⟩
      · rw [b4 h hv] at hq
        obtain ⟨c1, c2⟩ := a4 h q hq
        exact ⟨Or.inl c1, c2⟩

end consistenthash

end zcache

namespace zcache

namespace consistenthash

/-! ## The virtual node that serves a key -/

theorem IsOwner.unique {keys : List Nat} {h x y : Nat} (hx : IsOwner keys h x)
    (hy : IsOwner keys h y) : x = y := by
  obtain ⟨hxm, hx⟩ := hx
  obtain ⟨hym, hy⟩ := hy
  rcases hx with ⟨hx1, hx2⟩ | ⟨hx1, hx2⟩
  · rcases hy with ⟨hy1, hy2⟩ | ⟨hy1, hy2⟩
    · exact le_antisymm (hx2 y hym hy1) (hy2 x hxm hx1)
    · exact absurd (hy1 x hxm) (by omega)
  · rcases hy with ⟨hy1, hy2⟩ | ⟨hy1, hy2⟩
    · exact absurd (hx1 y hym) (by omega)
    · exact le_antisymm (hx2 y hym) (hy2 x hxm)

theorem IsOwner.mono {keys keys1 : List Nat} {h x : Nat} (hx : IsOwner keys1 h x)
    (hsub : ∀ y ∈ keys, y ∈ keys1) (hm : x ∈ keys) : IsOwner keys h x := by
  obtain ⟨-, hx⟩ := hx
  refine ⟨hm, ?_⟩
  rcases hx with ⟨hx1, hx2⟩ | ⟨hx1, hx2⟩
  · exact Or.inl ⟨hx1, fun y hy => hx2 y (hsub y hy)⟩
  · exact Or.inr ⟨fun y hy => hx1 y (hsub y hy), fun y hy => hx2 y (hsub y hy)⟩

/-- On a ring with virtual nodes, `Get` returns what the map holds for the
virtual node that serves the hash of the key. -/
theorem Get_owner (m : Map) (hI : RingInv m) (k : String) (hne : m.keys ≠ []) :
    ∃ x, IsOwner m.keys (m.hash k) x ∧ GoMap.find m.hashMap x = some (Get m k) := by
  obtain ⟨hr, hlo, hhi⟩ := search_keys m hI k
  have hn : m.keys.length ≠ 0 := fun h => hne (List.length_eq_zero.1 h)
  have hpos : 0 < m.keys.length := Nat.pos_of_ne_zero hn
  rw [Get_of_keys_ne_nil m k hn]
  by_cases hlt : Search m.keys.length (fun i => decide (m.keys.getD i 0 ≥ m.hash k)) <
      m.keys.length
  · rw [Nat.mod_eq_of_lt hlt]
    have hmem := mem_iff_getD.2 ⟨_, hlt, rfl⟩
    obtain ⟨p, hp⟩ := hI.mapped _ hmem
    refine ⟨_, ⟨hmem, Or.inl ⟨hhi _ (Nat.le_refl _) hlt, fun y hy hge => ?_⟩⟩, by rw [hp]; rfl⟩
    obtain ⟨i, hi, rfl⟩ := mem_iff_getD.1 hy
    have hri : Search m.keys.length (fun i => decide (m.keys.getD i 0 ≥ m.hash k)) ≤ i := by
      by_contra hc
      have := hlo i (by omega)
      omega
    exact sorted_getD_mono hI.sorted hri hi
  · have hrn : Search m.keys.length (fun i => decide (m.keys.getD i 0 ≥ m.hash k)) =
        m.keys.length := by omega
    rw [hrn, Nat.mod_self]
    have hmem := mem_iff_getD.2 ⟨0, hpos, rfl⟩
    obtain ⟨p, hp⟩ := hI.mapped _ hmem
    refine ⟨_, ⟨hmem, Or.inr ⟨fun y hy => ?_, fun y hy => ?_⟩⟩, by rw [hp]; rfl⟩
    · obtain ⟨i, hi, rfl⟩ := mem_iff_getD.1 hy
      exact hlo i (by omega)
    · obtain ⟨i, hi, rfl⟩ := mem_iff_getD.1 hy
      exact sorted_getD_mono hI.sorted (Nat.zero_le i) hi

/-- `Get` reads the ring only through its hash function, its hash list and the
map entries of the hashes in that list. -/
theorem Get_congr {m m1 : Map} (hh : m.hash = m1.hash) (hk : m.keys = m1.keys)
    (hf : ∀ x ∈ m.keys, GoMap.find m.hashMap x = GoMap.find m1.hashMap x) (k : String) :
    Get m k = Get m1 k := by
  by_cases hn : m.keys.length = 0
  · have hn1 : m1.keys.length = 0 := hk ▸ hn
    simp only [Get, hn, hn1, if_true]
  · have hn1 : m1.keys.length ≠ 0 := hk ▸ hn
    rw [Get_of_keys_ne_nil m k hn, Get_of_keys_ne_nil m1 k hn1, ← hk, ← hh]
    rw [hf]
    exact mem_iff_getD.2 ⟨_, Nat.mod_lt _ (Nat.pos_of_ne_zero hn), rfl⟩

/-! ## Properties of rings built by `Add` -/

/-- C15: with `replicas >= 1`, on a ring to which no peer other than `p` has
been added, and `p` at least once (in one `Add` call or several), `Get(k)` is
`p` for every key. -/
theorem C15_single_peer (fn : Option Hash) (replicas : Int) (hrep : 1 ≤ replicas)
    (p : String) (adds : List (List String)) (honly : ∀ q ∈ adds.flatten, q = p)
    (hadded : p ∈ adds.flatten) (k : String) :
    Get (adds.foldl Add (New replicas fn)) k = p := by
  obtain ⟨-, -, a3, a4⟩ := built_spec replicas fn adds
  have hI := Reachable.ringInv ⟨replicas, fn, adds, rfl⟩
  have hne : (adds.foldl Add (New replicas fn)).keys ≠ [] := by
    intro h
    have hlen := a3.length_eq
    rw [h, length_vnodesOf, List.length_nil] at hlen
    have h1 : 0 < adds.flatten.length := List.length_pos_of_mem hadded
    have h2 : 0 < replicas.toNat := by omega
    have hpos := Nat.mul_pos h1 h2
    rw [← hlen] at hpos
    exact Nat.lt_irrefl 0 hpos
  obtain ⟨x, -, hx⟩ := Get_owner _ hI k hne
  exact honly _ (a4 x _ hx).1

/-- C15 on the ring with three replicas to which "node" was added twice. -/
theorem C15_single_peer_witness :
    Get ([["node"], [], ["node"]].foldl Add (New 3 (some atoi))) "17" = "node" :=
  C15_single_peer (some atoi) 3 (by decide) "node" [["node"], [], ["node"]] (by decide)
    (by decide) "17"

/-- C16: after any sequence of `Add` calls on `New replicas fn` with
`replicas >= 0`, the hash list is sorted, it is a permutation of the virtual
nodes `hash(itoa(i) ++ p)`, `i` in `[0, replicas)`, of the peers added, one
batch per time a peer was added; a further `Add` of `n` peers makes it longer by
`n * replicas`; and the map holds, for every hash in the list, an added peer. -/
theorem C16_ring_contents (fn : Option Hash) (replicas : Int) (hrep : 0 ≤ replicas)
    (adds : List (List String)) :
    (adds.foldl Add (New replicas fn)).keys.Sorted (fun a b => a ≤ b) ∧
    (adds.foldl Add (New replicas fn)).keys.Perm
      (adds.flatten.flatMap (fun p => (List.range replicas.toNat).map
        (fun i => (New replicas fn).hash (toString i ++ p)))) ∧
    (∀ qs : List String,
      (((Add (adds.foldl Add (New replicas fn)) qs).keys.length : Nat) : Int) =
        (adds.foldl Add (New replicas fn)).keys.length + qs.length * replicas) ∧
    (∀ h ∈ (adds.foldl Add (New replicas fn)).keys, ∃ p ∈ adds.flatten,
      GoMap.find (adds.foldl Add (New replicas fn)).hashMap h = some p) := by
  obtain ⟨a1, a2, a3, a4⟩ := built_spec replicas fn adds
  have hI := Reachable.ringInv ⟨replicas, fn, adds, rfl⟩
  refine ⟨hI.sorted, a3, fun qs => ?_, fun h hh => ?_⟩
  · have := (Add_keys_perm (adds.foldl Add (New replicas fn)) qs).length_eq
    rw [List.length_append, length_vnodesOf, a2] at this
    rw [this]
    push_cast
    rw [Int.toNat_of_nonneg hrep]
  · obtain ⟨p, hp⟩ := hI.mapped h hh
    exact ⟨p, (a4 h p hp).1, hp⟩

/-- C16 on the ring of the test, built in two `Add` calls. -/
theorem C16_ring_contents_witness :
    ([["6", "4"], ["2"]].foldl Add (New 3 (some atoi))).keys.Sorted (fun a b => a ≤ b) ∧
    ([["6", "4"], ["2"]].foldl Add (New 3 (some atoi))).keys.Perm
      ([["6", "4"], ["2"]].flatten.flatMap (fun p => (List.range (3 : Int).toNat).map
        (fun i => (New 3 (some atoi)).hash (toString i ++ p)))) ∧
    (∀ qs : List String,
      (((Add ([["6", "4"], ["2"]].foldl Add (New 3 (some atoi))) qs).keys.length : Nat) : Int) =
        ([["6", "4"], ["2"]].foldl Add (New 3 (some atoi))).keys.length + qs.length * 3) ∧
    (∀ h ∈ ([["6", "4"], ["2"]].foldl Add (New 3 (some atoi))).keys,
      ∃ p ∈ [["6", "4"], ["2"]].flatten,
        GoMap.find ([["6", "4"], ["2"]].foldl Add (New 3 (some atoi))).hashMap h = some p) :=
  C16_ring_contents (some atoi) 3 (by decide) [["6", "4"], ["2"]]

end consistenthash

end zcache

namespace zcache

namespace consistenthash

/-- C18: for two sequences of `Add` calls on `New replicas fn` whose peers are,
all together, permutations of each other, if no hash is a virtual node of two
different peers, the two rings give the same `Get(k)` for every key. -/
theorem C18_order_independent (fn : Option Hash) (replicas : Int)
    (adds adds1 : List (List String)) (hperm : adds.flatten.Perm adds1.flatten)
    (hsep : ∀ p ∈ adds.flatten, ∀ q ∈ adds.flatten,
      ∀ h ∈ vnodes (New replicas fn).hash replicas p,
        h ∈ vnodes (New replicas fn).hash replicas q → p = q)
    (k : String) :
    Get (adds.foldl Add (New replicas fn)) k = Get (adds1.foldl Add (New replicas fn)) k := by
  obtain ⟨a1, a2, a3, a4⟩ := built_spec replicas fn adds
  obtain ⟨b1, b2, b3, b4⟩ := built_spec replicas fn adds1
  have hI := Reachable.ringInv ⟨replicas, fn, adds, rfl⟩
  have hI1 := Reachable.ringInv ⟨replicas, fn, adds1, rfl⟩
  have hkeys : (adds.foldl Add (New replicas fn)).keys =
      (adds1.foldl Add (New replicas fn)).keys := by
    refine List.eq_of_perm_of_sorted ?_ hI.sorted hI1.sorted
    exact a3.trans ((hperm.flatMap_right _).trans b3.symm)
  refine Get_congr (a1.trans b1.symm) hkeys (fun x hx => ?_) k
  obtain ⟨p, hp⟩ := hI.mapped x hx
  obtain ⟨q, hq⟩ := hI1.mapped x (hkeys ▸ hx)
  obtain ⟨c1, c2⟩ := a4 x p hp
  obtain ⟨d1, d2⟩ := b4 x q hq
  rw [hp, hq, hsep p c1 q (hperm.mem_iff.2 d1) x c2 d2]

/-- C18 on the ring of the test: "6", "4", "2" in one call against "2" and then
"4", "6" in a second call. -/
theorem C18_order_independent_witness :
    Get ([["6", "4", "2"]].foldl Add (New 3 (some atoi))) "23" =
      Get ([["2"], ["4", "6"]].foldl Add (New 3 (some atoi))) "23" :=
  C18_order_independent (some atoi) 3 [["6", "4", "2"]] [["2"], ["4", "6"]] (by decide)
    (by decide) "23"

/-- C20: on a ring built from `New` by `Add` calls, after a further
`Add(qs...)` the value of `Get(k)` is the value it had before or one of the
peers in `qs`. -/
theorem C20_add_keeps_or_takes (m : Map) (hm : Reachable m) (qs : List String) (k : String) :
    Get (Add m qs) k = Get m k ∨ Get (Add m qs) k ∈ qs := by
  have hI := hm.ringInv
  have hI1 := Add_ringInv m qs hI.mapped
  obtain ⟨a1, a2, -, a4, a5⟩ := Add_spec m qs
  have hperm := Add_keys_perm m qs
  by_cases hne : (Add m qs).keys = []
  · left
    have hk : m.keys = [] := by
      have := hperm.length_eq
      rw [hne, List.length_append] at this
      exact List.length_eq_zero.1 (by simp at this; omega)
    simp [Get, hne, hk]
  · obtain ⟨x, hx, hfx⟩ := Get_owner (Add m qs) hI1 k hne
    by_cases hv : x ∈ vnodesOf m.hash m.replicas qs
    · right
      obtain ⟨q, hq, -, hf⟩ := a5 x hv
      rw [hf, Option.some.injEq] at hfx
      rw [← hfx]
      exact hq
    · left
      have hxm : x ∈ m.keys := by
        have := hperm.mem_iff.1 hx.1
        rw [List.mem_append] at this
        exact this.resolve_right hv
      have hsub : ∀ y ∈ m.keys, y ∈ (Add m qs).keys :=
        fun y hy => hperm.mem_iff.2 (List.mem_append_left _ hy)
      have hown : IsOwner m.keys (m.hash k) x := by
        rw [a1] at hx
        exact hx.mono hsub hxm
      obtain ⟨y, hy, hfy⟩ := Get_owner m hI k (List.ne_nil_of_mem hxm)
      have hxy := hown.unique hy
      subst hxy
      rw [a4 x hv, hfy, Option.some.injEq] at hfx
      exact hfx.symm

/-- C20 on the ring of the test: adding "8" and "2" again moves key "27" from
"2" to "8" and leaves key "23" with "4". -/
theorem C20_add_keeps_or_takes_witness :
    (Get (Add (Add (New 3 (some atoi)) ["6", "4", "2"]) ["8", "2"]) "27" =
        Get (Add (New 3 (some atoi)) ["6", "4", "2"]) "27" ∨
      Get (Add (Add (New 3 (some atoi)) ["6", "4", "2"]) ["8", "2"]) "27" ∈ ["8", "2"]) ∧
    Get (Add (Add (New 3 (some atoi)) ["6", "4", "2"]) ["8", "2"]) "27" = "8" ∧
    Get (Add (Add (New 3 (some atoi)) ["6", "4", "2"]) ["8", "2"]) "23" = "4" :=
  ⟨C20_add_keeps_or_takes (Add (New 3 (some atoi)) ["6", "4", "2"])
      ⟨3, some atoi, [["6", "4", "2"]], rfl⟩ ["8", "2"] "27",
    by decide, by decide⟩

end consistenthash

/-- C17: on every group, in every state and environment, `Get("")` returns the
zero `ByteView` with the empty-key error and leaves the group, its cache
included, and the environment, its trace of callback calls included, as they
were. -/
theorem C17_empty_key {U : Type} (g : Group U) (fuel : Nat) (w : World U) :
    g.Get fuel "" w = .ok ((⟨[]⟩, some ⟨"key 字段为空"⟩), g, w) := by
  simp only [Group.Get, if_true]

end zcache

namespace zcache

namespace lru

variable {V : Type}

/-! ## The number of iterations of the eviction loop -/

theorem evictLoop_eq_count [Value V] (fuel : Nat) : ∀ c : Cache V,
    evictLoop fuel c = (evictLoopCount fuel c).map Prod.fst := by
  induction fuel with
  | zero =>
    intro c
    unfold evictLoop evictLoopCount
    cases evictCond c with
    | error f => rfl
    | ok b => cases b <;> rfl
  | succ n ih =>
    intro c
    unfold evictLoop evictLoopCount
    cases evictCond c with
    | error f => rfl
    | ok b =>
      cases b with
      | false => rfl
      | true =>
        cases RemoveOldest c with
        | error f => rfl
        | ok c1 =>
          simp only [ih c1]
          cases evictLoopCount n c1 with
          | error f => rfl
          | ok p => rfl

/-- With `maxBytes > 0` the loop makes `max(0, n - maxBytes)` calls on a list of
`n` entries: it returns with that count once it may run that long, and not
before. -/
theorem evictLoopCount_pos [Value V] (fuel : Nat) :
    ∀ {c : Cache V} {m : GoMap String Nat} {l : List (Element V)},
    c.cache = some m → c.list = some l → Linked m l c.nextId → 0 < c.maxBytes →
    (((l.length : Int) - c.maxBytes).toNat ≤ fuel →
      ∃ c1, evictLoopCount fuel c = .ok (c1, ((l.length : Int) - c.maxBytes).toNat) ∧
        c1.list = some (l.take (l.length - ((l.length : Int) - c.maxBytes).toNat))) ∧
    (fuel < ((l.length : Int) - c.maxBytes).toNat →
      evictLoopCount fuel c = .error .outOfFuel) := by
  induction fuel with
  | zero =>
    intro c m l hc hl hL hmb
    constructor
    · intro hd
      have hle : (l.length : Int) ≤ c.maxBytes := by omega
      have hcond := (evictCond_false_iff hl).2 (Or.inr hle)
      have hd0 : ((l.length : Int) - c.maxBytes).toNat = 0 := by omega
      rw [hd0]
      exact ⟨c, by simp only [evictLoopCount, hcond], by simp [hl]⟩
    · intro hd
      have hgt : c.maxBytes < (l.length : Int) := by omega
      have hcond : evictCond c = .ok true := by
        have h0 : c.maxBytes ≠ 0 := by omega
        simp [evictCond, h0, hl, hgt]
      simp only [evictLoopCount, hcond]
  | succ n ih =>
    intro c m l hc hl hL hmb
    by_cases hle : (l.length : Int) ≤ c.maxBytes
    · have hcond := (evictCond_false_iff hl).2 (Or.inr hle)
      have hd0 : ((l.length : Int) - c.maxBytes).toNat = 0 := by omega
      rw [hd0]
      exact ⟨fun _ => ⟨c, by simp only [evictLoopCount, hcond], by simp [hl]⟩,
        fun h => absurd h (Nat.not_lt_zero _)⟩
    · have hgt : c.maxBytes < (l.length : Int) := by omega
      have hcond : evictCond c = .ok true := by
        have h0 : c.maxBytes ≠ 0 := by omega
        simp [evictCond, h0, hl, hgt]
      rcases List.eq_nil_or_concat l with rfl | ⟨init, x, hcat⟩
      · simp at hgt; omega
      · rw [List.concat_eq_append] at hcat
        subst hcat
        have h1 := RemoveOldest_eq_last hc hl hL
        have hL1 : Linked (GoMap.del m x.Value.key) init c.nextId := by
          have := hL.remove (x := x) (by simp)
          rwa [listRemove_append_last hL.ids] at this
        obtain ⟨a, b⟩ := ih (c := { c with
            list := some init
            nbytes := c.nbytes - (x.Value.key.utf8ByteSize : Int) - Value.Len x.Value.value
            cache := some (GoMap.del m x.Value.key)
            evicted := if c.OnEvicted then c.evicted ++ [(x.Value.key, x.Value.value)]
              else c.evicted }) rfl rfl hL1 hmb
        have hlen : ((init ++ [x]).length : Int) = (init.length : Int) + 1 := by simp
        have hd : (((init ++ [x]).length : Int) - c.maxBytes).toNat =
            ((init.length : Int) - c.maxBytes).toNat + 1 := by
          rw [hlen] at hgt ⊢
          omega
        simp only at a b
        rw [hd]
        constructor
        · intro hf
          obtain ⟨c1, e1, e2⟩ := a (by omega)
          refine ⟨c1, by simp only [evictLoopCount, hcond, h1, e1], ?_⟩
          rw [e2]
          have hk : (init ++ [x]).length - (((init.length : Int) - c.maxBytes).toNat + 1) =
              init.length - ((init.length : Int) - c.maxBytes).toNat := by
            simp only [List.length_append, List.length_singleton]
            omega
          rw [hk, List.take_append_of_le_length (Nat.sub_le _ _)]
        · intro hf
          have e1 := b (by omega)
          simp only [evictLoopCount, hcond, h1, e1]

/-- With `maxBytes = 0` the loop makes no call. -/
theorem evictLoopCount_zero [Value V] (fuel : Nat) {c : Cache V} (h0 : c.maxBytes = 0) :
    evictLoopCount fuel c = .ok (c, 0) := by
  have hcond : evictCond c = .ok false := by simp [evictCond, h0]
  cases fuel <;> simp only [evictLoopCount, hcond]

/-- With `maxBytes < 0` the condition of the loop holds on the empty list, where
`RemoveOldest` changes nothing. -/
theorem evictCond_neg_nil [Value V] {c : Cache V} {m : GoMap String Nat}
    (hc : c.cache = some m) (hl : c.list = some []) (hneg : c.maxBytes < 0) :
    evictCond c = .ok true ∧ RemoveOldest c = .ok c := by
  have h0 : c.maxBytes ≠ 0 := by omega
  exact ⟨by simp [evictCond, h0, hl, hneg], RemoveOldest_eq_nil hc hl⟩

/-- The state of `Add` at the head of its eviction loop, the same for every
number of iterations the loop is given. -/
theorem Add_head [Value V] {c : Cache V} (hI : Inv c) (k : String) (v : V) :
    ∃ (mid : Cache V) (m1 : GoMap String Nat) (l1 : List (Element V)),
      (∀ fuel, Add fuel c k v = evictLoop fuel mid) ∧ mid.cache = some m1 ∧
      mid.list = some l1 ∧ Linked m1 l1 mid.nextId ∧ mid.maxBytes = c.maxBytes ∧
      ∃ e, l1 = { id := e, Value := { key := k, value := v } } ::
        (c.list.getD []).filter (fun y => decide (y.Value.key ≠ k)) := by
  obtain ⟨m, l, hc, hl, hL⟩ := hI
  cases hf : GoMap.find m k with
  | none =>
    have habs : ∀ x ∈ l, x.Value.key ≠ k := by
      intro x hx e
      have := hL.toIndex x hx
      rw [e, hf] at this
      cases this
    refine ⟨{ c with
        list := some ({ id := c.nextId, Value := { key := k, value := v } } :: l)
        cache := some (GoMap.put m k c.nextId)
        nextId := c.nextId + 1 }, _, _, fun fuel => ?_, rfl, rfl, hL.push v hf, rfl,
      c.nextId, ?_⟩
    · simp only [Add, hc, hf, hl]
    · rw [hl, Option.getD_some, filter_key_of_absent habs]
  | some e =>
    obtain ⟨x, hx, rfl, rfl⟩ := hL.toList k e hf
    obtain ⟨h1, h2⟩ := elementAt_listMoveToFront hL.ids hx
    have hp : Linked m (x :: listRemove l x.id) c.nextId := by
      rw [← h1]; exact hL.perm (listMoveToFront_perm hL.ids _)
    have hs := listSetValue_head hp.ids v
    have hL1 := hp.setValue x.id v
    rw [hs] at hL1
    refine ⟨{ c with
        list := some ({ id := x.id, Value := { key := x.Value.key, value := v } } ::
          listRemove l x.id)
        nbytes := c.nbytes - Value.Len x.Value.value + Value.Len v }, m, _,
      fun fuel => ?_, hc, rfl, hL1, rfl, x.id, ?_⟩
    · simp only [Add, hc, hf, hl, h2]
      rw [h1, hs]
    · rw [hl, Option.getD_some, listRemove_eq_filter_key hL hx]

end lru

end zcache

namespace zcache

namespace lru

variable {V : Type}

/-- C21: for an `Add(k, v)` on a live store, let `mid` be the store at the head
of the eviction loop and `n` the number of its entries.  `Add` returns for some
number of iterations exactly when `maxBytes >= 0`.  With `maxBytes > 0` the loop
makes `max(0, n - maxBytes)` calls of `RemoveOldest`: it returns with that count
when given at least that many iterations and is still running after any smaller
number.  With `maxBytes = 0` it makes none.  With `maxBytes < 0` it runs out of
every number of iterations, and on the empty list its condition holds while
`RemoveOldest` changes nothing. -/
theorem C21_eviction_loop_terminates [Value V] (c : Cache V) (hI : Inv c) (k : String)
    (v : V) :
    ∃ (mid : Cache V) (l : List (Element V)),
      (∀ fuel, Add fuel c k v = evictLoop fuel mid) ∧
      (∀ fuel, evictLoop fuel mid = (evictLoopCount fuel mid).map Prod.fst) ∧
      mid.list = some l ∧ mid.maxBytes = c.maxBytes ∧
      (∃ e, l = { id := e, Value := { key := k, value := v } } ::
        (c.list.getD []).filter (fun y => decide (y.Value.key ≠ k))) ∧
      (0 ≤ c.maxBytes ↔ ∃ fuel c1, Add fuel c k v = .ok c1) ∧
      (0 < c.maxBytes → ∀ fuel,
        (((l.length : Int) - c.maxBytes).toNat ≤ fuel →
          ∃ c1, evictLoopCount fuel mid =
            .ok (c1, ((l.length : Int) - c.maxBytes).toNat)) ∧
        (fuel < ((l.length : Int) - c.maxBytes).toNat →
          evictLoopCount fuel mid = .error .outOfFuel)) ∧
      (c.maxBytes = 0 → ∀ fuel, evictLoopCount fuel mid = .ok (mid, 0)) ∧
      (c.maxBytes < 0 → (∀ fuel, Add fuel c k v = .error .outOfFuel) ∧
        ∀ c2 : Cache V, c2.maxBytes = c.maxBytes → c2.cache ≠ none → c2.list = some [] →
          evictCond c2 = .ok true ∧ RemoveOldest c2 = .ok c2) := by
  obtain ⟨mid, m1, l, h1, h2, h3, h4, h5, h6⟩ := Add_head hI k v
  have hpos : 0 < c.maxBytes → ∀ fuel,
      (((l.length : Int) - c.maxBytes).toNat ≤ fuel →
        ∃ c1, evictLoopCount fuel mid =
          .ok (c1, ((l.length : Int) - c.maxBytes).toNat)) ∧
      (fuel < ((l.length : Int) - c.maxBytes).toNat →
        evictLoopCount fuel mid = .error .outOfFuel) := by
    intro hmb fuel
    obtain ⟨a, b⟩ := evictLoopCount_pos fuel h2 h3 h4 (h5 ▸ hmb)
    rw [h5] at a b
    exact ⟨fun hf => (a hf).imp (fun c1 hc1 => hc1.1), b⟩
  have hzero : c.maxBytes = 0 → ∀ fuel, evictLoopCount fuel mid = .ok (mid, 0) :=
    fun h0 fuel => evictLoopCount_zero fuel (h5.trans h0)
  have hneg : c.maxBytes < 0 → ∀ fuel, Add fuel c k v = .error .outOfFuel :=
    fun hn fuel => Add_diverges hI hn fuel k v
  refine ⟨mid, l, h1, fun fuel => evictLoop_eq_count fuel mid, h3, h5, h6, ⟨fun h0 => ?_,
    fun hex => ?_⟩, hpos, hzero, fun hn => ⟨hneg hn, fun c2 e2 hc2 hl2 => ?_⟩⟩
  · rcases lt_or_eq_of_le h0 with hp | hz
    · obtain ⟨c1, hc1⟩ :=
        (hpos hp ((l.length : Int) - c.maxBytes).toNat).1 (Nat.le_refl _)
      exact ⟨_, c1, by rw [h1, evictLoop_eq_count, hc1]; rfl⟩
    · exact ⟨0, mid, by rw [h1, evictLoop_eq_count, hzero hz.symm 0]; rfl⟩
  · by_contra hlt
    obtain ⟨fuel, c1, hc1⟩ := hex
    rw [hneg (by omega) fuel] at hc1
    cases hc1
  · cases hm : c2.cache with
    | none => exact absurd hm hc2
    | some m2 => exact evictCond_neg_nil hm hl2 (e2 ▸ hn)

/-- C21 on the store of the demo run, which holds three entries with
`maxBytes = 3`: the `Add` of a fourth key makes one call of `RemoveOldest`. -/
theorem C21_eviction_loop_terminates_witness :
    ∃ (mid : Cache ByteView) (l : List (Element ByteView)),
      (∀ fuel, Add fuel demoStore "e" ⟨[5]⟩ = evictLoop fuel mid) ∧
      (∀ fuel, evictLoop fuel mid = (evictLoopCount fuel mid).map Prod.fst) ∧
      mid.list = some l ∧ mid.maxBytes = demoStore.maxBytes ∧
      (∃ e, l = { id := e, Value := { key := "e", value := ⟨[5]⟩ } } ::
        (demoStore.list.getD []).filter (fun y => decide (y.Value.key ≠ "e"))) ∧
      (0 ≤ demoStore.maxBytes ↔ ∃ fuel c1, Add fuel demoStore "e" ⟨[5]⟩ = .ok c1) ∧
      (0 < demoStore.maxBytes → ∀ fuel,
        (((l.length : Int) - demoStore.maxBytes).toNat ≤ fuel →
          ∃ c1, evictLoopCount fuel mid =
            .ok (c1, ((l.length : Int) - demoStore.maxBytes).toNat)) ∧
        (fuel < ((l.length : Int) - demoStore.maxBytes).toNat →
          evictLoopCount fuel mid = .error .outOfFuel)) ∧
      (demoStore.maxBytes = 0 → ∀ fuel, evictLoopCount fuel mid = .ok (mid, 0)) ∧
      (demoStore.maxBytes < 0 → (∀ fuel, Add fuel demoStore "e" ⟨[5]⟩ = .error .outOfFuel) ∧
        ∀ c2 : Cache ByteView, c2.maxBytes = demoStore.maxBytes → c2.cache ≠ none →
          c2.list = some [] → evictCond c2 = .ok true ∧ RemoveOldest c2 = .ok c2) :=
  C21_eviction_loop_terminates demoStore
    (Reachable.inv (show Reachable 3 true demoStore from ⟨1, demoOps, by decide⟩)).1 "e" ⟨[5]⟩

end lru

end zcache
